import Mathlib

/-!
# libtar `block.c`: reading and writing tar entry headers

A shallow embedding of `src/libtar/block.c` (`th_read_internal`, `th_read`,
`th_write_extended`, `th_write`) and theorems about it.

Conventions of the embedding.

* A byte is a `Nat` below 256, a block is a `List Nat` of length 512.
* `struct tar_header` starts with the 512 bytes of the on-disk header (`raw`),
  followed by the in-memory optional fields.  A `char *` field is `none` for
  `NULL` and `some bytes` for the bytes of the object it points to.
* The block I/O collaborator (`tar_block_read`, `tar_block_write`) is a script of
  results: the reader consumes `input`, the writer appends to `output`.
* What `block.c` takes from `libtar.h` and `encode.c` (size field codec,
  `th_finish`, `th_crc_ok`, `SIZE_MAX`, the fscrypt build switches) is the record
  `Env`; `libtar` is the instance modelled from the specification.
-/

namespace Libtar

/-! ## Constants and tags -/

/-- The block size `T_BLOCKSIZE`. -/
def T_BLOCKSIZE : Nat := 512

/-- One archive block, 512 bytes. -/
abbrev Block := List Nat

/-- A well-formed block: 512 bytes, each below 256. -/
def isBlock (b : Block) : Prop := b.length = 512 ∧ ∀ x ∈ b, x < 256

instance (b : Block) : Decidable (isBlock b) :=
  inferInstanceAs (Decidable (b.length = 512 ∧ ∀ x ∈ b, x < 256))

/-- The bytes of a C string literal. -/
def lit (s : String) : List Nat := s.toList.map Char.toNat

/-- `SELINUX_TAG`, block.c line 33. -/
def SELINUX_TAG : List Nat := lit "RHT.security.selinux="
/-- `FSCRYPT_TAG`, block.c line 37. -/
def FSCRYPT_TAG : List Nat := lit "TWRP.security.fscrypt="
/-- `CAPABILITIES_TAG`, block.c line 41. -/
def CAPABILITIES_TAG : List Nat := lit "SCHILY.xattr.security.capability="
/-- `ANDROID_USER_DEFAULT_TAG`, block.c line 45. -/
def ANDROID_USER_DEFAULT_TAG : List Nat := lit "ANDROID.user.default"
/-- `ANDROID_USER_CACHE_TAG`, block.c line 49. -/
def ANDROID_USER_CACHE_TAG : List Nat := lit "ANDROID.user.inode_cache"
/-- `ANDROID_USER_CODE_CACHE_TAG`, block.c line 53. -/
def ANDROID_USER_CODE_CACHE_TAG : List Nat := lit "ANDROID.user.inode_code_cache"

/-- Modelled from the spec: `sizeof(struct vfs_cap_data)`, the "fixed-size binary
blob" of a POSIX capability record; the struct is declared in a system header
(a 32-bit magic and two pairs of 32-bit sets: 20 bytes). -/
def sizeof_vfs_cap_data : Nat := 20

/-- Modelled from the spec: the sentinel type flag of a GNU long-link header
(`GNU_LONGLINK_TYPE`, declared in libtar.h): the letter K of the GNU tar format. -/
def GNU_LONGLINK_TYPE : Nat := 75
/-- Modelled from the spec: the sentinel type flag of a GNU long-name header
(`GNU_LONGNAME_TYPE`, declared in libtar.h): the letter L of the GNU tar format. -/
def GNU_LONGNAME_TYPE : Nat := 76
/-- Modelled from the spec: the sentinel type flag of an extended-metadata header
(`TH_EXT_TYPE`, declared in libtar.h): the letter x of the POSIX pax format. -/
def TH_EXT_TYPE : Nat := 120
/-- Modelled from the spec: the sentinel type flag of a policy header
(`TH_POL_TYPE`, declared in libtar.h): the letter p. -/
def TH_POL_TYPE : Nat := 112

/-- Modelled from the spec: `TMAGIC`, the magic tag of a POSIX ustar header
(declared in libtar.h). -/
def TMAGIC : List Nat := lit "ustar"
/-- Modelled from the spec: `TMAGLEN`. -/
def TMAGLEN : Nat := 6
/-- Modelled from the spec: `TVERSION`, the version tag of a POSIX ustar header. -/
def TVERSION : List Nat := lit "00"
/-- Modelled from the spec: `TVERSLEN`. -/
def TVERSLEN : Nat := 2

/-! ## The option bit mask -/

/-- The bits of `t->options` that block.c tests with `BIT_ISSET` or `&`, one
boolean per flag (the bit positions are declared in libtar.h). -/
structure Options where
  TAR_GNU : Bool := false
  TAR_IGNORE_EOT : Bool := false
  TAR_CHECK_MAGIC : Bool := false
  TAR_CHECK_VERSION : Bool := false
  TAR_IGNORE_CRC : Bool := false
  TAR_STORE_SELINUX : Bool := false
  TAR_STORE_FSCRYPT_POL : Bool := false
  TAR_STORE_POSIX_CAP : Bool := false
  TAR_STORE_ANDROID_USER_XATTR : Bool := false
deriving DecidableEq, Repr

/-! ## The header structure -/

/-- The object `t->th_buf.fep` points to: `null`, a freshly allocated policy that
was never written (`fresh`), or a policy holding bytes. -/
inductive Fep where
  | null
  | fresh
  | policy (bytes : List Nat)
deriving DecidableEq, Repr

/-- The structure `struct tar_header` (declared in libtar.h): the 512 on-disk
bytes followed by the in-memory optional fields. -/
structure tar_header where
  raw : Block
  gnu_longname : Option (List Nat)
  gnu_longlink : Option (List Nat)
  selinux_context : Option (List Nat)
  fep : Fep
  has_cap_data : Bool
  cap_data : List Nat
  has_user_default : Bool
  has_user_cache : Bool
  has_user_code_cache : Bool
deriving DecidableEq, Repr

/-- The all-zero block. -/
def zeroBlock : Block := List.replicate 512 0

/-- The header after `memset(&(t->th_buf), 0, sizeof(struct tar_header))`. -/
def tar_header.zero : tar_header where
  raw := zeroBlock
  gnu_longname := none
  gnu_longlink := none
  selinux_context := none
  fep := Fep.null
  has_cap_data := false
  cap_data := List.replicate sizeof_vfs_cap_data 0
  has_user_default := false
  has_user_cache := false
  has_user_code_cache := false

/-- The bytes `off .. off+len-1` of a block. -/
def field (b : Block) (off len : Nat) : List Nat := (b.drop off).take len

/-- Overwrite the bytes of `b` from offset `off` with `bytes`; what would fall
beyond the end of `b` is dropped. -/
def poke (b : List Nat) (off : Nat) (bytes : List Nat) : List Nat :=
  (b.take off ++ bytes ++ b.drop (off + bytes.length)).take b.length

/-- The field `name[0]`. -/
def name0 (b : Block) : Nat := b.headD 0
/-- The field `typeflag`, offset 156 of the ustar layout. -/
def typeflag (b : Block) : Nat := b.getD 156 0
/-- The field `size`, 12 bytes at offset 124. -/
def sizeField (b : Block) : List Nat := field b 124 12
/-- The field `chksum`, 8 bytes at offset 148. -/
def chksumField (b : Block) : List Nat := field b 148 8
/-- The field `magic`, 6 bytes at offset 257. -/
def magicField (b : Block) : List Nat := field b 257 6
/-- The field `version`, 2 bytes at offset 263. -/
def versionField (b : Block) : List Nat := field b 263 2

/-- The assignment `t->th_buf.typeflag = c`. -/
def setTypeflag (b : Block) (c : Nat) : Block := poke b 156 [c]

/-- The macro `TH_ISLONGLINK`. -/
def TH_ISLONGLINK (h : tar_header) : Prop := typeflag h.raw = GNU_LONGLINK_TYPE
/-- The macro `TH_ISLONGNAME`. -/
def TH_ISLONGNAME (h : tar_header) : Prop := typeflag h.raw = GNU_LONGNAME_TYPE
/-- The macro `TH_ISEXTHEADER`. -/
def TH_ISEXTHEADER (h : tar_header) : Prop := typeflag h.raw = TH_EXT_TYPE
/-- The macro `TH_ISPOLHEADER`. -/
def TH_ISPOLHEADER (h : tar_header) : Prop := typeflag h.raw = TH_POL_TYPE

instance (h : tar_header) : Decidable (TH_ISLONGLINK h) :=
  inferInstanceAs (Decidable (typeflag h.raw = GNU_LONGLINK_TYPE))
instance (h : tar_header) : Decidable (TH_ISLONGNAME h) :=
  inferInstanceAs (Decidable (typeflag h.raw = GNU_LONGNAME_TYPE))
instance (h : tar_header) : Decidable (TH_ISEXTHEADER h) :=
  inferInstanceAs (Decidable (typeflag h.raw = TH_EXT_TYPE))
instance (h : tar_header) : Decidable (TH_ISPOLHEADER h) :=
  inferInstanceAs (Decidable (typeflag h.raw = TH_POL_TYPE))

/-! ## C string functions -/

/-- The characters of the C string stored at the start of `buf`: the bytes before
the first NUL (all of `buf` when it holds no NUL). -/
def cstring (buf : List Nat) : List Nat := buf.takeWhile (fun c => c ≠ 0)

/-- The function `strlen`. -/
def strlen (buf : List Nat) : Nat := (cstring buf).length

/-- Reading a buffer as a NUL-terminated string without leaving the buffer:
`none` when the buffer holds no NUL byte. -/
def cstringIn (buf : List Nat) : Option (List Nat) :=
  if 0 ∈ buf then some (cstring buf) else none

/-- The comparison `strncmp(a, lit, n) == 0` for a literal `lit` of at least `n`
characters. -/
def strncmp_eq (a : List Nat) (l : List Nat) (n : Nat) : Bool :=
  a.take n == l.take n

/-- The function `strstr` on the string `s` (without its NUL): the offset of the
first occurrence of `tag`. -/
def strstr : List Nat → List Nat → Option Nat
  | [], tag => if tag.isEmpty then some 0 else none
  | c :: s, tag =>
    if tag.isPrefixOf (c :: s) then some 0
    else (strstr s tag).map (fun i => i + 1)

/-- The function `strchr` on the string `s` (without its NUL): the offset of the
first occurrence of the character `c`. -/
def strchr : List Nat → Nat → Option Nat
  | [], _ => none
  | d :: s, c => if d = c then some 0 else (strchr s c).map (fun i => i + 1)

/-! ## What block.c takes from the rest of libtar -/

/-- The declarations of libtar.h and encode.c that block.c uses and that are not
part of block.c: the size field macros, `th_finish`, `th_crc_ok`, the largest
`size_t` value, and the fscrypt build switches with the size of the policy
structure selected by them. -/
structure Env where
  th_get_size : Block → Nat
  th_set_size : Block → Nat → Block
  th_finish : Options → Block → Block
  th_crc_ok : Block → Bool
  SIZE_MAX : Nat
  USE_FSCRYPT : Bool
  sizeof_policy : Nat

/-! ## The block I/O collaborator -/

/-- One call of the read function of the collaborator: 512 bytes delivered, fewer
than 512 bytes delivered (`short 0` is end of file), or the error result -1. -/
inductive ReadEvent where
  | full (b : Block)
  | short (n : Fin 512)
  | error
deriving DecidableEq, Repr

/-- One call of the write function of the collaborator: 512 bytes taken, fewer
taken, or the error result -1. -/
inductive WriteResult where
  | ok
  | short (n : Fin 512)
  | error
deriving DecidableEq, Repr

/-- A block handed to `tar_block_write`: the header buffer `&(t->th_buf)` or a
data buffer. -/
inductive Written where
  | header (b : Block)
  | data (b : Block)
deriving DecidableEq, Repr

/-- The bytes of a written block. -/
def Written.block : Written → Block
  | Written.header b => b
  | Written.data b => b

/-- The values of `errno` that block.c assigns; `unset` is any value it did not
assign itself (left by the caller or by the collaborator). -/
inductive Errno where
  | unset
  | EINVAL
  | E2BIG
deriving DecidableEq, Repr

/-- The handle `TAR`: options, the header buffer, and the state of the
collaborator (blocks still to be read, blocks written, results of the coming
write calls; an empty `wscript` means every write succeeds) with `errno`. -/
structure TAR where
  options : Options
  th_buf : tar_header
  input : List ReadEvent
  output : List Written
  wscript : List WriteResult
  errno : Errno
deriving DecidableEq, Repr

/-- The macro `tar_block_read(t, buf)`: the result `i` of the read function, the
block delivered when `i` is 512, and the remaining input.  At the end of the
script the read function reports end of file (0).  The bytes delivered by a short
read are not modelled. -/
def tar_block_read : List ReadEvent → Int × Option Block × List ReadEvent
  | [] => (0, none, [])
  | ReadEvent.full b :: rest => (512, some b, rest)
  | ReadEvent.short n :: rest => (n.val, none, rest)
  | ReadEvent.error :: rest => (-1, none, rest)

/-- The macro `tar_block_write(t, buf)`: the result of the write function; the
block is appended to the output when all 512 bytes were taken. -/
def tar_block_write (t : TAR) (w : Written) : Int × TAR :=
  match t.wscript with
  | [] => (512, { t with output := t.output ++ [w] })
  | WriteResult.ok :: rest => (512, { t with output := t.output ++ [w], wscript := rest })
  | WriteResult.short n :: rest => (n.val, { t with wscript := rest })
  | WriteResult.error :: rest => (-1, { t with wscript := rest })

/-- The idiom `if (i != -1) errno = EINVAL; return -1;` that follows every failed
block transfer. -/
def io_fail (i : Int) (t : TAR) : Int × TAR :=
  (-1, if i ≠ -1 then { t with errno := Errno.EINVAL } else t)

/-! ## `th_read_internal` (block.c lines 68-127) -/

/-- The loop of `th_read_internal`, by recursion on the input script:
`num_zero_blocks`, the header buffer and the input are its state; the result is the
return value with the header buffer and the remaining input. -/
def th_read_internal_loop (E : Env) (o : Options) :
    Nat → tar_header → List ReadEvent → Int × tar_header × List ReadEvent
  | _, h, [] => (0, h, [])
  | _, h, ReadEvent.short n :: rest => (n.val, h, rest)
  | _, h, ReadEvent.error :: rest => (-1, h, rest)
  | num_zero_blocks, h, ReadEvent.full b :: rest =>
    let h := { h with raw := b }
    if name0 b = 0 then
      if o.TAR_IGNORE_EOT = false ∧ num_zero_blocks + 1 ≥ 2 then (0, h, rest)
      else th_read_internal_loop E o (num_zero_blocks + 1) h rest
    else if o.TAR_CHECK_MAGIC = true ∧ strncmp_eq (magicField b) TMAGIC (TMAGLEN - 1) = false then
      (-2, h, rest)
    else if o.TAR_CHECK_VERSION = true ∧ strncmp_eq (versionField b) TVERSION TVERSLEN = false then
      (-2, h, rest)
    else if o.TAR_IGNORE_CRC = false ∧ E.th_crc_ok b = false then
      (-2, h, rest)
    else (512, h, rest)

/-- The function `th_read_internal`. -/
def th_read_internal (E : Env) (t : TAR) : Int × TAR :=
  let r := th_read_internal_loop E t.options 0 t.th_buf t.input
  (r.1, { t with th_buf := r.2.1, input := r.2.2 })

/-! ## `th_read` (block.c lines 130-411) -/

/-- The number of continuation blocks, `(sz / T_BLOCKSIZE) + (sz % T_BLOCKSIZE ? 1 : 0)`. -/
def blocksOf (sz : Nat) : Nat := sz / T_BLOCKSIZE + (if sz % T_BLOCKSIZE ≠ 0 then 1 else 0)

/-- The loop that reads `blocks` raw blocks into the freshly allocated buffer
(lines 193-210 and 243-260): the result of the last `tar_block_read`, the bytes
stored in the buffer so far, and the remaining input. -/
def read_blocks : Nat → List Nat → List ReadEvent → Int × List Nat × List ReadEvent
  | 0, acc, inp => (512, acc, inp)
  | j + 1, acc, inp =>
    match tar_block_read inp with
    | (_, some b, rest) => read_blocks j (acc ++ b) rest
    | (i, none, rest) => (i, acc, rest)

/-- The outcome of a section of `th_read`: fall through to the next section with
the new state, or return. -/
inductive Flow where
  | next (t : TAR)
  | ret (r : Int) (t : TAR)
deriving DecidableEq, Repr

/-- The section "check for GNU long link extention" (lines 176-223). -/
def th_read_longlink (E : Env) (t : TAR) : Flow :=
  if TH_ISLONGLINK t.th_buf then
    let sz := E.th_get_size t.th_buf.raw % (E.SIZE_MAX + 1)
    let blocks := blocksOf sz
    if blocks > E.SIZE_MAX / T_BLOCKSIZE then
      Flow.ret (-1) { t with errno := Errno.E2BIG }
    else
      let r := read_blocks blocks [] t.input
      let t := { t with th_buf := { t.th_buf with gnu_longlink := some r.2.1 }, input := r.2.2 }
      if r.1 ≠ 512 then
        let f := io_fail r.1 t
        Flow.ret f.1 f.2
      else
        let r := th_read_internal E t
        if r.1 ≠ 512 then
          let f := io_fail r.1 r.2
          Flow.ret f.1 f.2
        else Flow.next r.2
  else Flow.next t

/-- The section "check for GNU long name extention" (lines 226-273). -/
def th_read_longname (E : Env) (t : TAR) : Flow :=
  if TH_ISLONGNAME t.th_buf then
    let sz := E.th_get_size t.th_buf.raw % (E.SIZE_MAX + 1)
    let blocks := blocksOf sz
    if blocks > E.SIZE_MAX / T_BLOCKSIZE then
      Flow.ret (-1) { t with errno := Errno.E2BIG }
    else
      let r := read_blocks blocks [] t.input
      let t := { t with th_buf := { t.th_buf with gnu_longname := some r.2.1 }, input := r.2.2 }
      if r.1 ≠ 512 then
        let f := io_fail r.1 t
        Flow.ret f.1 f.2
      else
        let r := th_read_internal E t
        if r.1 ≠ 512 then
          let f := io_fail r.1 r.2
          Flow.ret f.1 f.2
        else Flow.next r.2
  else Flow.next t

/-- The "posix capabilities" part of the decoder (lines 302-311) on the data block
`buf` (whose last byte is already forced to NUL). -/
def decode_cap (buf : Block) (h : tar_header) : tar_header :=
  match strstr (cstring buf) CAPABILITIES_TAG with
  | some start =>
    if start + CAPABILITIES_TAG.length < strlen buf then
      { h with cap_data := field buf (start + CAPABILITIES_TAG.length) sizeof_vfs_cap_data,
               has_cap_data := true }
    else h
  | none => h

/-- The "selinux contexts" part of the decoder (lines 313-325); the context is
stored as the object `strndup` returns, characters and terminating NUL. -/
def decode_selinux (buf : Block) (h : tar_header) : tar_header :=
  match strstr (cstring buf) SELINUX_TAG with
  | some start =>
    if start + SELINUX_TAG.length < strlen buf then
      let s := (cstring buf).drop (start + SELINUX_TAG.length)
      match strchr s 10 with
      | some e => { h with selinux_context := some (s.take e ++ [0]) }
      | none => h
    else h
  | none => h

/-- The three "android user" parts of the decoder (lines 327-352). -/
def decode_user (buf : Block) (h : tar_header) : tar_header :=
  let h := if (strstr (cstring buf) ANDROID_USER_DEFAULT_TAG).isSome
    then { h with has_user_default := true } else h
  let h := if (strstr (cstring buf) ANDROID_USER_CACHE_TAG).isSome
    then { h with has_user_cache := true } else h
  if (strstr (cstring buf) ANDROID_USER_CODE_CACHE_TAG).isSome
    then { h with has_user_code_cache := true } else h

/-- The fscrypt part of the decoder (lines 355-397), compiled under `USE_FSCRYPT`:
the policy object is allocated as soon as the tag is found, and filled only when
the selector byte is the digit zero. -/
def decode_fscrypt (E : Env) (buf : Block) (h : tar_header) : tar_header :=
  if E.USE_FSCRYPT = true then
    match strstr (cstring buf) FSCRYPT_TAG with
    | some start =>
      if start + FSCRYPT_TAG.length < strlen buf then
        if buf.getD (start + FSCRYPT_TAG.length) 0 = 48 then
          { h with fep := Fep.policy (field buf (start + FSCRYPT_TAG.length + 1) E.sizeof_policy) }
        else { h with fep := Fep.fresh }
      else h
    | none => h
  else h

/-- The decoder of one extended data block (lines 297-398), after
`buf[T_BLOCKSIZE-1] = 0`. -/
def decode_ext (E : Env) (data : Block) (h : tar_header) : tar_header :=
  let buf := data.set (T_BLOCKSIZE - 1) 0
  decode_fscrypt E buf (decode_user buf (decode_selinux buf (decode_cap buf h)))

/-- The first half of the body of the extended-header loop (lines 278-399): an
oversized header reads nothing, any other header reads and decodes one data
block. -/
def th_read_ext_block (E : Env) (t : TAR) : Flow :=
  let sz := E.th_get_size t.th_buf.raw % (E.SIZE_MAX + 1)
  if sz ≥ T_BLOCKSIZE then Flow.next t
  else
    match tar_block_read t.input with
    | (_, some data, rest) =>
      Flow.next { t with th_buf := decode_ext E data t.th_buf, input := rest }
    | (i, none, rest) =>
      let f := io_fail i { t with input := rest }
      Flow.ret f.1 f.2

/-- The loop `while (TH_ISEXTHEADER(t) || TH_ISPOLHEADER(t))` (lines 276-408) and
the final `return 0`, with a bound on the number of iterations; `none` when the
bound is used up. -/
def th_read_ext_loop (E : Env) : Nat → TAR → Option (Int × TAR)
  | 0, _ => none
  | fuel + 1, t =>
    if TH_ISEXTHEADER t.th_buf ∨ TH_ISPOLHEADER t.th_buf then
      match th_read_ext_block E t with
      | Flow.ret r t => some (r, t)
      | Flow.next t =>
        let r := th_read_internal E t
        if r.1 ≠ 512 then some (io_fail r.1 r.2)
        else th_read_ext_loop E fuel r.2
    else some (0, t)

/-- The function `th_read`.  The header buffer is cleared first (lines 142-163:
the owned fields are released and the whole structure is set to zero); every
round of the extended-header loop consumes a block, so the length of the input
bounds the number of rounds. -/
def th_read (E : Env) (t : TAR) : Option (Int × TAR) :=
  let t := { t with th_buf := tar_header.zero }
  let r := th_read_internal E t
  if r.1 = 0 then some (1, r.2)
  else if r.1 ≠ 512 then some (io_fail r.1 r.2)
  else
    match th_read_longlink E r.2 with
    | Flow.ret r t => some (r, t)
    | Flow.next t =>
      match th_read_longname E t with
      | Flow.ret r t => some (r, t)
      | Flow.next t => th_read_ext_loop E (t.input.length + 1) t

/-! ## `th_write_extended` and `th_write` (block.c lines 413-756) -/

/-- The digits of `n` in base `base` as ASCII characters, most significant first,
in front of `acc`; `fuel` bounds the number of digits. -/
def digitsAux (base : Nat) : Nat → Nat → List Nat → List Nat
  | 0, _, acc => acc
  | fuel + 1, n, acc =>
    if n < base then (48 + n) :: acc
    else digitsAux base fuel (n / base) ((48 + n % base) :: acc)

/-- The conversion `%d` of a non-negative number. -/
def decimal (n : Nat) : List Nat := digitsAux 10 (n + 1) n []

/-- The call `snprintf(buf + ptr, T_BLOCKSIZE, ...)` producing `text`: at most 511
characters and a terminating NUL are stored. -/
def snprintf_at (buf : Block) (ptr : Nat) (text : List Nat) : Block :=
  poke buf ptr (text.take (T_BLOCKSIZE - 1) ++ [0])

/-- The call `strncpy(buf, ptr, T_BLOCKSIZE)` into the zeroed buffer: the
characters of the string at `ptr`, at most 512 of them, then zero bytes. -/
def strncpy_block (ptr : List Nat) : Block :=
  let s := cstring (ptr.take T_BLOCKSIZE)
  s ++ List.replicate (T_BLOCKSIZE - s.length) 0

/-- The function `th_write_extended`: the return value, the new state, and the
buffer `buf` (set to zero after a successful write). -/
def th_write_extended (E : Env) (t : TAR) (buf : Block) (sz : Nat) : Int × TAR × Block :=
  let type2 := typeflag t.th_buf.raw
  let sz2 := E.th_get_size t.th_buf.raw
  let t := { t with th_buf := { t.th_buf with raw := setTypeflag t.th_buf.raw TH_EXT_TYPE } }
  if sz ≥ T_BLOCKSIZE then (-1, { t with errno := Errno.EINVAL }, buf)
  else
    let t := { t with th_buf := { t.th_buf with
      raw := E.th_finish t.options (E.th_set_size t.th_buf.raw sz) } }
    let w := tar_block_write t (Written.header t.th_buf.raw)
    if w.1 ≠ 512 then ((io_fail w.1 w.2).1, (io_fail w.1 w.2).2, buf)
    else
      let w := tar_block_write w.2 (Written.data buf)
      if w.1 ≠ 512 then ((io_fail w.1 w.2).1, (io_fail w.1 w.2).2, buf)
      else
        let t := w.2
        let t := { t with th_buf := { t.th_buf with
          raw := E.th_set_size (setTypeflag t.th_buf.raw type2) sz2 } }
        (0, t, zeroBlock)

/-- The loop "write out extra blocks containing long name" (lines 498-509 and
549-560): `j` counts down to 1, `ptr` is the rest of the string object; the result
of the last write, the new state and the final `ptr`. -/
def write_long_blocks : Nat → List Nat → TAR → Int × TAR × List Nat
  | 0, ptr, t => (512, t, ptr)
  | j + 1, ptr, t =>
    if j + 1 > 1 then
      let w := tar_block_write t (Written.data (ptr.take T_BLOCKSIZE))
      if w.1 ≠ 512 then (w.1, w.2, ptr)
      else write_long_blocks j (ptr.drop T_BLOCKSIZE) w.2
    else (512, t, ptr)

/-- The body of the two GNU sections of `th_write` (lines 480-522 for the long
link, 531-573 for the long name), which differ in the field written and in the
sentinel type only: `str` is the string object, `ty` the sentinel type.  The block count `j` is
an `int` in the source; lengths are taken to be below 2^31 blocks. -/
def th_write_gnu (E : Env) (ty : Nat) (str : List Nat) (t : TAR) : Flow :=
  let type2 := typeflag t.th_buf.raw
  let sz2 := E.th_get_size t.th_buf.raw
  let sz := strlen str
  let t := { t with th_buf := { t.th_buf with
    raw := E.th_finish t.options (E.th_set_size (setTypeflag t.th_buf.raw ty) sz) } }
  let w := tar_block_write t (Written.header t.th_buf.raw)
  if w.1 ≠ 512 then Flow.ret (io_fail w.1 w.2).1 (io_fail w.1 w.2).2
  else
    let l := write_long_blocks (blocksOf sz) str w.2
    if l.1 ≠ 512 then Flow.ret (io_fail l.1 l.2.1).1 (io_fail l.1 l.2.1).2
    else
      let w := tar_block_write l.2.1 (Written.data (strncpy_block l.2.2))
      if w.1 ≠ 512 then Flow.ret (io_fail w.1 w.2).1 (io_fail w.1 w.2).2
      else
        let t := w.2
        Flow.next { t with th_buf := { t.th_buf with
          raw := E.th_set_size (setTypeflag t.th_buf.raw type2) sz2 } }

/-- The locals of `th_write` used to build extended data blocks: the buffer `buf`,
the offset of `ptr` in it, and `total_sz`. -/
structure WLocals where
  buf : Block
  ptr : Nat
  total_sz : Nat
deriving DecidableEq, Repr

/-- The outcome of a section of `th_write`: fall through or return. -/
inductive WFlow where
  | next (t : TAR) (l : WLocals)
  | ret (r : Int) (t : TAR)
deriving DecidableEq, Repr

/-- The adjustment `if(sz >= 100) ++sz;` ("another ascci digit for size"). -/
def bump (sz : Nat) : Nat := if sz ≥ 100 then sz + 1 else sz

/-- The test `if (total_sz + sz >= T_BLOCKSIZE)` with both branches, repeated in
front of every record but the first: write the pending data block and start again
at the head of the buffer, or add `sz` to `total_sz`. -/
def make_room (E : Env) (t : TAR) (l : WLocals) (sz : Nat) : WFlow :=
  if l.total_sz + sz ≥ T_BLOCKSIZE then
    let x := th_write_extended E t l.buf l.total_sz
    if x.1 ≠ 0 then WFlow.ret (-1) x.2.1
    else WFlow.next x.2.1 { buf := x.2.2, ptr := 0, total_sz := sz }
  else WFlow.next t { l with total_sz := l.total_sz + sz }

/-- The SELinux section (lines 579-595). -/
def th_write_selinux (t : TAR) (l : WLocals) : WFlow :=
  match t.options.TAR_STORE_SELINUX, t.th_buf.selinux_context with
  | true, some ctx =>
    let sz := bump (SELINUX_TAG.length + strlen ctx + 3 + 1)
    let buf := snprintf_at l.buf l.ptr (decimal sz ++ [32] ++ SELINUX_TAG ++ cstring ctx ++ [10])
    WFlow.next t { buf := buf, ptr := l.ptr + sz, total_sz := l.total_sz + sz }
  | _, _ => WFlow.next t l

/-- The bytes `memcpy` takes from the policy object: `sizeof_policy` bytes (zero
where the object holds none). -/
def fepBytes (E : Env) : Fep → List Nat
  | Fep.policy bytes => (bytes ++ List.replicate E.sizeof_policy 0).take E.sizeof_policy
  | _ => List.replicate E.sizeof_policy 0

/-- The fscrypt section (lines 597-640), compiled under `USE_FSCRYPT`. -/
def th_write_fscrypt (E : Env) (t : TAR) (l : WLocals) : WFlow :=
  if E.USE_FSCRYPT = true ∧ t.options.TAR_STORE_FSCRYPT_POL = true ∧ t.th_buf.fep ≠ Fep.null then
    let sz := bump (FSCRYPT_TAG.length + E.sizeof_policy + 1 + 3 + 1)
    match make_room E t l sz with
    | WFlow.ret r t => WFlow.ret r t
    | WFlow.next t l =>
      let buf := snprintf_at l.buf l.ptr (decimal sz ++ [32] ++ FSCRYPT_TAG ++ [48])
      let buf := poke buf (l.ptr + sz - E.sizeof_policy - 1) (fepBytes E t.th_buf.fep)
      let buf := poke buf (l.ptr + sz - 1) [10]
      WFlow.next t { l with buf := buf, ptr := l.ptr + sz }
  else WFlow.next t l

/-- The capabilities section (lines 642-667). -/
def th_write_cap (E : Env) (t : TAR) (l : WLocals) : WFlow :=
  if t.options.TAR_STORE_POSIX_CAP = true ∧ t.th_buf.has_cap_data = true then
    let sz := bump (CAPABILITIES_TAG.length + sizeof_vfs_cap_data + 3 + 1)
    match make_room E t l sz with
    | WFlow.ret r t => WFlow.ret r t
    | WFlow.next t l =>
      let buf := snprintf_at l.buf l.ptr (decimal sz ++ [32] ++ CAPABILITIES_TAG)
      let buf := poke buf (l.ptr + CAPABILITIES_TAG.length + 3)
        ((t.th_buf.cap_data ++ List.replicate sizeof_vfs_cap_data 0).take sizeof_vfs_cap_data)
      let buf := poke buf (l.ptr + sz - 1) [10]
      WFlow.next t { l with buf := buf, ptr := l.ptr + sz }
  else WFlow.next t l

/-- One Android attribute record (lines 670-690, 691-711 and 712-732, which differ
in the flag tested and in the tag only). -/
def th_write_user (E : Env) (flag : Bool) (tag : List Nat) (t : TAR) (l : WLocals) : WFlow :=
  if flag = true then
    let sz := tag.length + 3 + 1
    match make_room E t l sz with
    | WFlow.ret r t => WFlow.ret r t
    | WFlow.next t l =>
      let buf := snprintf_at l.buf l.ptr (decimal sz ++ [32] ++ tag)
      let buf := poke buf (l.ptr + sz - 1) [10]
      WFlow.next t { l with buf := buf, ptr := l.ptr + sz }
  else WFlow.next t l

/-- The section under `TAR_STORE_ANDROID_USER_XATTR` (lines 668-733). -/
def th_write_user_xattr (E : Env) (t : TAR) (l : WLocals) : WFlow :=
  if t.options.TAR_STORE_ANDROID_USER_XATTR = true then
    match th_write_user E t.th_buf.has_user_default ANDROID_USER_DEFAULT_TAG t l with
    | WFlow.ret r t => WFlow.ret r t
    | WFlow.next t l =>
      match th_write_user E t.th_buf.has_user_cache ANDROID_USER_CACHE_TAG t l with
      | WFlow.ret r t => WFlow.ret r t
      | WFlow.next t l =>
        th_write_user E t.th_buf.has_user_code_cache ANDROID_USER_CODE_CACHE_TAG t l
  else WFlow.next t l

/-- The end of `th_write` (lines 734-755): write the pending data block, finish
the real header and write it. -/
def th_write_final (E : Env) (t : TAR) (l : WLocals) : Int × TAR :=
  let x := if l.total_sz > 0 then th_write_extended E t l.buf l.total_sz else (0, t, l.buf)
  if x.1 ≠ 0 then (-1, x.2.1)
  else
    let t := x.2.1
    let t := { t with th_buf := { t.th_buf with raw := E.th_finish t.options t.th_buf.raw } }
    let w := tar_block_write t (Written.header t.th_buf.raw)
    if w.1 ≠ 512 then io_fail w.1 w.2
    else (0, w.2)

/-- The extended-metadata part of `th_write` (lines 576-755). -/
def th_write_ext (E : Env) (t : TAR) : Int × TAR :=
  match th_write_selinux t { buf := zeroBlock, ptr := 0, total_sz := 0 } with
  | WFlow.ret r t => (r, t)
  | WFlow.next t l =>
    match th_write_fscrypt E t l with
    | WFlow.ret r t => (r, t)
    | WFlow.next t l =>
      match th_write_cap E t l with
      | WFlow.ret r t => (r, t)
      | WFlow.next t l =>
        match th_write_user_xattr E t l with
        | WFlow.ret r t => (r, t)
        | WFlow.next t l => th_write_final E t l

/-- The long-link section of `th_write` (lines 474-523). -/
def th_write_longlink (E : Env) (t : TAR) : Flow :=
  match t.options.TAR_GNU, t.th_buf.gnu_longlink with
  | true, some str => th_write_gnu E GNU_LONGLINK_TYPE str t
  | _, _ => Flow.next t

/-- The long-name section of `th_write` (lines 525-574). -/
def th_write_longname (E : Env) (t : TAR) : Flow :=
  match t.options.TAR_GNU, t.th_buf.gnu_longname with
  | true, some str => th_write_gnu E GNU_LONGNAME_TYPE str t
  | _, _ => Flow.next t

/-- The function `th_write`. -/
def th_write (E : Env) (t : TAR) : Int × TAR :=
  match th_write_longlink E t with
  | Flow.ret r t => (r, t)
  | Flow.next t =>
    match th_write_longname E t with
    | Flow.ret r t => (r, t)
    | Flow.next t => th_write_ext E t

/-! ## The instance of `Env` modelled from the specification -/

/-- The value of the octal number at the start of `s` after `acc`: digits are read
up to the first byte that is not an octal digit. -/
def parseOct : Nat → List Nat → Nat
  | acc, [] => acc
  | acc, c :: s => if 48 ≤ c ∧ c ≤ 55 then parseOct (acc * 8 + (c - 48)) s else acc

/-- Modelled from the spec: decoding of an "octal numeric" header field
(`oct_to_int` of libtar): leading blanks are skipped, then octal digits are read. -/
def oct_to_int (s : List Nat) : Nat := parseOct 0 (s.dropWhile (fun c => c = 32))

/-- The octal digits of `n`. -/
def octal (n : Nat) : List Nat := digitsAux 8 (n + 1) n []

/-- The digits `ds` right-aligned in `width` columns, filled with blanks (the
conversion `%*lo`). -/
def padLeft (width : Nat) (ds : List Nat) : List Nat :=
  List.replicate (width - ds.length) 32 ++ ds

/-- Modelled from the spec: the checksum of a header block (`th_crc_calc`), "the
unsigned sum of all header bytes computed with the checksum field itself treated
as ASCII spaces". -/
def th_crc_calc (b : Block) : Nat := (b.take 148).sum + 8 * 32 + (b.drop 156).sum

/-- Modelled from the spec: the stored checksum (`th_get_crc`), the octal number
in the checksum field. -/
def th_get_crc (b : Block) : Nat := oct_to_int (chksumField b)

/-- Modelled from the spec: the macro `th_crc_ok`, "checksum matches the computed
sum". -/
def th_crc_ok (b : Block) : Bool := th_get_crc b == th_crc_calc b

/-- Modelled from the spec: the macro `th_get_size`, the "octal numeric" value of
the 12-byte size field. -/
def th_get_size (b : Block) : Nat := oct_to_int (sizeField b)

/-- Modelled from the spec: the macro `th_set_size`, which stores the size as
octal digits right-aligned in eleven columns and followed by a blank. -/
def th_set_size (b : Block) (sz : Nat) : Block :=
  poke b 124 ((padLeft 11 (octal sz)).take 11 ++ [32])

/-- Modelled from the spec: the function `th_finish` of encode.c, which produces
the magic, version and checksum of a header block ("finalize checksum"): the GNU
magic under `TAR_GNU`, the POSIX magic and version otherwise, then the checksum
as six octal digits followed by a blank and a NUL. -/
def th_finish (o : Options) (b : Block) : Block :=
  let b := if o.TAR_GNU = true then poke b 257 (lit "ustar " ++ [32, 0])
    else poke b 257 (lit "ustar" ++ [0] ++ lit "00")
  poke b 148 ((padLeft 6 (octal (th_crc_calc b)) ++ [32]).take 7 ++ [0])

/-- Modelled from the spec: the declarations block.c takes from the rest of
libtar, for a build with `size_t` of `w` bits, with or without `USE_FSCRYPT`, and
with a policy structure of `ps` bytes. -/
def libtar (w : Nat) (fscrypt : Bool) (ps : Nat) : Env where
  th_get_size := th_get_size
  th_set_size := th_set_size
  th_finish := th_finish
  th_crc_ok := th_crc_ok
  SIZE_MAX := 2 ^ w - 1
  USE_FSCRYPT := fscrypt
  sizeof_policy := ps

/-! ## Notions used in the statements -/

/-- A block that `th_read_internal` accepts as a header under the options `o`: its
first byte is not NUL and it passes the enabled magic, version and checksum
checks. -/
def accepted (E : Env) (o : Options) (b : Block) : Prop :=
  name0 b ≠ 0 ∧
  ¬ (o.TAR_CHECK_MAGIC = true ∧ strncmp_eq (magicField b) TMAGIC (TMAGLEN - 1) = false) ∧
  ¬ (o.TAR_CHECK_VERSION = true ∧ strncmp_eq (versionField b) TVERSION TVERSLEN = false) ∧
  ¬ (o.TAR_IGNORE_CRC = false ∧ E.th_crc_ok b = false)

instance (E : Env) (o : Options) (b : Block) : Decidable (accepted E o b) := by
  unfold accepted
  exact inferInstance


/-- The data block `b`, read as the decoder reads it, contains the tag `tag`. -/
def hasTag (b : Block) (tag : List Nat) : Prop :=
  (strstr (cstring (b.set (T_BLOCKSIZE - 1) 0)) tag).isSome = true

/-- Every optional field of `h` that is not empty has its origin in a block of `c`:
a long link or long name in a header with the matching sentinel type, every
extended field in a block that contains its tag; and capability bytes are zero
when `has_cap_data` is not set. -/
def decodedFrom (E : Env) (c : List ReadEvent) (h : tar_header) : Prop :=
  (h.gnu_longlink ≠ none → ∃ b, ReadEvent.full b ∈ c ∧ typeflag b = GNU_LONGLINK_TYPE) ∧
  (h.gnu_longname ≠ none → ∃ b, ReadEvent.full b ∈ c ∧ typeflag b = GNU_LONGNAME_TYPE) ∧
  (h.selinux_context ≠ none → ∃ b, ReadEvent.full b ∈ c ∧ hasTag b SELINUX_TAG) ∧
  (h.has_cap_data = true → ∃ b, ReadEvent.full b ∈ c ∧ hasTag b CAPABILITIES_TAG) ∧
  (h.has_cap_data = false → h.cap_data = List.replicate sizeof_vfs_cap_data 0) ∧
  (h.fep ≠ Fep.null → E.USE_FSCRYPT = true ∧ ∃ b, ReadEvent.full b ∈ c ∧ hasTag b FSCRYPT_TAG) ∧
  (h.has_user_default = true → ∃ b, ReadEvent.full b ∈ c ∧ hasTag b ANDROID_USER_DEFAULT_TAG) ∧
  (h.has_user_cache = true → ∃ b, ReadEvent.full b ∈ c ∧ hasTag b ANDROID_USER_CACHE_TAG) ∧
  (h.has_user_code_cache = true → ∃ b, ReadEvent.full b ∈ c ∧ hasTag b ANDROID_USER_CODE_CACHE_TAG)

/-- The state `t` was reached from the input `i0` by consuming a prefix `c`, and
the optional fields of its header come from `c`. -/
def Tr (E : Env) (i0 : List ReadEvent) (t : TAR) : Prop :=
  ∃ c, i0 = c ++ t.input ∧ decodedFrom E c t.th_buf

/-- As `Tr`, and the header block of `t` is one of the consumed blocks. -/
def TrCur (E : Env) (i0 : List ReadEvent) (t : TAR) : Prop :=
  ∃ c, i0 = c ++ t.input ∧ decodedFrom E c t.th_buf ∧ ReadEvent.full t.th_buf.raw ∈ c


/-! ## Sample data -/

/-- A handle with the given options, header and input, and nothing written. -/
def TAR.init (o : Options) (h : tar_header) (inp : List ReadEvent) : TAR where
  options := o
  th_buf := h
  input := inp
  output := []
  wscript := []
  errno := Errno.unset

/-- The argument of `malloc` in lines 189 and 239, `blocks * T_BLOCKSIZE` in
`size_t` arithmetic. -/
def alloc_size (E : Env) (blocks : Nat) : Nat := (blocks * T_BLOCKSIZE) % (E.SIZE_MAX + 1)

/-- A build with 64-bit `size_t`, fscrypt support and 12-byte policies. -/
def env64 : Env := libtar 64 true 12
/-- A build with 32-bit `size_t`, fscrypt support and 12-byte policies. -/
def env32 : Env := libtar 32 true 12

/-- The header of a regular file named file.txt, before `th_finish`. -/
def sampleRaw : Block := setTypeflag (poke zeroBlock 0 (lit "file.txt")) 48

/-- A finished header block of type `ty` and size `sz` for file.txt. -/
def sampleHeader (o : Options) (ty sz : Nat) : Block :=
  th_finish o (th_set_size (setTypeflag sampleRaw ty) sz)

/-- A data block holding `bytes`, filled with zero bytes. -/
def dataBlock (bytes : List Nat) : Block := poke zeroBlock 0 bytes

/-- The input script that delivers the blocks `bs` in full. -/
def fullBlocks (bs : List Block) : List ReadEvent := bs.map ReadEvent.full

/-- The blocks written so far, as an input script. -/
def TAR.written (t : TAR) : List ReadEvent := fullBlocks (t.output.map Written.block)

/-- Options of a writer that stores every extension, with GNU long names. -/
def storeAll : Options :=
  { TAR_GNU := true, TAR_STORE_SELINUX := true, TAR_STORE_FSCRYPT_POL := true,
    TAR_STORE_POSIX_CAP := true, TAR_STORE_ANDROID_USER_XATTR := true }

/-- The string object holding `n` letters a and the terminating NUL. -/
def aString (n : Nat) : List Nat := List.replicate n 97 ++ [0]

/-- An entry for file.txt whose long name is `n` letters a, written with `TAR_GNU`. -/
def entryLongName (n : Nat) : TAR :=
  TAR.init { TAR_GNU := true }
    { tar_header.zero with raw := sampleRaw, gnu_longname := some (aString n) } []

/-- A capability record as the kernel stores it for a file without the effective
flag: the magic `0x02000000` in little-endian order, then the permitted and
inheritable sets. -/
def sampleCap : List Nat := [0, 0, 0, 2, 0, 4, 0, 0, 0, 0, 0, 0, 0, 0, 0, 0, 0, 0, 0, 0]

/-- A capability record with the effective flag set (first byte 1). -/
def sampleCapEffective : List Nat := [1, 0, 0, 2, 0, 4, 0, 0, 0, 0, 0, 0, 0, 0, 0, 0, 0, 0, 0, 0]

/-- A 12-byte encryption policy of version 0 (first byte zero). -/
def samplePolicy : List Nat := [0, 1, 4, 0, 17, 34, 51, 68, 85, 102, 119, 136]

/-- A 12-byte encryption policy without a zero byte. -/
def samplePolicyNoZero : List Nat := [1, 1, 4, 2, 17, 34, 51, 68, 85, 102, 119, 136]

/-- An entry for file.txt that carries every extended field. -/
def entryFull (policy cap : List Nat) : TAR :=
  TAR.init storeAll
    { tar_header.zero with
        raw := sampleRaw, selinux_context := some (lit "u:object_r:system_file:s0" ++ [0]),
        fep := Fep.policy policy, has_cap_data := true, cap_data := cap,
        has_user_default := true, has_user_cache := true, has_user_code_cache := true } []

/-- An entry for file.txt with a SELinux context of `n` letters a and the
capability record `cap`, written with those two store options only. -/
def entrySelinuxCap (n : Nat) (cap : List Nat) : TAR :=
  TAR.init { TAR_STORE_SELINUX := true, TAR_STORE_POSIX_CAP := true }
    { tar_header.zero with
        raw := sampleRaw, selinux_context := some (aString n),
        has_cap_data := true, cap_data := cap } []

/-- Reading back, with the options `o`, what `th_write` wrote for the entry `t`. -/
def readBack (E : Env) (o : Options) (t : TAR) : Option (Int × TAR) :=
  th_read E (TAR.init o tar_header.zero (th_write E t).2.written)

/-- The in-memory fields of a header, for comparison: the header with its on-disk
bytes left out. -/
def extFields (h : tar_header) : tar_header := { h with raw := [] }

/-- The invariant of the writer under the options `o`: the options are `o`, the
header buffer is a well-formed block, and every header block written so far is
the result of `th_finish` on a well-formed block. -/
def WInv (o : Options) (t : TAR) : Prop :=
  t.options = o ∧ isBlock t.th_buf.raw ∧
    ∀ b, Written.header b ∈ t.output → ∃ h, isBlock h ∧ b = th_finish o h

/-- The state in which a section of `th_read` or `th_write` ends. -/
def Flow.state : Flow → TAR
  | Flow.next t => t
  | Flow.ret _ t => t

/-- The state in which a section of `th_write` ends. -/
def WFlow.state : WFlow → TAR
  | WFlow.next t _ => t
  | WFlow.ret _ t => t

/-- The header of a regular file with the given name, before `th_finish`. -/
def rawNamed (name : String) : Block := setTypeflag (poke zeroBlock 0 (lit name)) 48

/-- An entry for file.txt without any extension, written with default options. -/
def entryPlain : TAR := TAR.init {} { tar_header.zero with raw := sampleRaw } []

/-- The header block `th_write` emits for `entryPlain`. -/
def plainHeader : Block := th_finish {} sampleRaw

/-- The finished header of a second regular file, next.txt. -/
def nextHeader : Block := th_finish {} (th_set_size (rawNamed "next.txt") 0)

/-- A stream where a long-name header comes first and a long-link header second,
each with one data block, followed by the real header. -/
def streamNameThenLink : List ReadEvent :=
  fullBlocks [sampleHeader {} GNU_LONGNAME_TYPE 4, dataBlock (lit "name"),
    sampleHeader {} GNU_LONGLINK_TYPE 4, dataBlock (lit "link"), sampleHeader {} 48 0]

/-- A stream where an extended header with its data block comes before a long-name
header with its data block, followed by the real header. -/
def streamExtThenName : List ReadEvent :=
  fullBlocks [sampleHeader {} TH_EXT_TYPE 24, dataBlock (lit "24 ANDROID.user.default\n"),
    sampleHeader {} GNU_LONGNAME_TYPE 4, dataBlock (lit "name"), sampleHeader {} 48 0]

/-- A handle about to read one plain header. -/
def readerPlain : TAR := TAR.init {} tar_header.zero (fullBlocks [plainHeader])

/-- A handle about to read an extended header of declared size 24, its data block
holding the user.default record, and the header of next.txt. -/
def readerExt : TAR :=
  TAR.init {} tar_header.zero
    (fullBlocks [sampleHeader {} TH_EXT_TYPE 24, dataBlock (lit "24 ANDROID.user.default\n"),
      nextHeader])

/-- A header left over from an earlier entry, every optional field set. -/
def staleHeader : tar_header where
  raw := plainHeader
  gnu_longname := some (aString 120)
  gnu_longlink := some (aString 130)
  selinux_context := some (aString 9)
  fep := Fep.policy samplePolicy
  has_cap_data := true
  cap_data := sampleCapEffective
  has_user_default := true
  has_user_cache := true
  has_user_code_cache := true

/-- A handle on a 32-bit build whose header buffer holds a long-link header that
declares the size 2^32 - 1. -/
def readerHugeLink : TAR :=
  TAR.init {} { tar_header.zero with raw := sampleHeader {} GNU_LONGLINK_TYPE 4294967295 } []

/-- An entry for file.txt with a SELinux context of `n` letters a, written with
`TAR_STORE_SELINUX` only. -/
def entrySelinux (n : Nat) : TAR :=
  TAR.init { TAR_STORE_SELINUX := true }
    { tar_header.zero with raw := sampleRaw, selinux_context := some (aString n) } []

/-- For each written block: the type flag and declared size of a header block,
nothing for a data block. -/
def headerSummary (ws : List Written) : List (Option (Nat × Nat)) :=
  ws.map (fun w => match w with
    | Written.header b => some (typeflag b, th_get_size b)
    | Written.data _ => none)

/-- The state `th_read` leaves after `readerExt`: the header of next.txt with the
user.default flag set. -/
def readerExtDone : TAR :=
  TAR.init {} { tar_header.zero with raw := nextHeader, has_user_default := true } []

/-- A data block whose encryption-policy record carries the selector 1 instead of
the digit zero. -/
def badSelectorBlock : Block :=
  dataBlock (lit "39 TWRP.security.fscrypt=1" ++ samplePolicyNoZero ++ [10])

/-- A handle that still holds every field of an earlier entry and is about to read
an extended header, the data block with the bad selector, and the header of
next.txt. -/
def readerBadSelector : TAR :=
  TAR.init {} staleHeader
    (fullBlocks [sampleHeader {} TH_EXT_TYPE 39, badSelectorBlock, nextHeader])

/-- A handle about to read the header of file.txt with its second byte replaced by
zero, followed by the header of next.txt. -/
def readerCorrupt : TAR :=
  TAR.init {} tar_header.zero (fullBlocks [(th_finish {} sampleRaw).set 1 0, nextHeader])

/-! ## Notions used for the last header read and for the layout of the written blocks -/

/-- Every read of the script `c` delivers a full block. -/
def allFull (c : List ReadEvent) : Prop := ∀ e ∈ c, ∃ b, e = ReadEvent.full b

/-- The state `t` was reached from the input `i0` under the options `o` by reads
that all delivered full blocks, and the last block consumed is the header block in
the buffer, which passed the checks of `th_read_internal`. -/
def AfterHeader (E : Env) (o : Options) (i0 : List ReadEvent) (t : TAR) : Prop :=
  t.options = o ∧ ∃ c, i0 = c ++ ReadEvent.full t.th_buf.raw :: t.input ∧ allFull c ∧
    accepted E o t.th_buf.raw

/-- The state `t` was reached from the input `i0` under the options `o` by reads
that all delivered full blocks. -/
def Consumed (o : Options) (i0 : List ReadEvent) (t : TAR) : Prop :=
  t.options = o ∧ ∃ c, i0 = c ++ t.input ∧ allFull c

/-- The tags of the records `th_write` can emit. -/
def knownTags : List (List Nat) :=
  [SELINUX_TAG, FSCRYPT_TAG, CAPABILITIES_TAG, ANDROID_USER_DEFAULT_TAG,
    ANDROID_USER_CACHE_TAG, ANDROID_USER_CODE_CACHE_TAG]

/-- A data block that holds the records `recs` from offset 0, then zero bytes. -/
def blockOf (recs : List (List Nat)) : Block :=
  recs.flatten ++ List.replicate (T_BLOCKSIZE - recs.flatten.length) 0

/-- The estimate of a record length with two digits: two digits, a blank, the
tag, the payload and a newline. -/
def estimate (tag payload : List Nat) : Nat := 2 + 1 + tag.length + payload.length + 1

/-- A record as `th_write` emits it: a record whose length is the two-digit
estimate, increased by one when the estimate is 100 or more. -/
def isEmitted (r : List Nat) : Prop :=
  ∃ tag payload, tag ∈ knownTags ∧ r = decimal r.length ++ [32] ++ tag ++ payload ++ [10] ∧
    r.length = bump (estimate tag payload)

/-- An extended header with the records of its data block is in order: the header
has the extended type flag and declares the total length of the records, which is
below 512; there is at least one record and each is as `th_write` emits it. -/
def goodPair (p : Block × List (List Nat)) : Prop :=
  typeflag p.1 = TH_EXT_TYPE ∧ p.2 ≠ [] ∧ (∀ r ∈ p.2, isEmitted r) ∧
    p.2.flatten.length < T_BLOCKSIZE ∧ th_get_size p.1 = p.2.flatten.length

/-- The blocks of a sequence of extended pairs: each header followed by the one
data block that holds its records. -/
def pairsOut (ps : List (Block × List (List Nat))) : List Written :=
  ps.flatMap (fun p => [Written.header p.1, Written.data (blockOf p.2)])

/-- What was written after `out0` is a sequence of extended pairs in order. -/
def PairsAfter (out0 out : List Written) : Prop :=
  ∃ ps, out = out0 ++ pairsOut ps ∧ ∀ p ∈ ps, goodPair p

/-- The locals of `th_write` between two records: the buffer holds emitted
records from offset 0 and zero bytes after them, `ptr` and `total_sz` are the
length of those records, which is below 512. -/
def LGood (l : WLocals) : Prop :=
  ∃ recs : List (List Nat), (∀ r ∈ recs, isEmitted r) ∧ recs.flatten.length < T_BLOCKSIZE ∧
    l.buf = blockOf recs ∧ l.ptr = recs.flatten.length ∧ l.total_sz = recs.flatten.length

/-- The locals of `th_write` after room for a record of `sz` bytes was made:
as `LGood`, but `total_sz` counts the record to come. -/
def LReserved (sz : Nat) (l : WLocals) : Prop :=
  ∃ recs : List (List Nat), (∀ r ∈ recs, isEmitted r) ∧
    l.buf = blockOf recs ∧ l.ptr = recs.flatten.length ∧ l.total_sz = recs.flatten.length + sz

/-- The header buffer `raw` is still a block with the type flag and first byte of
`raw0`. -/
def HdrOK (raw0 raw : Block) : Prop :=
  raw.length = 512 ∧ typeflag raw = typeflag raw0 ∧ name0 raw = name0 raw0

/-- The invariant of the extended-metadata part of `th_write`: either `total_sz`
has reached 512 (the call is bound to fail), or the locals are in order and what
was written after `out0` is a sequence of extended pairs. -/
def XInv (o : Options) (out0 : List Written) (raw0 : Block) (t : TAR) (l : WLocals) : Prop :=
  t.options = o ∧ HdrOK raw0 t.th_buf.raw ∧
    (T_BLOCKSIZE ≤ l.total_sz ∨ (LGood l ∧ PairsAfter out0 t.output))

/-- The invariant after room for a record of `sz` bytes was made. -/
def XRes (o : Options) (out0 : List Written) (raw0 : Block) (sz : Nat) (t : TAR)
    (l : WLocals) : Prop :=
  t.options = o ∧ HdrOK raw0 t.th_buf.raw ∧
    (T_BLOCKSIZE ≤ l.total_sz ∨ (LReserved sz l ∧ PairsAfter out0 t.output))

/-- The outcome of a section of the extended part: falling through in a state that
satisfies `Q`, or returning -1. -/
def WFlow.Ok (Q : TAR → WLocals → Prop) : WFlow → Prop
  | WFlow.next t l => Q t l
  | WFlow.ret r _ => r = -1

/-- The blocks of a GNU section of `th_write`: nothing unless `TAR_GNU` is set and
the string is set; otherwise a header with the sentinel type `ty` and then data
blocks, one for a string of up to 512 characters, `blocksOf` of its length for a
longer one. -/
def gnuPart (ty : Nat) (gnu : Bool) (str : Option (List Nat)) (K : List Written) : Prop :=
  match gnu, str with
  | true, some s => ∃ (X : Block) (ds : List Block), K = Written.header X :: ds.map Written.data ∧
      typeflag X = ty ∧ ds.length = max 1 (blocksOf (strlen s))
  | _, _ => K = []

/-- An entry with the header block `raw` whose only optional field is the SELinux
context `ctx` (stored as a string object, with its terminating NUL), to be written
under the options `o`. -/
def entrySelinuxOnly (o : Options) (raw : Block) (ctx : List Nat) : TAR :=
  TAR.init o { tar_header.zero with raw := raw, selinux_context := some (ctx ++ [0]) } []

/-- The record `th_write` emits for the tag `tag` and the payload `payload`. -/
def recordOf (tag payload : List Nat) : List Nat :=
  decimal (bump (estimate tag payload)) ++ [32] ++ tag ++ payload ++ [10]

/-! ## Samples and notions for the statements about block order and results -/

/-- A handle about to read a long-name header with its data block and then a
long-link header, after which the stream ends. -/
def readerNameThenLinkEnd : TAR :=
  TAR.init {} tar_header.zero
    (fullBlocks [sampleHeader {} GNU_LONGNAME_TYPE 4, dataBlock (lit "name"),
      sampleHeader {} GNU_LONGLINK_TYPE 4])

/-- A handle about to read an extended header with its data block, after which the
stream ends. -/
def readerExtTruncated : TAR :=
  TAR.init {} tar_header.zero
    (fullBlocks [sampleHeader {} TH_EXT_TYPE 24, dataBlock (lit "24 ANDROID.user.default\n")])

/-- The state `th_read` leaves after `readerExtTruncated`. -/
def readerExtTruncatedDone : TAR :=
  { TAR.init {} { tar_header.zero with
        raw := sampleHeader {} TH_EXT_TYPE 24, has_user_default := true } [] with
    errno := Errno.EINVAL }

/-- The blocks `out` are laid out as `th_write` lays them out for the entry of `t`
with the extended pairs `pairs`: after what was written before, the long-link
part, the long-name part, the extended pairs, and one header block with the type
flag and first byte of the header of the entry. -/
def layout (t : TAR) (out : List Written) (pairs : List (Block × List (List Nat))) : Prop :=
  ∃ K L F, out = t.output ++ K ++ L ++ pairsOut pairs ++ [Written.header F] ∧
    gnuPart GNU_LONGLINK_TYPE t.options.TAR_GNU t.th_buf.gnu_longlink K ∧
    gnuPart GNU_LONGNAME_TYPE t.options.TAR_GNU t.th_buf.gnu_longname L ∧
    typeflag F = typeflag t.th_buf.raw ∧ name0 F = name0 t.th_buf.raw

/-- A handle about to read the header of file.txt with one byte of its name field
changed after the checksum was computed. -/
def readerBadChecksum : TAR :=
  TAR.init {} tar_header.zero (fullBlocks [plainHeader.set 10 65])

/-- A handle whose next read delivers 100 bytes only. -/
def readerShort : TAR := TAR.init {} tar_header.zero [ReadEvent.short 100]

/-- Options of a reader with the magic and version checks enabled (the checksum
check is enabled unless `TAR_IGNORE_CRC` is set). -/
def allChecks : Options := { TAR_CHECK_MAGIC := true, TAR_CHECK_VERSION := true }

/-- A block that is not a header: a zero byte followed by other bytes. -/
def leadingZeroBlock : Block := dataBlock ([0] ++ lit "garbage")

/-- An entry for file.txt that stores only the capability record `cap`. -/
def entryCap (cap : List Nat) : TAR :=
  TAR.init { TAR_STORE_POSIX_CAP := true }
    { tar_header.zero with raw := sampleRaw, has_cap_data := true, cap_data := cap } []

/-! ## Samples and notions for the statements about records, header fields and padding -/

/-- A fresh handle about to read an extended header, a data block whose
encryption-policy record carries the selector 1, and the header of next.txt. -/
def readerBadSelectorFresh : TAR :=
  TAR.init {} tar_header.zero
    (fullBlocks [sampleHeader {} TH_EXT_TYPE 39, badSelectorBlock, nextHeader])

/-- A build with 64-bit `size_t` and without fscrypt support. -/
def env64NoFscrypt : Env := libtar 64 false 12

/-- A data block in which the capabilities tag ends at offset 509, followed by one
more character and a NUL. -/
def capTagAtEnd : Block := List.replicate 477 120 ++ CAPABILITIES_TAG ++ [120, 0]

/-- A data block in which the encryption-policy tag ends at offset 509, followed by
the selector `0` and a NUL. -/
def fscryptTagAtEnd : Block := List.replicate 488 120 ++ FSCRYPT_TAG ++ [48, 0]

/-- The offsets in the data block `buf` of the bytes that the `memcpy` of line 306
copies into `cap_data`: `sizeof(struct vfs_cap_data)` bytes from the end of the
capabilities tag, when the test of line 303 holds. -/
def cap_copy_offsets (buf : Block) : List Nat :=
  match strstr (cstring buf) CAPABILITIES_TAG with
  | some start =>
    if start + CAPABILITIES_TAG.length < strlen buf then
      List.range' (start + CAPABILITIES_TAG.length) sizeof_vfs_cap_data
    else []
  | none => []

/-- The offsets in the data block `buf` of the bytes that lines 367-380 read after
the selector: the byte inspected as the expected newline (first component, line
374) and the bytes that `memcpy` copies into the policy object (second component),
when the tests of lines 356 and 367 hold. -/
def fscrypt_copy_offsets (E : Env) (buf : Block) : Option (Nat × List Nat) :=
  if E.USE_FSCRYPT = true then
    match strstr (cstring buf) FSCRYPT_TAG with
    | some start =>
      if start + FSCRYPT_TAG.length < strlen buf then
        if buf.getD (start + FSCRYPT_TAG.length) 0 = 48 then
          some (start + FSCRYPT_TAG.length + 1 + E.sizeof_policy,
            List.range' (start + FSCRYPT_TAG.length + 1) E.sizeof_policy)
        else none
      else none
    | none => none
  else none

/-- A handle with `TAR_IGNORE_EOT` about to read three zero blocks and the header
of next.txt. -/
def readerPadded : TAR :=
  TAR.init { TAR_IGNORE_EOT := true } tar_header.zero
    (fullBlocks (List.replicate 3 zeroBlock) ++ [ReadEvent.full nextHeader])

/-- The header buffer of `t` is a block with the type flag `ty0` and the decoded
size `s0`. -/
def HInv (ty0 s0 : Nat) (t : TAR) : Prop :=
  t.th_buf.raw.length = 512 ∧ typeflag t.th_buf.raw = ty0 ∧ th_get_size t.th_buf.raw = s0

/-- The record of the SELinux section for the options `o` and the header `h`, if
the section writes one. -/
def selinuxRecs (o : Options) (h : tar_header) : List (List Nat) :=
  match o.TAR_STORE_SELINUX, h.selinux_context with
  | true, some ctx => [recordOf SELINUX_TAG (cstring ctx)]
  | _, _ => []

/-- The record of the encryption-policy section, if the section writes one. -/
def fscryptRecs (E : Env) (o : Options) (h : tar_header) : List (List Nat) :=
  if E.USE_FSCRYPT = true ∧ o.TAR_STORE_FSCRYPT_POL = true ∧ h.fep ≠ Fep.null then
    [recordOf FSCRYPT_TAG ([48] ++ fepBytes E h.fep)]
  else []

/-- The record of the capabilities section, if the section writes one. -/
def capRecs (o : Options) (h : tar_header) : List (List Nat) :=
  if o.TAR_STORE_POSIX_CAP = true ∧ h.has_cap_data = true then
    [recordOf CAPABILITIES_TAG
      ((h.cap_data ++ List.replicate sizeof_vfs_cap_data 0).take sizeof_vfs_cap_data)]
  else []

/-- The record of one Android flag, if the flag is set. -/
def userRecs (flag : Bool) (tag : List Nat) : List (List Nat) :=
  if flag = true then [recordOf tag []] else []

/-- The records of the three Android flags, in the order user.default,
user.inode_cache, user.inode_code_cache. -/
def userXattrRecs (o : Options) (h : tar_header) : List (List Nat) :=
  if o.TAR_STORE_ANDROID_USER_XATTR = true then
    userRecs h.has_user_default ANDROID_USER_DEFAULT_TAG ++
      userRecs h.has_user_cache ANDROID_USER_CACHE_TAG ++
      userRecs h.has_user_code_cache ANDROID_USER_CODE_CACHE_TAG
  else []

/-- The records of an entry in the fixed order of the specification: SELinux
context, encryption policy, capabilities, then each Android flag, those that are
enabled and present. -/
def expectedRecords (E : Env) (o : Options) (h : tar_header) : List (List Nat) :=
  selinuxRecs o h ++ fscryptRecs E o h ++ capRecs o h ++ userXattrRecs o h

/-- The records of the extended pairs `pairs`, in the order of the blocks. -/
def recordsOf (pairs : List (Block × List (List Nat))) : List (List Nat) :=
  (pairs.map Prod.snd).flatten

/-- The invariant of the extended-metadata part of `th_write` with the records
emitted so far: as `XInv`, and the optional fields of the header are those of
`h0`, and the records of the pairs written after `out0` followed by the records
in the buffer are `done`. -/
def RInv (o : Options) (out0 : List Written) (h0 : tar_header) (done : List (List Nat))
    (t : TAR) (l : WLocals) : Prop :=
  t.options = o ∧ HdrOK h0.raw t.th_buf.raw ∧ t.th_buf = { h0 with raw := t.th_buf.raw } ∧
    (T_BLOCKSIZE ≤ l.total_sz ∨
      ∃ (recs : List (List Nat)) (pairs : List (Block × List (List Nat))),
        (∀ r ∈ recs, isEmitted r) ∧ recs.flatten.length < T_BLOCKSIZE ∧
        l.buf = blockOf recs ∧ l.ptr = recs.flatten.length ∧
        l.total_sz = recs.flatten.length ∧
        t.output = out0 ++ pairsOut pairs ∧ (∀ p ∈ pairs, goodPair p) ∧
        recordsOf pairs ++ recs = done)

/-- The invariant `RInv` after room for a record of `sz` bytes was made. -/
def RRes (o : Options) (out0 : List Written) (h0 : tar_header) (done : List (List Nat))
    (sz : Nat) (t : TAR) (l : WLocals) : Prop :=
  t.options = o ∧ HdrOK h0.raw t.th_buf.raw ∧ t.th_buf = { h0 with raw := t.th_buf.raw } ∧
    (T_BLOCKSIZE ≤ l.total_sz ∨
      ∃ (recs : List (List Nat)) (pairs : List (Block × List (List Nat))),
        (∀ r ∈ recs, isEmitted r) ∧
        l.buf = blockOf recs ∧ l.ptr = recs.flatten.length ∧
        l.total_sz = recs.flatten.length + sz ∧
        t.output = out0 ++ pairsOut pairs ∧ (∀ p ∈ pairs, goodPair p) ∧
        recordsOf pairs ++ recs = done)

end Libtar

namespace Minui

/-! # minui: the blend functions and `PixelAt` of graphics.cpp -/

/-- The current colour `gr_current` blended onto the pixel `pix` with the weight
`alpha`, for the pixel format with alpha as the most significant byte
(`pixel_blend_argb`, graphics.cpp lines 178-194).  `alpha` is a `uint8_t`, `pix`
and `gr_current` are `uint32_t`; products and sums are taken modulo 2^32. -/
def pixel_blend_argb (gr_current alpha pix : Nat) : Nat :=
  if alpha = 255 then gr_current
  else if alpha = 0 then pix
  else
    let pix_r := pix &&& 0xff
    let pix_g := pix &&& 0xff00
    let pix_b := pix &&& 0xff0000
    let cur_r := gr_current &&& 0xff
    let cur_g := gr_current &&& 0xff00
    let cur_b := gr_current &&& 0xff0000
    let out_r := (pix_r * (255 - alpha) % 2 ^ 32 + cur_r * alpha % 2 ^ 32) % 2 ^ 32 / 255
    let out_g := (pix_g * (255 - alpha) % 2 ^ 32 + cur_g * alpha % 2 ^ 32) % 2 ^ 32 / 255
    let out_b := (pix_b * (255 - alpha) % 2 ^ 32 + cur_b * alpha % 2 ^ 32) % 2 ^ 32 / 255
    (out_r &&& 0xff) ||| (out_g &&& 0xff00) ||| (out_b &&& 0xff0000) |||
      (gr_current &&& 0xff000000)

/-- The same for the pixel format with alpha as the least significant byte
(`pixel_blend_rgba`, graphics.cpp lines 196-211). -/
def pixel_blend_rgba (gr_current alpha pix : Nat) : Nat :=
  if alpha = 255 then gr_current
  else if alpha = 0 then pix
  else
    let pix_r := pix &&& 0xff00
    let pix_g := pix &&& 0xff0000
    let pix_b := pix &&& 0xff000000
    let cur_r := gr_current &&& 0xff00
    let cur_g := gr_current &&& 0xff0000
    let cur_b := gr_current &&& 0xff000000
    let out_r := (pix_r * (255 - alpha) % 2 ^ 32 + cur_r * alpha % 2 ^ 32) % 2 ^ 32 / 255
    let out_g := (pix_g * (255 - alpha) % 2 ^ 32 + cur_g * alpha % 2 ^ 32) % 2 ^ 32 / 255
    let out_b := (pix_b * (255 - alpha) % 2 ^ 32 + cur_b * alpha % 2 ^ 32) % 2 ^ 32 / 255
    (gr_current &&& 0xff) ||| (out_r &&& 0xff00) ||| (out_g &&& 0xff0000) |||
      (out_b &&& 0xff000000)

/-- The byte of `x` that starts at bit `k`. -/
def byteAt (x k : Nat) : Nat := x / 2 ^ k % 256

/-- The exact blend of the bytes `p` and `c` with the weight `alpha`. -/
def blendByte (p c alpha : Nat) : Nat := (p * (255 - alpha) + c * alpha) / 255

/-- The values of the enumeration `GRRotation` (declared in minui.h) that
graphics.cpp names; `other` stands for every other value of the underlying
integer, for which `PixelAt` takes its `default` branch. -/
inductive GRRotation where
  | NONE
  | RIGHT
  | DOWN
  | LEFT
  | other
deriving DecidableEq, Repr

/-- The fields of `GRSurface` (declared in minui.h) that `outside` and `PixelAt`
read: the width and the height of the surface in pixels. -/
structure GRSurface where
  width : Nat
  height : Nat
deriving DecidableEq, Repr

/-- The function `outside` (graphics.cpp lines 65-69) for the rotation `rotation`
and the draw surface `gr_draw`. -/
def outside (rotation : GRRotation) (gr_draw : GRSurface) (x y : Int) : Bool :=
  let swapped := rotation = GRRotation.LEFT ∨ rotation = GRRotation.RIGHT
  decide (x < 0) || decide (x ≥ (if swapped then (gr_draw.height : Int) else gr_draw.width)) ||
    decide (y < 0) || decide (y ≥ (if swapped then (gr_draw.width : Int) else gr_draw.height))

/-- The function `PixelAt` (graphics.cpp lines 264-281): the offset, in pixels
from `surface->data()`, of the pointer it returns; `none` is the null pointer of
the `default` branch.  The offset is taken in unbounded integers (a surface that
is in memory has fewer than 2^31 pixels). -/
def PixelAt (rotation : GRRotation) (surface : GRSurface) (x y row_pixels : Int) : Option Int :=
  match rotation with
  | GRRotation.NONE => some (y * row_pixels + x)
  | GRRotation.RIGHT => some (x * row_pixels + (surface.width - y))
  | GRRotation.DOWN =>
    some ((surface.height - 1 - y) * row_pixels + (surface.width - 1 - x))
  | GRRotation.LEFT => some ((surface.height - 1 - x) * row_pixels + y)
  | GRRotation.other => none

/-- The offset `off` is the offset of a pixel of the surface: a row below the
height and a column below the width. -/
def inSurface (surface : GRSurface) (row_pixels off : Int) : Prop :=
  ∃ row col : Int, off = row * row_pixels + col ∧ 0 ≤ row ∧ row < surface.height ∧
    0 ≤ col ∧ col < surface.width

/-! # minui: `blend_16bpp`, `gr_convert_rgb_555` and `gr_blit_32to16` of graphics.cpp -/

/-- The two bytes stored for the 5/6/5-bit colour (`r5`, `g5`, `b5`), as in
`gr_convert_rgb_555` (graphics.cpp lines 391-392) and in the opaque case of
`gr_blit_32to16` (lines 498-499): byte 0 is `(g5 << 5) + b5`, byte 1 is
`(r5 << 3) + (g5 >> 3)`, each stored in an `unsigned char`. -/
def pack_rgb_555 (r5 g5 b5 : Nat) : Nat × Nat :=
  (((g5 <<< 5) + b5) % 256, ((r5 <<< 3) + (g5 >>> 3)) % 256)

/-- The conversion `(((c & 0xFF) * max) + 0x7F) / 0xFF` of an 8-bit channel to a
channel with the largest value `max` (graphics.cpp lines 387-389, 493-495). -/
def scale_channel (c max : Nat) : Nat := (((c &&& 0xFF) * max) + 0x7F) / 0xFF

/-- The function `gr_convert_rgb_555` (graphics.cpp lines 385-393): the new values
of `gr_current_r5`, `gr_current_g5`, `gr_current_b5` and of `rgb_555`. -/
def gr_convert_rgb_555 (r g b : Nat) : (Nat × Nat × Nat) × (Nat × Nat) :=
  let gr_current_r5 := scale_channel r 0x1F % 256
  let gr_current_g5 := scale_channel g 0x3F % 256
  let gr_current_b5 := scale_channel b 0x1F % 256
  ((gr_current_r5, gr_current_g5, gr_current_b5),
    pack_rgb_555 gr_current_r5 gr_current_g5 gr_current_b5)

/-- The red field `blend_16bpp` reads from the pixel (`oldred`, graphics.cpp lines
117 and 126). -/
def oldred (orig : Nat × Nat) : Nat := orig.2 >>> 3

/-- The green field `blend_16bpp` reads from the pixel (`oldgreen`, lines 118 and
127). -/
def oldgreen (orig : Nat × Nat) : Nat := ((orig.1 >>> 5) <<< 3) + (orig.2 &&& 0x7)

/-- The blue field `blend_16bpp` reads from the pixel (`oldblue`, lines 119 and
128). -/
def oldblue (orig : Nat × Nat) : Nat := orig.1 &&& 0x1F

/-- The function `blend_16bpp` (graphics.cpp lines 110-132) on the two bytes `px`
of a pixel: the two bytes it stores.  `r5`, `g5`, `b5` are `unsigned`, `a` is an
`unsigned char`; sums and products with an `unsigned` operand are taken modulo
2^32, and each result is stored in an `unsigned char`. -/
def blend_16bpp (px : Nat × Nat) (r5 g5 b5 a : Nat) : Nat × Nat :=
  let orig := px
  let newred := (oldred orig * (255 - a) + r5 * a % 2 ^ 32) % 2 ^ 32 / 255
  let newgreen := (oldgreen orig * (255 - a) + g5 * a % 2 ^ 32) % 2 ^ 32 / 255
  let newblue := (oldblue orig * (255 - a) + b5 * a % 2 ^ 32) % 2 ^ 32 / 255
  (((newgreen <<< 5) % 2 ^ 32 + newblue) % 2 ^ 32 % 256,
    ((newred <<< 3) % 2 ^ 32 + (newgreen >>> 3)) % 2 ^ 32 % 256)


/-- The fields of `GRSurface` (declared in minui.h) that `gr_blit_32to16` reads
besides the width and the height: the bytes of `data()`, `row_bytes` and
`pixel_bytes`. -/
structure GRSurfaceData where
  data : List Nat
  row_bytes : Nat
  pixel_bytes : Nat
deriving DecidableEq, Repr

/-- The variables of the inner loop of `gr_blit_32to16`: the positions `spx` and
`dpx` as byte offsets into `source->data()` and `gr_draw->data()`, and the bytes of
`gr_draw->data()`. -/
structure BlitState where
  spx : Nat
  dpx : Nat
  dst : List Nat
deriving DecidableEq, Repr

/-- The two bytes of the 16-bit pixel at byte offset `off`. -/
def pixel16 (data : List Nat) (off : Nat) : Nat × Nat :=
  (data.getD off 0, data.getD (off + 1) 0)

/-- The two stores `*px++ = p.1; *px++ = p.2` at byte offset `off`. -/
def store16 (data : List Nat) (off : Nat) (p : Nat × Nat) : List Nat :=
  (data.set off p.1).set (off + 1) p.2

/-- One iteration of the inner loop of `gr_blit_32to16` (graphics.cpp lines
487-504).  `blend_16bpp` receives `dpx` by value, so `dpx` keeps its value in the
last case. -/
def gr_blit_32to16_pixel (source_pixel_bytes draw_pixel_bytes : Nat) (src : List Nat)
    (s : BlitState) : BlitState :=
  let a := src.getD (s.spx + 3) 0
  if a = 0 then
    { s with spx := s.spx + source_pixel_bytes, dpx := s.dpx + draw_pixel_bytes }
  else
    let r5 := scale_channel (src.getD s.spx 0) 0x1F
    let g5 := scale_channel (src.getD (s.spx + 1) 0) 0x3F
    let b5 := scale_channel (src.getD (s.spx + 2) 0) 0x1F
    let spx := s.spx + 4
    if a = 255 then
      { spx := spx, dpx := s.dpx + 2, dst := store16 s.dst s.dpx (pack_rgb_555 r5 g5 b5) }
    else
      { spx := spx + source_pixel_bytes, dpx := s.dpx,
        dst := store16 s.dst s.dpx (blend_16bpp (pixel16 s.dst s.dpx) r5 g5 b5 (a % 256)) }

/-- The inner loop `for (j = 0; j < w; ++j)` of `gr_blit_32to16` (lines 486-505). -/
def gr_blit_32to16_row (source_pixel_bytes draw_pixel_bytes : Nat) (src : List Nat) :
    Nat → BlitState → BlitState
  | 0, s => s
  | w + 1, s =>
    gr_blit_32to16_row source_pixel_bytes draw_pixel_bytes src w
      (gr_blit_32to16_pixel source_pixel_bytes draw_pixel_bytes src s)

/-- The outer loop `for (i = 0; i < h; ++i)` of `gr_blit_32to16` (lines 482-508):
the bytes of `gr_draw->data()` after `h` rows starting at `src_p` and `dst_p`. -/
def gr_blit_32to16_rows (source : GRSurfaceData) (draw_row_bytes draw_pixel_bytes w : Nat) :
    Nat → Nat → Nat → List Nat → List Nat
  | 0, _, _, dst => dst
  | h + 1, src_p, dst_p, dst =>
    let s := gr_blit_32to16_row source.pixel_bytes draw_pixel_bytes source.data w
      { spx := src_p, dpx := dst_p, dst := dst }
    gr_blit_32to16_rows source draw_row_bytes draw_pixel_bytes w h
      (src_p + source.row_bytes) (dst_p + draw_row_bytes) s.dst

/-- The function `gr_blit_32to16` (graphics.cpp lines 472-509): the bytes of
`gr_draw->data()` after the call.  `gr_draw` gives the width and the height of the
draw surface and `draw` its bytes, `row_bytes` and `pixel_bytes`.  The offsets of
`src_p` and `dst_p` are taken for a rectangle that starts inside both surfaces. -/
def gr_blit_32to16 (rotation : GRRotation) (gr_draw : GRSurface) (draw : GRSurfaceData)
    (overscan_offset_x overscan_offset_y : Int) (source : GRSurfaceData)
    (sx sy w h dx dy : Int) : List Nat :=
  let dx := dx + overscan_offset_x
  let dy := dy + overscan_offset_y
  if outside rotation gr_draw dx dy || outside rotation gr_draw (dx + w - 1) (dy + h - 1) then
    draw.data
  else
    let src_p := (sy * source.row_bytes + sx * source.pixel_bytes).toNat
    let dst_p := (dy * draw.row_bytes + dx * draw.pixel_bytes).toNat
    gr_blit_32to16_rows source draw.row_bytes draw.pixel_bytes w.toNat h.toNat src_p dst_p draw.data

/-- The destination pixel the description of `gr_blit_32to16` gives for the source
pixel `s` (four bytes: red, green, blue, alpha) and the previous destination pixel
`d`: `d` when the alpha is 0, the 5/6/5 conversion of the colour when it is 255,
the blend of the two otherwise. -/
def spec_blit_pixel (s : List Nat) (d : Nat × Nat) : Nat × Nat :=
  let a := s.getD 3 0
  let r5 := scale_channel (s.getD 0 0) 0x1F
  let g5 := scale_channel (s.getD 1 0) 0x3F
  let b5 := scale_channel (s.getD 2 0) 0x1F
  if a = 0 then d
  else if a = 255 then pack_rgb_555 r5 g5 b5
  else blend_16bpp d r5 g5 b5 a

end Minui

namespace Libtar

/-! # Lemmas and theorems -/

/-! ## The reader: general facts -/

theorem th_read_internal_loop_accepted (E : Env) (o : Options) (b : Block)
    (hb : accepted E o b) (n : Nat) (h : tar_header) (rest : List ReadEvent) :
    th_read_internal_loop E o n h (ReadEvent.full b :: rest) = (512, { h with raw := b }, rest) := by
  obtain ⟨h0, h1, h2, h3⟩ := hb
  simp only [th_read_internal_loop]
  rw [if_neg h0, if_neg h1, if_neg h2, if_neg h3]

theorem io_fail_fst (i : Int) (t : TAR) : (io_fail i t).1 = -1 := rfl

theorem decodedFrom_zero (E : Env) (c : List ReadEvent) (b : Block) :
    decodedFrom E c { tar_header.zero with raw := b } := by
  simp [decodedFrom, tar_header.zero]

theorem decodedFrom_mono (E : Env) (c c' : List ReadEvent) (h : tar_header)
    (hd : decodedFrom E c h) (hs : ∀ x, x ∈ c → x ∈ c') : decodedFrom E c' h := by
  obtain ⟨h1, h2, h3, h4, h5, h6, h7, h8, h9⟩ := hd
  refine ⟨?_, ?_, ?_, ?_, h5, ?_, ?_, ?_, ?_⟩
  · intro hx; obtain ⟨b, hb, ht⟩ := h1 hx; exact ⟨b, hs _ hb, ht⟩
  · intro hx; obtain ⟨b, hb, ht⟩ := h2 hx; exact ⟨b, hs _ hb, ht⟩
  · intro hx; obtain ⟨b, hb, ht⟩ := h3 hx; exact ⟨b, hs _ hb, ht⟩
  · intro hx; obtain ⟨b, hb, ht⟩ := h4 hx; exact ⟨b, hs _ hb, ht⟩
  · intro hx; obtain ⟨hu, b, hb, ht⟩ := h6 hx; exact ⟨hu, b, hs _ hb, ht⟩
  · intro hx; obtain ⟨b, hb, ht⟩ := h7 hx; exact ⟨b, hs _ hb, ht⟩
  · intro hx; obtain ⟨b, hb, ht⟩ := h8 hx; exact ⟨b, hs _ hb, ht⟩
  · intro hx; obtain ⟨b, hb, ht⟩ := h9 hx; exact ⟨b, hs _ hb, ht⟩

theorem decodedFrom_raw (E : Env) (c : List ReadEvent) (h : tar_header) (b : Block)
    (hd : decodedFrom E c h) : decodedFrom E c { h with raw := b } := hd

theorem decodedFrom_decode_cap (E : Env) (c : List ReadEvent) (h : tar_header) (data : Block)
    (hd : decodedFrom E c h) (hm : ReadEvent.full data ∈ c) :
    decodedFrom E c (decode_cap (data.set (T_BLOCKSIZE - 1) 0) h) := by
  obtain ⟨h1, h2, h3, h4, h5, h6, h7, h8, h9⟩ := hd
  unfold decode_cap
  split
  · rename_i start heq
    split_ifs
    · refine ⟨h1, h2, h3, ?_, ?_, h6, h7, h8, h9⟩
      · intro _
        exact ⟨data, hm, by simp [hasTag, heq]⟩
      · intro hx
        simp at hx
    · exact ⟨h1, h2, h3, h4, h5, h6, h7, h8, h9⟩
  · exact ⟨h1, h2, h3, h4, h5, h6, h7, h8, h9⟩

theorem decodedFrom_decode_selinux (E : Env) (c : List ReadEvent) (h : tar_header) (data : Block)
    (hd : decodedFrom E c h) (hm : ReadEvent.full data ∈ c) :
    decodedFrom E c (decode_selinux (data.set (T_BLOCKSIZE - 1) 0) h) := by
  obtain ⟨h1, h2, h3, h4, h5, h6, h7, h8, h9⟩ := hd
  unfold decode_selinux
  split
  · rename_i start heq
    split_ifs
    · simp only []
      split
      · refine ⟨h1, h2, ?_, h4, h5, h6, h7, h8, h9⟩
        intro _
        exact ⟨data, hm, by simp [hasTag, heq]⟩
      · exact ⟨h1, h2, h3, h4, h5, h6, h7, h8, h9⟩
    · exact ⟨h1, h2, h3, h4, h5, h6, h7, h8, h9⟩
  · exact ⟨h1, h2, h3, h4, h5, h6, h7, h8, h9⟩

theorem decodedFrom_decode_user (E : Env) (c : List ReadEvent) (h : tar_header) (data : Block)
    (hd : decodedFrom E c h) (hm : ReadEvent.full data ∈ c) :
    decodedFrom E c (decode_user (data.set (T_BLOCKSIZE - 1) 0) h) := by
  obtain ⟨h1, h2, h3, h4, h5, h6, h7, h8, h9⟩ := hd
  simp only [decode_user]
  split_ifs <;>
    refine ⟨h1, h2, h3, h4, h5, h6, ?_, ?_, ?_⟩ <;>
    first
      | assumption
      | (intro _; exact ⟨data, hm, by assumption⟩)

theorem decodedFrom_decode_fscrypt (E : Env) (c : List ReadEvent) (h : tar_header) (data : Block)
    (hd : decodedFrom E c h) (hm : ReadEvent.full data ∈ c) :
    decodedFrom E c (decode_fscrypt E (data.set (T_BLOCKSIZE - 1) 0) h) := by
  obtain ⟨h1, h2, h3, h4, h5, h6, h7, h8, h9⟩ := hd
  unfold decode_fscrypt
  split_ifs with hu
  · split
    · rename_i start heq
      split_ifs
      · refine ⟨h1, h2, h3, h4, h5, ?_, h7, h8, h9⟩
        intro _
        exact ⟨hu, data, hm, by simp [hasTag, heq]⟩
      · refine ⟨h1, h2, h3, h4, h5, ?_, h7, h8, h9⟩
        intro _
        exact ⟨hu, data, hm, by simp [hasTag, heq]⟩
      · exact ⟨h1, h2, h3, h4, h5, h6, h7, h8, h9⟩
    · exact ⟨h1, h2, h3, h4, h5, h6, h7, h8, h9⟩
  · exact ⟨h1, h2, h3, h4, h5, h6, h7, h8, h9⟩

theorem decodedFrom_decode_ext (E : Env) (c : List ReadEvent) (h : tar_header) (data : Block)
    (hd : decodedFrom E c h) (hm : ReadEvent.full data ∈ c) :
    decodedFrom E c (decode_ext E data h) := by
  simp only [decode_ext]
  exact decodedFrom_decode_fscrypt E c _ data
    (decodedFrom_decode_user E c _ data
      (decodedFrom_decode_selinux E c _ data
        (decodedFrom_decode_cap E c _ data hd hm) hm) hm) hm

/-! Reader stages -/

theorem read_blocks_consumed :
    ∀ (j : Nat) (acc : List Nat) (inp : List ReadEvent),
      ∃ c, inp = c ++ (read_blocks j acc inp).2.2 := by
  intro j
  induction j with
  | zero => intro acc inp; exact ⟨[], rfl⟩
  | succ j ih =>
    intro acc inp
    cases inp with
    | nil => exact ⟨[], rfl⟩
    | cons e rest =>
      cases e with
      | full b =>
        obtain ⟨c, hc⟩ := ih (acc ++ b) rest
        refine ⟨ReadEvent.full b :: c, ?_⟩
        simp only [read_blocks, tar_block_read, List.cons_append]
        rw [← hc]
      | short n => exact ⟨[ReadEvent.short n], rfl⟩
      | error => exact ⟨[ReadEvent.error], rfl⟩

theorem th_read_internal_loop_fields (E : Env) (o : Options) (inp : List ReadEvent) :
    ∀ (n : Nat) (h : tar_header),
      (th_read_internal_loop E o n h inp).2.1 =
        { h with raw := (th_read_internal_loop E o n h inp).2.1.raw } := by
  induction inp with
  | nil => intro n h; rfl
  | cons e rest ih =>
    intro n h
    cases e with
    | short k => rfl
    | error => rfl
    | full b =>
      simp only [th_read_internal_loop]
      split_ifs
      · rfl
      · rw [ih]
      · rfl
      · rfl
      · rfl
      · rfl

theorem th_read_internal_loop_consumed (E : Env) (o : Options) (inp : List ReadEvent) :
    ∀ (n : Nat) (h : tar_header),
      ∃ c, inp = c ++ (th_read_internal_loop E o n h inp).2.2 ∧
        ((th_read_internal_loop E o n h inp).1 = 512 →
          ReadEvent.full (th_read_internal_loop E o n h inp).2.1.raw ∈ c) := by
  induction inp with
  | nil => intro n h; exact ⟨[], rfl, by simp [th_read_internal_loop]⟩
  | cons e rest ih =>
    intro n h
    cases e with
    | short k =>
      refine ⟨[ReadEvent.short k], rfl, ?_⟩
      simp only [th_read_internal_loop]
      intro hk
      have := k.isLt
      omega
    | error => exact ⟨[ReadEvent.error], rfl, by simp [th_read_internal_loop]⟩
    | full b =>
      simp only [th_read_internal_loop]
      split_ifs
      · exact ⟨[ReadEvent.full b], rfl, by simp⟩
      · obtain ⟨c, hc, hm⟩ := ih (n + 1) { h with raw := b }
        refine ⟨ReadEvent.full b :: c, ?_, ?_⟩
        · rw [List.cons_append, ← hc]
        · intro h5
          exact List.mem_cons_of_mem _ (hm h5)
      · exact ⟨[ReadEvent.full b], rfl, by simp⟩
      · exact ⟨[ReadEvent.full b], rfl, by simp⟩
      · exact ⟨[ReadEvent.full b], rfl, by simp⟩
      · exact ⟨[ReadEvent.full b], rfl, by simp⟩

theorem Tr_io_fail (E : Env) (i0 : List ReadEvent) (i : Int) (t : TAR) (h : Tr E i0 t) :
    Tr E i0 (io_fail i t).2 := by
  unfold io_fail
  split_ifs
  · exact h
  · exact h

theorem Tr_th_read_internal (E : Env) (i0 : List ReadEvent) (t : TAR) (h : Tr E i0 t) :
    Tr E i0 (th_read_internal E t).2 ∧
      ((th_read_internal E t).1 = 512 → TrCur E i0 (th_read_internal E t).2) := by
  obtain ⟨c, hc, hd⟩ := h
  obtain ⟨c1, hc1, hm⟩ := th_read_internal_loop_consumed E t.options t.input 0 t.th_buf
  have hf := th_read_internal_loop_fields E t.options t.input 0 t.th_buf
  have hd' : decodedFrom E (c ++ c1) (th_read_internal E t).2.th_buf := by
    simp only [th_read_internal]
    rw [hf]
    exact decodedFrom_mono E c _ _ hd (fun x hx => List.mem_append_left _ hx)
  have hi : i0 = (c ++ c1) ++ (th_read_internal E t).2.input := by
    simp only [th_read_internal]
    rw [List.append_assoc, ← hc1]
    exact hc
  refine ⟨⟨c ++ c1, hi, hd'⟩, ?_⟩
  intro h5
  exact ⟨c ++ c1, hi, hd', List.mem_append_right _ (hm h5)⟩

theorem TrCur_Tr (E : Env) (i0 : List ReadEvent) (t : TAR) (h : TrCur E i0 t) : Tr E i0 t := by
  obtain ⟨c, hc, hd, _⟩ := h
  exact ⟨c, hc, hd⟩


theorem Tr_th_read_longlink (E : Env) (i0 : List ReadEvent) (t : TAR) (h : TrCur E i0 t) :
    (∀ r t', th_read_longlink E t = Flow.ret r t' → r = -1 ∧ Tr E i0 t') ∧
      (∀ t', th_read_longlink E t = Flow.next t' → TrCur E i0 t') := by
  obtain ⟨c, hc, hd, hm⟩ := h
  simp only [th_read_longlink]
  by_cases hk : TH_ISLONGLINK t.th_buf
  · rw [if_pos hk]
    by_cases hov : blocksOf (E.th_get_size t.th_buf.raw % (E.SIZE_MAX + 1)) > E.SIZE_MAX / T_BLOCKSIZE
    · rw [if_pos hov]
      refine ⟨?_, ?_⟩
      · intro r t' heq
        simp only [Flow.ret.injEq] at heq
        obtain ⟨h1, h2⟩ := heq
        subst h1 h2
        exact ⟨rfl, c, hc, hd⟩
      · intro t' heq
        cases heq
    · rw [if_neg hov]
      obtain ⟨c1, hc1⟩ := read_blocks_consumed
        (blocksOf (E.th_get_size t.th_buf.raw % (E.SIZE_MAX + 1))) [] t.input
      generalize read_blocks (blocksOf (E.th_get_size t.th_buf.raw % (E.SIZE_MAX + 1))) [] t.input
        = rb at hc1
      have hcur : TrCur E i0
          { t with th_buf := { t.th_buf with gnu_longlink := some rb.2.1 }, input := rb.2.2 } := by
        refine ⟨c ++ c1, ?_, ?_, List.mem_append_left _ hm⟩
        · rw [List.append_assoc, ← hc1]
          exact hc
        · obtain ⟨h1, h2, h3, h4, h5, h6, h7, h8, h9⟩ :=
            decodedFrom_mono E c (c ++ c1) _ hd (fun x hx => List.mem_append_left _ hx)
          exact ⟨fun _ => ⟨t.th_buf.raw, List.mem_append_left _ hm, hk⟩,
            h2, h3, h4, h5, h6, h7, h8, h9⟩
      split_ifs with h1 h2
      · refine ⟨?_, ?_⟩
        · intro r t' heq
          simp only [Flow.ret.injEq] at heq
          obtain ⟨e1, e2⟩ := heq
          subst e1 e2
          exact ⟨rfl, Tr_io_fail E i0 _ _ (TrCur_Tr E i0 _ hcur)⟩
        · intro t' heq
          cases heq
      · refine ⟨?_, ?_⟩
        · intro r t' heq
          simp only [Flow.ret.injEq] at heq
          obtain ⟨e1, e2⟩ := heq
          subst e1 e2
          exact ⟨rfl, Tr_io_fail E i0 _ _ (Tr_th_read_internal E i0 _ (TrCur_Tr E i0 _ hcur)).1⟩
        · intro t' heq
          cases heq
      · refine ⟨?_, ?_⟩
        · intro r t' heq
          cases heq
        · intro t' heq
          simp only [Flow.next.injEq] at heq
          subst heq
          exact (Tr_th_read_internal E i0 _ (TrCur_Tr E i0 _ hcur)).2 (not_not.mp h2)
  · rw [if_neg hk]
    refine ⟨?_, ?_⟩
    · intro r t' heq
      cases heq
    · intro t' heq
      simp only [Flow.next.injEq] at heq
      subst heq
      exact ⟨c, hc, hd, hm⟩


theorem Tr_th_read_longname (E : Env) (i0 : List ReadEvent) (t : TAR) (h : TrCur E i0 t) :
    (∀ r t', th_read_longname E t = Flow.ret r t' → r = -1 ∧ Tr E i0 t') ∧
      (∀ t', th_read_longname E t = Flow.next t' → TrCur E i0 t') := by
  obtain ⟨c, hc, hd, hm⟩ := h
  simp only [th_read_longname]
  by_cases hk : TH_ISLONGNAME t.th_buf
  · rw [if_pos hk]
    by_cases hov : blocksOf (E.th_get_size t.th_buf.raw % (E.SIZE_MAX + 1)) > E.SIZE_MAX / T_BLOCKSIZE
    · rw [if_pos hov]
      refine ⟨?_, ?_⟩
      · intro r t' heq
        simp only [Flow.ret.injEq] at heq
        obtain ⟨h1, h2⟩ := heq
        subst h1 h2
        exact ⟨rfl, c, hc, hd⟩
      · intro t' heq
        cases heq
    · rw [if_neg hov]
      obtain ⟨c1, hc1⟩ := read_blocks_consumed
        (blocksOf (E.th_get_size t.th_buf.raw % (E.SIZE_MAX + 1))) [] t.input
      generalize read_blocks (blocksOf (E.th_get_size t.th_buf.raw % (E.SIZE_MAX + 1))) [] t.input
        = rb at hc1
      have hcur : TrCur E i0
          { t with th_buf := { t.th_buf with gnu_longname := some rb.2.1 }, input := rb.2.2 } := by
        refine ⟨c ++ c1, ?_, ?_, List.mem_append_left _ hm⟩
        · rw [List.append_assoc, ← hc1]
          exact hc
        · obtain ⟨h1, h2, h3, h4, h5, h6, h7, h8, h9⟩ :=
            decodedFrom_mono E c (c ++ c1) _ hd (fun x hx => List.mem_append_left _ hx)
          exact ⟨h1, fun _ => ⟨t.th_buf.raw, List.mem_append_left _ hm, hk⟩,
            h3, h4, h5, h6, h7, h8, h9⟩
      split_ifs with h1 h2
      · refine ⟨?_, ?_⟩
        · intro r t' heq
          simp only [Flow.ret.injEq] at heq
          obtain ⟨e1, e2⟩ := heq
          subst e1 e2
          exact ⟨rfl, Tr_io_fail E i0 _ _ (TrCur_Tr E i0 _ hcur)⟩
        · intro t' heq
          cases heq
      · refine ⟨?_, ?_⟩
        · intro r t' heq
          simp only [Flow.ret.injEq] at heq
          obtain ⟨e1, e2⟩ := heq
          subst e1 e2
          exact ⟨rfl, Tr_io_fail E i0 _ _ (Tr_th_read_internal E i0 _ (TrCur_Tr E i0 _ hcur)).1⟩
        · intro t' heq
          cases heq
      · refine ⟨?_, ?_⟩
        · intro r t' heq
          cases heq
        · intro t' heq
          simp only [Flow.next.injEq] at heq
          subst heq
          exact (Tr_th_read_internal E i0 _ (TrCur_Tr E i0 _ hcur)).2 (not_not.mp h2)
  · rw [if_neg hk]
    refine ⟨?_, ?_⟩
    · intro r t' heq
      cases heq
    · intro t' heq
      simp only [Flow.next.injEq] at heq
      subst heq
      exact ⟨c, hc, hd, hm⟩

theorem Tr_th_read_ext_block (E : Env) (i0 : List ReadEvent) (t : TAR) (h : Tr E i0 t) :
    (∀ r t', th_read_ext_block E t = Flow.ret r t' → r = -1 ∧ Tr E i0 t') ∧
      (∀ t', th_read_ext_block E t = Flow.next t' → Tr E i0 t') := by
  obtain ⟨c, hc, hd⟩ := h
  simp only [th_read_ext_block]
  split_ifs with hs
  · refine ⟨?_, ?_⟩
    · intro r t' heq
      cases heq
    · intro t' heq
      simp only [Flow.next.injEq] at heq
      subst heq
      exact ⟨c, hc, hd⟩
  · cases hin : t.input with
    | nil =>
      refine ⟨?_, ?_⟩
      · intro r t' heq
        simp only [tar_block_read, Flow.ret.injEq] at heq
        obtain ⟨e1, e2⟩ := heq
        subst e1 e2
        refine ⟨rfl, Tr_io_fail E i0 _ _ ⟨c, ?_, hd⟩⟩
        rw [hc, hin]
      · intro t' heq
        simp [tar_block_read] at heq
    | cons e rest =>
      have hi : i0 = (c ++ [e]) ++ rest := by
        rw [hc, hin]
        simp
      cases e with
      | full b =>
        refine ⟨?_, ?_⟩
        · intro r t' heq
          simp [tar_block_read] at heq
        · intro t' heq
          simp only [tar_block_read, Flow.next.injEq] at heq
          subst heq
          refine ⟨c ++ [ReadEvent.full b], hi, ?_⟩
          exact decodedFrom_decode_ext E _ _ b
            (decodedFrom_mono E c _ _ hd (fun x hx => List.mem_append_left _ hx)) (by simp)
      | short n =>
        refine ⟨?_, ?_⟩
        · intro r t' heq
          simp only [tar_block_read, Flow.ret.injEq] at heq
          obtain ⟨e1, e2⟩ := heq
          subst e1 e2
          refine ⟨rfl, Tr_io_fail E i0 _ _ ⟨c ++ [ReadEvent.short n], hi, ?_⟩⟩
          exact decodedFrom_mono E c _ _ hd (fun x hx => List.mem_append_left _ hx)
        · intro t' heq
          simp [tar_block_read] at heq
      | error =>
        refine ⟨?_, ?_⟩
        · intro r t' heq
          simp only [tar_block_read, Flow.ret.injEq] at heq
          obtain ⟨e1, e2⟩ := heq
          subst e1 e2
          refine ⟨rfl, Tr_io_fail E i0 _ _ ⟨c ++ [ReadEvent.error], hi, ?_⟩⟩
          exact decodedFrom_mono E c _ _ hd (fun x hx => List.mem_append_left _ hx)
        · intro t' heq
          simp [tar_block_read] at heq

/-- What the extended-header loop returns: a trace, and on success a header that
is neither an extended nor a policy header. -/
theorem Tr_th_read_ext_loop (E : Env) (i0 : List ReadEvent) :
    ∀ (fuel : Nat) (t : TAR) (r : Int) (t' : TAR), Tr E i0 t →
      th_read_ext_loop E fuel t = some (r, t') →
      Tr E i0 t' ∧ (r = 0 ∨ r = -1) ∧
        (r = 0 → ¬ TH_ISEXTHEADER t'.th_buf ∧ ¬ TH_ISPOLHEADER t'.th_buf) := by
  intro fuel
  induction fuel with
  | zero => intro t r t' _ h; simp [th_read_ext_loop] at h
  | succ n ih =>
    intro t r t' htr h
    simp only [th_read_ext_loop] at h
    by_cases hc : TH_ISEXTHEADER t.th_buf ∨ TH_ISPOLHEADER t.th_buf
    · rw [if_pos hc] at h
      obtain ⟨hret, hnext⟩ := Tr_th_read_ext_block E i0 t htr
      split at h
      · rename_i r1 t1 heq
        simp only [Option.some.injEq, Prod.mk.injEq] at h
        obtain ⟨e1, e2⟩ := h
        subst e1 e2
        obtain ⟨hr, ht⟩ := hret _ _ heq
        exact ⟨ht, Or.inr hr, fun h0 => by omega⟩
      · rename_i t1 heq
        have h1 := hnext _ heq
        split_ifs at h with h5
        · simp only [Option.some.injEq] at h
          have e1 : r = -1 := (congrArg Prod.fst h).symm
          have e2 : t' = (io_fail (th_read_internal E t1).1 (th_read_internal E t1).2).2 :=
            (congrArg Prod.snd h).symm
          subst e2
          exact ⟨Tr_io_fail E i0 _ _ (Tr_th_read_internal E i0 _ h1).1, Or.inr e1,
            fun h0 => by omega⟩
        · exact ih _ _ _ (Tr_th_read_internal E i0 _ h1).1 h
    · rw [if_neg hc] at h
      simp only [Option.some.injEq, Prod.mk.injEq] at h
      obtain ⟨e1, e2⟩ := h
      subst e1 e2
      exact ⟨htr, Or.inl rfl, fun _ => not_or.mp hc⟩

/-- The statement of `th_read` about its trace, for every return value. -/
theorem Tr_th_read (E : Env) (t : TAR) (r : Int) (t' : TAR) (h : th_read E t = some (r, t')) :
    Tr E t.input t' ∧ (r = 0 ∨ r = 1 ∨ r = -1) ∧
      (r = 0 → ¬ TH_ISEXTHEADER t'.th_buf ∧ ¬ TH_ISPOLHEADER t'.th_buf) := by
  have h0 : Tr E t.input { t with th_buf := tar_header.zero } :=
    ⟨[], rfl, decodedFrom_zero E [] zeroBlock⟩
  obtain ⟨hi, hicur⟩ := Tr_th_read_internal E t.input _ h0
  simp only [th_read] at h
  split_ifs at h with h1 h2
  · simp only [Option.some.injEq, Prod.mk.injEq] at h
    obtain ⟨e1, e2⟩ := h
    subst e1 e2
    exact ⟨hi, Or.inr (Or.inl rfl), fun h0 => by omega⟩
  · simp only [Option.some.injEq] at h
    have e1 : r = -1 := (congrArg Prod.fst h).symm
    have e2 : t' = (io_fail (th_read_internal E { t with th_buf := tar_header.zero }).1
        (th_read_internal E { t with th_buf := tar_header.zero }).2).2 :=
      (congrArg Prod.snd h).symm
    subst e2
    exact ⟨Tr_io_fail E _ _ _ hi, Or.inr (Or.inr e1), fun h0 => by omega⟩
  · have hcur := hicur (not_not.mp h2)
    obtain ⟨hret, hnext⟩ := Tr_th_read_longlink E t.input _ hcur
    split at h
    · rename_i r1 t1 heq
      simp only [Option.some.injEq, Prod.mk.injEq] at h
      obtain ⟨e1, e2⟩ := h
      subst e1 e2
      obtain ⟨hr, ht⟩ := hret _ _ heq
      exact ⟨ht, Or.inr (Or.inr hr), fun h0 => by omega⟩
    · rename_i t1 heq
      have hcur1 := hnext _ heq
      obtain ⟨hret1, hnext1⟩ := Tr_th_read_longname E t.input _ hcur1
      split at h
      · rename_i r2 t2 heq2
        simp only [Option.some.injEq, Prod.mk.injEq] at h
        obtain ⟨e1, e2⟩ := h
        subst e1 e2
        obtain ⟨hr, ht⟩ := hret1 _ _ heq2
        exact ⟨ht, Or.inr (Or.inr hr), fun h0 => by omega⟩
      · rename_i t2 heq2
        obtain ⟨ht, hr, hz⟩ := Tr_th_read_ext_loop E t.input _ _ _ _
          (TrCur_Tr E _ _ (hnext1 _ heq2)) h
        refine ⟨ht, ?_, hz⟩
        rcases hr with hr | hr
        · exact Or.inl hr
        · exact Or.inr (Or.inr hr)


/-! Termination: the bound on the extended-header loop is never used up. -/

theorem th_read_internal_length (E : Env) (t : TAR) :
    (th_read_internal E t).2.input.length ≤ t.input.length ∧
      ((th_read_internal E t).1 = 512 → (th_read_internal E t).2.input.length < t.input.length) := by
  obtain ⟨c, hc, hm⟩ := th_read_internal_loop_consumed E t.options t.input 0 t.th_buf
  have hl := congrArg List.length hc
  rw [List.length_append] at hl
  simp only [th_read_internal]
  refine ⟨by omega, ?_⟩
  intro h5
  have := List.length_pos_of_mem (hm h5)
  omega

theorem th_read_ext_block_length (E : Env) (t t' : TAR)
    (h : th_read_ext_block E t = Flow.next t') : t'.input.length ≤ t.input.length := by
  simp only [th_read_ext_block] at h
  split_ifs at h
  · simp only [Flow.next.injEq] at h
    subst h
    exact le_refl _
  · cases hin : t.input with
    | nil =>
      rw [hin] at h
      simp [tar_block_read] at h
    | cons e rest =>
      rw [hin] at h
      cases e with
      | full b =>
        simp only [tar_block_read, Flow.next.injEq] at h
        subst h
        simp
      | short n => simp [tar_block_read] at h
      | error => simp [tar_block_read] at h

theorem th_read_ext_loop_returns (E : Env) :
    ∀ (fuel : Nat) (t : TAR), t.input.length < fuel →
      (th_read_ext_loop E fuel t).isSome = true := by
  intro fuel
  induction fuel with
  | zero => intro t h; omega
  | succ n ih =>
    intro t h
    simp only [th_read_ext_loop]
    split_ifs with hc
    · split
      · rfl
      · rename_i t1 heq
        have h1 := th_read_ext_block_length E t t1 heq
        split_ifs with h5
        · rfl
        · have h2 := (th_read_internal_length E t1).2 (not_not.mp h5)
          exact ih _ (by omega)
    · rfl

/-- The function `th_read` returns on every input: the bound on the
extended-header loop is never reached. -/
theorem th_read_returns (E : Env) (t : TAR) : (th_read E t).isSome = true := by
  simp only [th_read]
  split_ifs
  · rfl
  · rfl
  · split
    · rfl
    · split
      · rfl
      · exact th_read_ext_loop_returns E _ _ (Nat.lt_succ_self _)

/-! ## C3: end of archive -/

/-- C3. With `TAR_IGNORE_EOT` not set, when the next two blocks of the stream are
all-zero blocks, `th_read` returns 1 (end of archive) and has consumed exactly
those two blocks: the remaining input is what followed them. -/
theorem th_read_end_of_archive (E : Env) (t : TAR) (rest : List ReadEvent)
    (hopt : t.options.TAR_IGNORE_EOT = false)
    (hin : t.input = ReadEvent.full zeroBlock :: ReadEvent.full zeroBlock :: rest) :
    th_read E t = some (1, { t with th_buf := tar_header.zero, input := rest }) := by
  have h0 : name0 zeroBlock = 0 := by decide
  simp [th_read, th_read_internal, th_read_internal_loop, hin, hopt, h0, tar_header.zero]

/-- Witness of C3: two zero blocks in front of a header block. -/
theorem th_read_end_of_archive_witness :
    (TAR.init {} tar_header.zero
        [ReadEvent.full zeroBlock, ReadEvent.full zeroBlock,
          ReadEvent.full (sampleHeader {} 48 0)]).options.TAR_IGNORE_EOT = false ∧
      th_read env64 (TAR.init {} tar_header.zero
        [ReadEvent.full zeroBlock, ReadEvent.full zeroBlock,
          ReadEvent.full (sampleHeader {} 48 0)]) =
        some (1, TAR.init {} tar_header.zero [ReadEvent.full (sampleHeader {} 48 0)]) :=
  ⟨rfl, th_read_end_of_archive env64 _ [ReadEvent.full (sampleHeader {} 48 0)] rfl rfl⟩

/-! ## Byte-level facts -/

theorem poke_eq (b : List Nat) (off : Nat) (x : List Nat) (h : off + x.length ≤ b.length) :
    poke b off x = b.take off ++ x ++ b.drop (off + x.length) := by
  unfold poke
  apply List.take_of_length_le
  simp only [List.length_append, List.length_take, List.length_drop]
  omega

theorem length_poke (b : List Nat) (off : Nat) (x : List Nat) :
    (poke b off x).length = b.length := by
  unfold poke
  simp only [List.length_take, List.length_append, List.length_drop]
  omega

theorem take_poke (b : List Nat) (off : Nat) (x : List Nat) (h : off + x.length ≤ b.length) :
    (poke b off x).take off = b.take off := by
  rw [poke_eq b off x h, List.append_assoc]
  rw [List.take_append_of_le_length (by simp; omega)]
  simp

theorem drop_poke (b : List Nat) (off : Nat) (x : List Nat) (h : off + x.length ≤ b.length) :
    (poke b off x).drop (off + x.length) = b.drop (off + x.length) := by
  rw [poke_eq b off x h]
  have hl : (b.take off ++ x).length = off + x.length := by
    simp only [List.length_append, List.length_take]
    omega
  rw [← hl, List.drop_left]

theorem field_poke (b : List Nat) (off : Nat) (x : List Nat) (h : off + x.length ≤ b.length) :
    field (poke b off x) off x.length = x := by
  rw [poke_eq b off x h]
  unfold field
  have hl : (b.take off).length = off := by
    simp only [List.length_take]
    omega
  rw [List.append_assoc]
  nth_rewrite 1 [← hl]
  rw [List.drop_left, List.take_left]

theorem mem_poke (b : List Nat) (off : Nat) (x : List Nat) (c : Nat) (h : c ∈ poke b off x) :
    c ∈ b ∨ c ∈ x := by
  unfold poke at h
  have h1 := List.mem_of_mem_take h
  simp only [List.mem_append] at h1
  rcases h1 with (h1 | h1) | h1
  · exact Or.inl (List.mem_of_mem_take h1)
  · exact Or.inr h1
  · exact Or.inl (List.mem_of_mem_drop h1)

theorem isBlock_poke (b : Block) (off : Nat) (x : List Nat) (hb : isBlock b)
    (hx : ∀ c ∈ x, c < 256) : isBlock (poke b off x) := by
  refine ⟨by rw [length_poke]; exact hb.1, ?_⟩
  intro c hc
  rcases mem_poke b off x c hc with h | h
  · exact hb.2 c h
  · exact hx c h

/-! ## Octal fields -/

theorem digitsAux_acc (base : Nat) :
    ∀ (fuel n : Nat) (acc : List Nat),
      digitsAux base fuel n acc = digitsAux base fuel n [] ++ acc := by
  intro fuel
  induction fuel with
  | zero => intro n acc; rfl
  | succ f ih =>
    intro n acc
    simp only [digitsAux]
    split_ifs
    · rfl
    · rw [ih (n / base) ((48 + n % base) :: acc), ih (n / base) [48 + n % base]]
      simp

theorem digitsAux_ne_nil (base : Nat) (fuel n : Nat) (hf : 0 < fuel) :
    digitsAux base fuel n [] ≠ [] := by
  obtain ⟨f, rfl⟩ : ∃ f, fuel = f + 1 := ⟨fuel - 1, by omega⟩
  simp only [digitsAux]
  split_ifs
  · simp
  · rw [digitsAux_acc]
    simp

theorem digitsAux_range :
    ∀ (fuel n : Nat), ∀ c ∈ digitsAux 8 fuel n [], 48 ≤ c ∧ c ≤ 55 := by
  intro fuel
  induction fuel with
  | zero => intro n c hc; simp [digitsAux] at hc
  | succ f ih =>
    intro n c hc
    simp only [digitsAux] at hc
    split_ifs at hc with h
    · simp only [List.mem_singleton] at hc
      omega
    · rw [digitsAux_acc] at hc
      simp only [List.mem_append, List.mem_singleton] at hc
      rcases hc with hc | hc
      · exact ih _ c hc
      · have := Nat.mod_lt n (show 8 > 0 by decide)
        omega

theorem digitsAux_length :
    ∀ (fuel n k : Nat), n < fuel → n < 8 ^ (k + 1) →
      (digitsAux 8 fuel n []).length ≤ k + 1 := by
  intro fuel
  induction fuel with
  | zero => intro n k h; omega
  | succ f ih =>
    intro n k hf hk
    simp only [digitsAux]
    split_ifs with h
    · simp
    · rw [digitsAux_acc]
      simp only [List.length_append, List.length_singleton]
      cases k with
      | zero => simp at hk; omega
      | succ k =>
        have h1 : n / 8 < 8 ^ (k + 1) := by
          rw [Nat.div_lt_iff_lt_mul (by decide)]
          rw [pow_succ] at hk
          exact hk
        have := ih (n / 8) k (by omega) h1
        omega

theorem parseOct_digitsAux :
    ∀ (fuel n a : Nat) (rest : List Nat), n < fuel →
      parseOct a (digitsAux 8 fuel n [] ++ rest) =
        parseOct (a * 8 ^ (digitsAux 8 fuel n []).length + n) rest := by
  intro fuel
  induction fuel with
  | zero => intro n a rest h; omega
  | succ f ih =>
    intro n a rest hf
    simp only [digitsAux]
    split_ifs with h
    · simp only [List.singleton_append, parseOct, List.length_singleton, pow_one]
      rw [if_pos (by omega)]
      congr 1
      omega
    · rw [digitsAux_acc]
      rw [List.append_assoc, ih (n / 8) a _ (by omega)]
      simp only [List.singleton_append, parseOct, List.length_append, List.length_singleton]
      have := Nat.mod_lt n (show 8 > 0 by decide)
      rw [if_pos (by omega)]
      congr 1
      rw [pow_succ]
      have := Nat.div_add_mod n 8
      have e : 48 + n % 8 - 48 = n % 8 := by omega
      rw [e]
      nlinarith [Nat.div_add_mod n 8]

theorem dropWhile_blanks (k : Nat) (d : Nat) (l : List Nat) (hd : d ≠ 32) :
    List.dropWhile (fun c => decide (c = 32)) (List.replicate k 32 ++ d :: l) = d :: l := by
  induction k with
  | zero =>
    simp only [List.replicate_zero, List.nil_append, List.dropWhile_cons]
    rw [if_neg (by simpa using hd)]
  | succ k ih =>
    simp only [List.replicate_succ, List.cons_append, List.dropWhile_cons]
    simp only [decide_True, if_true]
    exact ih

/-- Decoding a field that starts with blanks, then the octal digits of `n`, then a
byte that is not an octal digit, gives `n`. -/
theorem oct_to_int_padLeft (width n : Nat) (c : Nat) (rest : List Nat)
    (hc : ¬ (48 ≤ c ∧ c ≤ 55)) :
    oct_to_int (padLeft width (octal n) ++ c :: rest) = n := by
  have hne := digitsAux_ne_nil 8 (n + 1) n (by omega)
  have hr := digitsAux_range (n + 1) n
  have hp := parseOct_digitsAux (n + 1) n 0 (c :: rest) (by omega)
  unfold oct_to_int padLeft octal
  cases hds : digitsAux 8 (n + 1) n [] with
  | nil => exact absurd hds hne
  | cons d ds' =>
    have hd := hr d (by rw [hds]; simp)
    rw [List.append_assoc, List.cons_append, dropWhile_blanks _ d _ (by omega)]
    rw [hds] at hp
    rw [List.cons_append] at hp
    rw [hp]
    simp only [parseOct, zero_mul, zero_add]
    rw [if_neg hc]

theorem sum_le_of_bytes (l : List Nat) (h : ∀ x ∈ l, x < 256) : l.sum ≤ 255 * l.length := by
  induction l with
  | nil => simp
  | cons a l ih =>
    have ha := h a (by simp)
    have := ih (fun x hx => h x (List.mem_cons_of_mem _ hx))
    simp only [List.sum_cons, List.length_cons]
    omega

theorem th_crc_calc_lt (b : Block) (hb : isBlock b) : th_crc_calc b < 8 ^ 6 := by
  unfold th_crc_calc
  have h1 := sum_le_of_bytes (b.take 148) (fun x hx => hb.2 x (List.mem_of_mem_take hx))
  have h2 := sum_le_of_bytes (b.drop 156) (fun x hx => hb.2 x (List.mem_of_mem_drop hx))
  simp only [List.length_take, List.length_drop, hb.1] at h1 h2
  norm_num at h1 h2 ⊢
  omega

theorem length_padLeft (width : Nat) (ds : List Nat) (h : ds.length ≤ width) :
    (padLeft width ds).length = width := by
  unfold padLeft
  simp only [List.length_append, List.length_replicate]
  omega

theorem mem_padLeft_octal (width n : Nat) : ∀ c ∈ padLeft width (octal n), c < 256 := by
  intro c hc
  unfold padLeft octal at hc
  simp only [List.mem_append, List.mem_replicate] at hc
  rcases hc with hc | hc
  · omega
  · have := digitsAux_range _ _ c hc
    omega

/-- The checksum does not depend on the checksum field. -/
theorem th_crc_calc_poke (b : Block) (x : List Nat) (hx : x.length = 8) (hb : 512 ≤ b.length) :
    th_crc_calc (poke b 148 x) = th_crc_calc b := by
  have hfit : 148 + x.length ≤ b.length := by omega
  have ht := take_poke b 148 x hfit
  have hd := drop_poke b 148 x hfit
  rw [hx] at hd
  unfold th_crc_calc
  rw [ht, hd]

/-- The checksum field stored by `th_finish`. -/
theorem chksum_eq (crc : Nat) (h : crc < 8 ^ 6) :
    (padLeft 6 (octal crc) ++ [32]).take 7 ++ [0] = padLeft 6 (octal crc) ++ [32, 0] := by
  have hl : (octal crc).length ≤ 6 := digitsAux_length (crc + 1) crc 5 (by omega) h
  have h6 := length_padLeft 6 (octal crc) hl
  rw [List.take_of_length_le (by simp [h6])]
  simp

theorem isBlock_th_finish_magic (o : Options) (b : Block) (hb : isBlock b) :
    isBlock (if o.TAR_GNU = true then poke b 257 (lit "ustar " ++ [32, 0])
      else poke b 257 (lit "ustar" ++ [0] ++ lit "00")) := by
  split_ifs
  · exact isBlock_poke b 257 _ hb (by decide)
  · exact isBlock_poke b 257 _ hb (by decide)

theorem th_finish_spec (o : Options) (b : Block) (hb : isBlock b) :
    isBlock (th_finish o b) ∧ th_get_crc (th_finish o b) = th_crc_calc (th_finish o b) := by
  have hb1 := isBlock_th_finish_magic o b hb
  unfold th_finish
  simp only []
  generalize (if o.TAR_GNU = true then poke b 257 (lit "ustar " ++ [32, 0])
      else poke b 257 (lit "ustar" ++ [0] ++ lit "00")) = b1 at hb1
  have hcrc := th_crc_calc_lt b1 hb1
  rw [chksum_eq _ hcrc]
  have hl : (octal (th_crc_calc b1)).length ≤ 6 :=
    digitsAux_length (th_crc_calc b1 + 1) (th_crc_calc b1) 5 (by omega) hcrc
  have hlen : (padLeft 6 (octal (th_crc_calc b1)) ++ [32, 0]).length = 8 := by
    simp [length_padLeft 6 _ hl]
  have hfit : 148 + (padLeft 6 (octal (th_crc_calc b1)) ++ [32, 0]).length ≤ b1.length := by
    rw [hlen, hb1.1]
    decide
  refine ⟨isBlock_poke b1 148 _ hb1 ?_, ?_⟩
  · intro c hc
    simp only [List.mem_append, List.mem_cons, List.mem_singleton] at hc
    rcases hc with hc | hc
    · exact mem_padLeft_octal 6 _ c hc
    · simp at hc
      omega
  · have hf := field_poke b1 148 _ hfit
    rw [hlen] at hf
    rw [th_crc_calc_poke b1 _ hlen (by rw [hb1.1])]
    unfold th_get_crc chksumField
    rw [hf]
    exact oct_to_int_padLeft 6 (th_crc_calc b1) 32 [0] (by omega)

/-- The header `th_finish` produces passes the checksum check. -/
theorem th_crc_ok_th_finish (o : Options) (b : Block) (hb : isBlock b) :
    th_crc_ok (th_finish o b) = true := by
  unfold th_crc_ok
  rw [(th_finish_spec o b hb).2]
  simp

theorem typeflag_lt (b : Block) (hb : isBlock b) : typeflag b < 256 := by
  unfold typeflag
  rw [List.getD_eq_getElem?_getD]
  cases h : b[156]? with
  | none => exact Nat.zero_lt_succ 255
  | some c => exact hb.2 c (List.getElem?_mem h)

theorem isBlock_setTypeflag (b : Block) (c : Nat) (hb : isBlock b) (hc : c < 256) :
    isBlock (setTypeflag b c) :=
  isBlock_poke b 156 [c] hb (by simpa using hc)

theorem isBlock_th_set_size (b : Block) (sz : Nat) (hb : isBlock b) :
    isBlock (th_set_size b sz) := by
  refine isBlock_poke b 124 _ hb ?_
  intro c hc
  simp only [List.mem_append, List.mem_singleton] at hc
  rcases hc with hc | hc
  · exact mem_padLeft_octal 11 sz c (List.mem_of_mem_take hc)
  · omega

/-! ## The writer: every header block is finished -/

theorem WInv_io_fail (o : Options) (i : Int) (t : TAR) (h : WInv o t) : WInv o (io_fail i t).2 := by
  unfold io_fail
  split_ifs
  · exact h
  · exact h

theorem WInv_write_data (o : Options) (t : TAR) (b : Block) (h : WInv o t) :
    WInv o (tar_block_write t (Written.data b)).2 := by
  obtain ⟨h1, h2, h3⟩ := h
  unfold tar_block_write
  split
  · refine ⟨h1, h2, ?_⟩
    intro x hx
    simp only [List.mem_append, List.mem_singleton] at hx
    rcases hx with hx | hx
    · exact h3 x hx
    · cases hx
  · refine ⟨h1, h2, ?_⟩
    intro x hx
    simp only [List.mem_append, List.mem_singleton] at hx
    rcases hx with hx | hx
    · exact h3 x hx
    · cases hx
  · exact ⟨h1, h2, h3⟩
  · exact ⟨h1, h2, h3⟩

theorem WInv_write_header (o : Options) (t : TAR) (x : Block) (hx : isBlock x)
    (hraw : t.th_buf.raw = th_finish o x) (h : WInv o t) :
    WInv o (tar_block_write t (Written.header t.th_buf.raw)).2 := by
  obtain ⟨h1, h2, h3⟩ := h
  unfold tar_block_write
  split
  · refine ⟨h1, h2, ?_⟩
    intro y hy
    simp only [List.mem_append, List.mem_singleton, Written.header.injEq] at hy
    rcases hy with hy | hy
    · exact h3 y hy
    · exact ⟨x, hx, by rw [hy, hraw]⟩
  · refine ⟨h1, h2, ?_⟩
    intro y hy
    simp only [List.mem_append, List.mem_singleton, Written.header.injEq] at hy
    rcases hy with hy | hy
    · exact h3 y hy
    · exact ⟨x, hx, by rw [hy, hraw]⟩
  · exact ⟨h1, h2, h3⟩
  · exact ⟨h1, h2, h3⟩

theorem tar_block_write_th_buf (t : TAR) (w : Written) :
    (tar_block_write t w).2.th_buf = t.th_buf := by
  unfold tar_block_write
  split <;> rfl

/-- Replacing the header buffer by a well-formed block keeps the invariant. -/
theorem WInv_set_raw (o : Options) (t : TAR) (x : Block) (hx : isBlock x) (h : WInv o t) :
    WInv o { t with th_buf := { t.th_buf with raw := x } } :=
  ⟨h.1, hx, h.2.2⟩

theorem WInv_th_write_extended (w : Nat) (f : Bool) (ps : Nat) (o : Options) (t : TAR)
    (buf : Block) (sz : Nat) (h : WInv o t) :
    WInv o (th_write_extended (libtar w f ps) t buf sz).2.1 := by
  have hraw := h.2.1
  have hx : isBlock (th_set_size (setTypeflag t.th_buf.raw TH_EXT_TYPE) sz) :=
    isBlock_th_set_size _ _ (isBlock_setTypeflag _ _ hraw (by decide))
  have ho : t.options = o := h.1
  simp only [th_write_extended, libtar]
  split_ifs with h1 h2 h3
  · exact WInv_set_raw o t _ (isBlock_setTypeflag _ _ hraw (by decide)) h
  · refine WInv_io_fail o _ _ ?_
    refine WInv_write_header o _ _ hx (by simp only [ho]) ?_
    exact WInv_set_raw o t _ (by rw [ho]; exact (th_finish_spec o _ hx).1) h
  · refine WInv_io_fail o _ _ ?_
    refine WInv_write_data o _ _ ?_
    refine WInv_write_header o _ _ hx (by simp only [ho]) ?_
    exact WInv_set_raw o t _ (by rw [ho]; exact (th_finish_spec o _ hx).1) h
  · have hw : WInv o (tar_block_write (tar_block_write
        { t with th_buf := { t.th_buf with
          raw := th_finish t.options (th_set_size (setTypeflag t.th_buf.raw TH_EXT_TYPE) sz) } }
        (Written.header (th_finish t.options
          (th_set_size (setTypeflag t.th_buf.raw TH_EXT_TYPE) sz)))).2 (Written.data buf)).2 := by
      refine WInv_write_data o _ _ ?_
      refine WInv_write_header o _ _ hx (by simp only [ho]) ?_
      exact WInv_set_raw o t _ (by rw [ho]; exact (th_finish_spec o _ hx).1) h
    refine WInv_set_raw o _ _ ?_ hw
    refine isBlock_th_set_size _ _ (isBlock_setTypeflag _ _ hw.2.1 (typeflag_lt _ hraw))

theorem WInv_write_long_blocks (o : Options) :
    ∀ (j : Nat) (ptr : List Nat) (t : TAR), WInv o t → WInv o (write_long_blocks j ptr t).2.1 := by
  intro j
  induction j with
  | zero => intro ptr t h; exact h
  | succ j ih =>
    intro ptr t h
    simp only [write_long_blocks]
    split_ifs
    · exact WInv_write_data o t _ h
    · exact ih _ _ (WInv_write_data o t _ h)
    · exact h

theorem WInv_th_write_gnu (w : Nat) (f : Bool) (ps : Nat) (o : Options) (ty : Nat) (hty : ty < 256)
    (str : List Nat) (t : TAR) (h : WInv o t) :
    WInv o (th_write_gnu (libtar w f ps) ty str t).state := by
  have hraw := h.2.1
  have hx : isBlock (th_set_size (setTypeflag t.th_buf.raw ty) (strlen str)) :=
    isBlock_th_set_size _ _ (isBlock_setTypeflag _ _ hraw hty)
  have ho : t.options = o := h.1
  have h1 : WInv o (tar_block_write
      { t with th_buf := { t.th_buf with
        raw := th_finish t.options (th_set_size (setTypeflag t.th_buf.raw ty) (strlen str)) } }
      (Written.header (th_finish t.options
        (th_set_size (setTypeflag t.th_buf.raw ty) (strlen str))))).2 := by
    refine WInv_write_header o _ _ hx (by simp only [ho]) ?_
    exact WInv_set_raw o t _ (by rw [ho]; exact (th_finish_spec o _ hx).1) h
  simp only [th_write_gnu, libtar]
  split_ifs with h2 h3 h4
  · exact WInv_io_fail o _ _ h1
  · exact WInv_io_fail o _ _ (WInv_write_long_blocks o _ _ _ h1)
  · exact WInv_io_fail o _ _ (WInv_write_data o _ _ (WInv_write_long_blocks o _ _ _ h1))
  · have h5 := WInv_write_data o _ (strncpy_block (write_long_blocks (blocksOf (strlen str)) str
        (tar_block_write
          { t with th_buf := { t.th_buf with
            raw := th_finish t.options (th_set_size (setTypeflag t.th_buf.raw ty) (strlen str)) } }
          (Written.header (th_finish t.options
            (th_set_size (setTypeflag t.th_buf.raw ty) (strlen str))))).2).2.2)
      (WInv_write_long_blocks o (blocksOf (strlen str)) str _ h1)
    exact WInv_set_raw o _ _
      (isBlock_th_set_size _ _ (isBlock_setTypeflag _ _ h5.2.1 (typeflag_lt _ hraw))) h5

theorem WInv_make_room (w : Nat) (f : Bool) (ps : Nat) (o : Options) (t : TAR) (l : WLocals)
    (sz : Nat) (h : WInv o t) : WInv o (make_room (libtar w f ps) t l sz).state := by
  simp only [make_room]
  split_ifs
  · exact WInv_th_write_extended w f ps o t _ _ h
  · exact WInv_th_write_extended w f ps o t _ _ h
  · exact h

theorem WInv_th_write_selinux (o : Options) (t : TAR) (l : WLocals) (h : WInv o t) :
    WInv o (th_write_selinux t l).state := by
  unfold th_write_selinux
  split
  · exact h
  · exact h

theorem WInv_th_write_fscrypt (w : Nat) (f : Bool) (ps : Nat) (o : Options) (t : TAR)
    (l : WLocals) (h : WInv o t) : WInv o (th_write_fscrypt (libtar w f ps) t l).state := by
  have hm := WInv_make_room w f ps o t l
    (bump (FSCRYPT_TAG.length + (libtar w f ps).sizeof_policy + 1 + 3 + 1)) h
  simp only [th_write_fscrypt]
  split_ifs
  · split
    · rename_i heq
      rw [heq] at hm
      exact hm
    · rename_i heq
      rw [heq] at hm
      exact hm
  · exact h

theorem WInv_th_write_cap (w : Nat) (f : Bool) (ps : Nat) (o : Options) (t : TAR)
    (l : WLocals) (h : WInv o t) : WInv o (th_write_cap (libtar w f ps) t l).state := by
  have hm := WInv_make_room w f ps o t l
    (bump (CAPABILITIES_TAG.length + sizeof_vfs_cap_data + 3 + 1)) h
  simp only [th_write_cap]
  split_ifs
  · split
    · rename_i heq
      rw [heq] at hm
      exact hm
    · rename_i heq
      rw [heq] at hm
      exact hm
  · exact h

theorem WInv_th_write_user (w : Nat) (f : Bool) (ps : Nat) (o : Options) (flag : Bool)
    (tag : List Nat) (t : TAR) (l : WLocals) (h : WInv o t) :
    WInv o (th_write_user (libtar w f ps) flag tag t l).state := by
  have hm := WInv_make_room w f ps o t l (tag.length + 3 + 1) h
  simp only [th_write_user]
  split_ifs
  · split
    · rename_i heq
      rw [heq] at hm
      exact hm
    · rename_i heq
      rw [heq] at hm
      exact hm
  · exact h

theorem WInv_th_write_user_xattr (w : Nat) (f : Bool) (ps : Nat) (o : Options) (t : TAR)
    (l : WLocals) (h : WInv o t) : WInv o (th_write_user_xattr (libtar w f ps) t l).state := by
  simp only [th_write_user_xattr]
  split_ifs
  · have h1 := WInv_th_write_user w f ps o t.th_buf.has_user_default ANDROID_USER_DEFAULT_TAG t l h
    split
    · rename_i heq
      rw [heq] at h1
      exact h1
    · rename_i t1 l1 heq
      rw [heq] at h1
      have h2 := WInv_th_write_user w f ps o t1.th_buf.has_user_cache ANDROID_USER_CACHE_TAG t1 l1 h1
      split
      · rename_i heq2
        rw [heq2] at h2
        exact h2
      · rename_i t2 l2 heq2
        rw [heq2] at h2
        exact WInv_th_write_user w f ps o _ _ t2 l2 h2
  · exact h

theorem WInv_th_write_final (w : Nat) (f : Bool) (ps : Nat) (o : Options) (t : TAR)
    (l : WLocals) (h : WInv o t) : WInv o (th_write_final (libtar w f ps) t l).2 := by
  have hx : WInv o (if l.total_sz > 0 then th_write_extended (libtar w f ps) t l.buf l.total_sz
      else (0, t, l.buf)).2.1 := by
    split_ifs
    · exact WInv_th_write_extended w f ps o t _ _ h
    · exact h
  simp only [th_write_final]
  generalize (if l.total_sz > 0 then th_write_extended (libtar w f ps) t l.buf l.total_sz
      else (0, t, l.buf)) = x at hx
  have ho : x.2.1.options = o := hx.1
  simp only [libtar]
  split_ifs
  · exact hx
  · refine WInv_io_fail o _ _ ?_
    refine WInv_write_header o _ _ hx.2.1 (by simp only [ho]) ?_
    exact WInv_set_raw o _ _ (by rw [ho]; exact (th_finish_spec o _ hx.2.1).1) hx
  · refine WInv_write_header o _ _ hx.2.1 (by simp only [ho]) ?_
    exact WInv_set_raw o _ _ (by rw [ho]; exact (th_finish_spec o _ hx.2.1).1) hx

theorem WInv_th_write_ext (w : Nat) (f : Bool) (ps : Nat) (o : Options) (t : TAR)
    (h : WInv o t) : WInv o (th_write_ext (libtar w f ps) t).2 := by
  simp only [th_write_ext]
  have h1 := WInv_th_write_selinux o t { buf := zeroBlock, ptr := 0, total_sz := 0 } h
  split
  · rename_i heq
    rw [heq] at h1
    exact h1
  · rename_i t1 l1 heq
    rw [heq] at h1
    have h2 := WInv_th_write_fscrypt w f ps o t1 l1 h1
    split
    · rename_i heq2
      rw [heq2] at h2
      exact h2
    · rename_i t2 l2 heq2
      rw [heq2] at h2
      have h3 := WInv_th_write_cap w f ps o t2 l2 h2
      split
      · rename_i heq3
        rw [heq3] at h3
        exact h3
      · rename_i t3 l3 heq3
        rw [heq3] at h3
        have h4 := WInv_th_write_user_xattr w f ps o t3 l3 h3
        split
        · rename_i heq4
          rw [heq4] at h4
          exact h4
        · rename_i t4 l4 heq4
          rw [heq4] at h4
          exact WInv_th_write_final w f ps o t4 l4 h4

theorem WInv_th_write (w : Nat) (f : Bool) (ps : Nat) (o : Options) (t : TAR)
    (h : WInv o t) : WInv o (th_write (libtar w f ps) t).2 := by
  simp only [th_write]
  have h1 : WInv o (th_write_longlink (libtar w f ps) t).state := by
    unfold th_write_longlink
    split
    · exact WInv_th_write_gnu w f ps o _ (by decide) _ t h
    · exact h
  split
  · rename_i heq
    rw [heq] at h1
    exact h1
  · rename_i t1 heq
    rw [heq] at h1
    have h2 : WInv o (th_write_longname (libtar w f ps) t1).state := by
      unfold th_write_longname
      split
      · exact WInv_th_write_gnu w f ps o _ (by decide) _ t1 h1
      · exact h1
    split
    · rename_i heq2
      rw [heq2] at h2
      exact h2
    · rename_i t2 heq2
      rw [heq2] at h2
      exact WInv_th_write_ext w f ps o t2 h2

/-! ## The reader: overflow guard and size limit -/

theorem th_read_internal_errno (E : Env) (t : TAR) : (th_read_internal E t).2.errno = t.errno := rfl

theorem io_fail_errno (i : Int) (t : TAR) :
    (io_fail i t).2.errno = t.errno ∨ (io_fail i t).2.errno = Errno.EINVAL := by
  unfold io_fail
  split_ifs
  · exact Or.inr rfl
  · exact Or.inl rfl

/-- The guard of the two GNU sections, in terms of the word size: with `SIZE_MAX`
equal to `2 ^ w - 1`, the block count exceeds `SIZE_MAX / T_BLOCKSIZE` exactly when
`blocks * 512` does not fit in `w` bits. -/
theorem guard_iff (w : Nat) (hw : 9 ≤ w) (blocks : Nat) :
    blocks > (2 ^ w - 1) / T_BLOCKSIZE ↔ 2 ^ w ≤ blocks * 512 := by
  obtain ⟨k, rfl⟩ : ∃ k, w = 9 + k := ⟨w - 9, by omega⟩
  have hp : 0 < 2 ^ k := Nat.pow_pos (by decide)
  rw [pow_add]
  simp only [T_BLOCKSIZE]
  norm_num
  generalize 2 ^ k = M at hp
  omega

theorem blocksOf_ge (sz : Nat) : sz ≤ blocksOf sz * 512 := by
  simp only [blocksOf, T_BLOCKSIZE]
  split_ifs <;> omega

/-- When the long-link section returns, either its overflow guard fired, and it
returned -1 with `errno` set to `E2BIG` and nothing read, or the guard did not fire
and `errno` is what it was or `EINVAL`. -/
theorem th_read_longlink_ret_errno (E : Env) (t : TAR) (r : Int) (t' : TAR)
    (h : th_read_longlink E t = Flow.ret r t') :
    (blocksOf (E.th_get_size t.th_buf.raw % (E.SIZE_MAX + 1)) > E.SIZE_MAX / T_BLOCKSIZE ∧
        r = -1 ∧ t' = { t with errno := Errno.E2BIG }) ∨
      (¬ blocksOf (E.th_get_size t.th_buf.raw % (E.SIZE_MAX + 1)) > E.SIZE_MAX / T_BLOCKSIZE ∧
        (t'.errno = t.errno ∨ t'.errno = Errno.EINVAL)) := by
  simp only [th_read_longlink] at h
  split_ifs at h with hk hov h3 h4
  · simp only [Flow.ret.injEq] at h
    exact Or.inl ⟨hov, h.1.symm, h.2.symm⟩
  · simp only [Flow.ret.injEq] at h
    obtain ⟨-, rfl⟩ := h
    exact Or.inr ⟨hov, io_fail_errno _ _⟩
  · simp only [Flow.ret.injEq] at h
    obtain ⟨-, rfl⟩ := h
    exact Or.inr ⟨hov, io_fail_errno _ _⟩

theorem th_read_longname_ret_errno (E : Env) (t : TAR) (r : Int) (t' : TAR)
    (h : th_read_longname E t = Flow.ret r t') :
    (blocksOf (E.th_get_size t.th_buf.raw % (E.SIZE_MAX + 1)) > E.SIZE_MAX / T_BLOCKSIZE ∧
        r = -1 ∧ t' = { t with errno := Errno.E2BIG }) ∨
      (¬ blocksOf (E.th_get_size t.th_buf.raw % (E.SIZE_MAX + 1)) > E.SIZE_MAX / T_BLOCKSIZE ∧
        (t'.errno = t.errno ∨ t'.errno = Errno.EINVAL)) := by
  simp only [th_read_longname] at h
  split_ifs at h with hk hov h3 h4
  · simp only [Flow.ret.injEq] at h
    exact Or.inl ⟨hov, h.1.symm, h.2.symm⟩
  · simp only [Flow.ret.injEq] at h
    obtain ⟨-, rfl⟩ := h
    exact Or.inr ⟨hov, io_fail_errno _ _⟩
  · simp only [Flow.ret.injEq] at h
    obtain ⟨-, rfl⟩ := h
    exact Or.inr ⟨hov, io_fail_errno _ _⟩

theorem th_read_longlink_overflow (E : Env) (t : TAR) (hk : TH_ISLONGLINK t.th_buf)
    (hov : blocksOf (E.th_get_size t.th_buf.raw % (E.SIZE_MAX + 1)) > E.SIZE_MAX / T_BLOCKSIZE) :
    th_read_longlink E t = Flow.ret (-1) { t with errno := Errno.E2BIG } := by
  simp only [th_read_longlink, if_pos hk, if_pos hov]

theorem th_read_longname_overflow (E : Env) (t : TAR) (hk : TH_ISLONGNAME t.th_buf)
    (hov : blocksOf (E.th_get_size t.th_buf.raw % (E.SIZE_MAX + 1)) > E.SIZE_MAX / T_BLOCKSIZE) :
    th_read_longname E t = Flow.ret (-1) { t with errno := Errno.E2BIG } := by
  simp only [th_read_longname, if_pos hk, if_pos hov]

theorem th_read_internal_accepted (E : Env) (t : TAR) (b : Block) (rest : List ReadEvent)
    (hin : t.input = ReadEvent.full b :: rest) (hb : accepted E t.options b) :
    th_read_internal E t = (512, { t with th_buf := { t.th_buf with raw := b }, input := rest }) := by
  simp only [th_read_internal, hin, th_read_internal_loop_accepted E t.options b hb]

theorem th_read_ext_block_oversized (E : Env) (t : TAR)
    (hsz : T_BLOCKSIZE ≤ E.th_get_size t.th_buf.raw % (E.SIZE_MAX + 1)) :
    th_read_ext_block E t = Flow.next t := by
  simp only [th_read_ext_block]
  rw [if_pos hsz]


/-! ## C1: GNU long-name round trip -/

set_option maxRecDepth 100000 in
/-- C1 (failing input). An entry whose long name is 512 letters a, written with
`TAR_GNU`: `th_write` succeeds and emits the sentinel header, one data block and
the real header; `th_read` succeeds on these blocks, but the buffer it leaves in
`gnu_longname` is 512 bytes without a NUL, so reading it as a NUL-terminated
string inside the buffer gives no string at all.  With 511 letters the same
buffer ends in a NUL and holds the name. -/
theorem th_read_longname_512_unterminated :
    (th_write env64 (entryLongName 512)).1 = 0 ∧
      headerSummary (th_write env64 (entryLongName 512)).2.output =
        [some (GNU_LONGNAME_TYPE, 512), none, some (48, 0)] ∧
      (readBack env64 { TAR_GNU := true } (entryLongName 512)).map
          (fun r => (r.1, r.2.th_buf.gnu_longname.map List.length,
            r.2.th_buf.gnu_longname.map cstringIn)) =
        some (0, some 512, some none) ∧
      (readBack env64 { TAR_GNU := true } (entryLongName 511)).map
          (fun r => (r.1, r.2.th_buf.gnu_longname.map List.length,
            r.2.th_buf.gnu_longname.map cstringIn)) =
        some (0, some 512, some (some (List.replicate 511 97))) :=
  ⟨by decide, by decide, by decide, by decide⟩

/-! ## C2: full extended-metadata round trip -/

set_option maxRecDepth 100000 in
/-- C2 (failing input). An entry with a SELinux context, a capability record, an
encryption policy and the three Android flags, every store option set.  With a
policy whose first byte is zero the reader returns success but neither the
capabilities nor any flag; with a policy free of zero bytes and a capability
record that holds a zero byte after its first byte, the capabilities come back
and the three flags are lost. -/
theorem th_read_full_metadata_lossy :
    (th_write env64 (entryFull samplePolicy sampleCapEffective)).1 = 0 ∧
      (readBack env64 storeAll (entryFull samplePolicy sampleCapEffective)).map
          (fun r => (r.1, extFields r.2.th_buf)) =
        some (0, { tar_header.zero with
          raw := [], selinux_context := some (lit "u:object_r:system_file:s0" ++ [0]),
          fep := Fep.policy samplePolicy }) ∧
      (readBack env64 storeAll (entryFull samplePolicyNoZero sampleCapEffective)).map
          (fun r => (r.1, extFields r.2.th_buf)) =
        some (0, { tar_header.zero with
          raw := [], selinux_context := some (lit "u:object_r:system_file:s0" ++ [0]),
          fep := Fep.policy samplePolicyNoZero, has_cap_data := true,
          cap_data := sampleCapEffective }) := by
  decide

/-! ## C4: overflow guard -/

/-- C4. On a build whose `size_t` has `w` bits (`w` at least 9), for the state `t`
in which a long-link or long-name header has just been read, with `sz` the
declared size as a `size_t` and `blocks` its block count: the section returns -1
with `errno` set to `E2BIG` exactly when `blocks * 512` does not fit in `w` bits
(provided `errno` was not already `E2BIG`); `th_read` itself then returns -1 with
`E2BIG` and nothing more read; and when the product fits, the argument of `malloc`
is `blocks * 512` without wrap-around and is at least `sz`. -/
theorem th_read_overflow_guard (E : Env) (w : Nat) (hw : 9 ≤ w) (hE : E.SIZE_MAX = 2 ^ w - 1)
    (t : TAR) (herr : t.errno ≠ Errno.E2BIG) :
    (TH_ISLONGLINK t.th_buf →
      ((∃ t', th_read_longlink E t = Flow.ret (-1) t' ∧ t'.errno = Errno.E2BIG) ↔
        2 ^ w ≤ blocksOf (E.th_get_size t.th_buf.raw % 2 ^ w) * 512)) ∧
    (TH_ISLONGNAME t.th_buf →
      ((∃ t', th_read_longname E t = Flow.ret (-1) t' ∧ t'.errno = Errno.E2BIG) ↔
        2 ^ w ≤ blocksOf (E.th_get_size t.th_buf.raw % 2 ^ w) * 512)) ∧
    (∀ t0 : TAR, th_read_internal E { t0 with th_buf := tar_header.zero } = (512, t) →
      TH_ISLONGLINK t.th_buf ∨ TH_ISLONGNAME t.th_buf →
      2 ^ w ≤ blocksOf (E.th_get_size t.th_buf.raw % 2 ^ w) * 512 →
      th_read E t0 = some (-1, { t with errno := Errno.E2BIG })) ∧
    (blocksOf (E.th_get_size t.th_buf.raw % 2 ^ w) * 512 < 2 ^ w →
      alloc_size E (blocksOf (E.th_get_size t.th_buf.raw % 2 ^ w)) =
          blocksOf (E.th_get_size t.th_buf.raw % 2 ^ w) * 512 ∧
        E.th_get_size t.th_buf.raw % 2 ^ w ≤
          alloc_size E (blocksOf (E.th_get_size t.th_buf.raw % 2 ^ w))) := by
  have hp : 0 < 2 ^ w := Nat.pow_pos (by decide)
  have hS : E.SIZE_MAX + 1 = 2 ^ w := by omega
  have hg := guard_iff w hw (blocksOf (E.th_get_size t.th_buf.raw % 2 ^ w))
  rw [← hE, ← hS] at hg
  rw [← hS]
  refine ⟨?_, ?_, ?_, ?_⟩
  · intro hk
    constructor
    · rintro ⟨t', h1, h2⟩
      rcases th_read_longlink_ret_errno E t _ t' h1 with ⟨hov, -, -⟩ | ⟨-, h3⟩
      · exact hg.mp hov
      · rcases h3 with h3 | h3
        · exact absurd (h3.symm.trans h2) herr
        · rw [h3] at h2
          cases h2
    · intro hov
      exact ⟨_, th_read_longlink_overflow E t hk (hg.mpr hov), rfl⟩
  · intro hk
    constructor
    · rintro ⟨t', h1, h2⟩
      rcases th_read_longname_ret_errno E t _ t' h1 with ⟨hov, -, -⟩ | ⟨-, h3⟩
      · exact hg.mp hov
      · rcases h3 with h3 | h3
        · exact absurd (h3.symm.trans h2) herr
        · rw [h3] at h2
          cases h2
    · intro hov
      exact ⟨_, th_read_longname_overflow E t hk (hg.mpr hov), rfl⟩
  · intro t0 h0 hk hov
    have hov' := hg.mpr hov
    have h512 : (512 : Int) ≠ 0 := by decide
    simp only [th_read, h0, if_neg h512, ne_eq, not_true_eq_false, if_false]
    by_cases hl : TH_ISLONGLINK t.th_buf
    · rw [th_read_longlink_overflow E t hl hov']
    · have hn : TH_ISLONGNAME t.th_buf := hk.resolve_left hl
      have e : th_read_longlink E t = Flow.next t := by
        simp only [th_read_longlink, if_neg hl]
      rw [e]
      simp only []
      rw [th_read_longname_overflow E t hn hov']
  · intro hlt
    have h1 : alloc_size E (blocksOf (E.th_get_size t.th_buf.raw % (E.SIZE_MAX + 1))) =
        blocksOf (E.th_get_size t.th_buf.raw % (E.SIZE_MAX + 1)) * 512 := by
      simp only [alloc_size, T_BLOCKSIZE]
      exact Nat.mod_eq_of_lt hlt
    rw [h1]
    exact ⟨rfl, blocksOf_ge _⟩

set_option maxRecDepth 100000 in
/-- Witness of C4: on a 32-bit build, a long-link header that declares the size
2^32 - 1 makes the long-link section return -1 with `E2BIG`. -/
theorem th_read_overflow_guard_witness :
    9 ≤ 32 ∧ env32.SIZE_MAX = 2 ^ 32 - 1 ∧ readerHugeLink.errno ≠ Errno.E2BIG ∧
      TH_ISLONGLINK readerHugeLink.th_buf ∧
      2 ^ 32 ≤ blocksOf (env32.th_get_size readerHugeLink.th_buf.raw % 2 ^ 32) * 512 ∧
      ∃ t', th_read_longlink env32 readerHugeLink = Flow.ret (-1) t' ∧ t'.errno = Errno.E2BIG :=
  ⟨by decide, rfl, by decide, by decide, by decide,
    ((th_read_overflow_guard env32 32 (by decide) rfl readerHugeLink (by decide)).1
      (by decide)).mpr (by decide)⟩

/-! ## C5: oversized extended header -/

set_option maxRecDepth 100000 in
/-- C5 (counterexample). For an entry with a SELinux context of 485 letters
`th_write` emits an extended header of declared size 511, one data block and the
real header; `th_read` on these three blocks returns success and decodes the
context from the data block instead of ignoring it. -/
theorem th_read_decodes_size_511 :
    headerSummary (th_write env64 (entrySelinux 485)).2.output =
        [some (TH_EXT_TYPE, 511), none, some (48, 0)] ∧
      (readBack env64 {} (entrySelinux 485)).map
          (fun r => (r.1, r.2.th_buf.selinux_context, r.2.input.length)) =
        some (0, some (aString 485), 0) := by
  decide

/-- C5 (amended). For a stream made of an accepted extended header `X`, a data
block `D` and an accepted header `H` that is neither an extended nor a policy
header: when the declared size of `X` is at most 511, `th_read` reads `D`,
decodes it, reads `H` as the next header and returns success with `H`; when the
declared size is 512 or more, the step of the loop that handles `X` decodes
nothing and reports no error (the header and `errno` are as before). -/
theorem th_read_ext_size_limit (E : Env) (t : TAR) (X D H : Block) (rest : List ReadEvent)
    (hin : t.input = ReadEvent.full X :: ReadEvent.full D :: ReadEvent.full H :: rest)
    (hX : accepted E t.options X) (hXt : typeflag X = TH_EXT_TYPE)
    (hH : accepted E t.options H)
    (hHt : typeflag H ≠ TH_EXT_TYPE ∧ typeflag H ≠ TH_POL_TYPE) :
    (E.th_get_size X % (E.SIZE_MAX + 1) ≤ 511 →
      th_read E t = some (0, { t with
        th_buf := { decode_ext E D { tar_header.zero with raw := X } with raw := H },
        input := rest })) ∧
    (512 ≤ E.th_get_size X % (E.SIZE_MAX + 1) →
      ∃ t', th_read_ext_block E
          { t with th_buf := { tar_header.zero with raw := X },
                   input := ReadEvent.full D :: ReadEvent.full H :: rest } = Flow.next t' ∧
        t'.th_buf = { tar_header.zero with raw := X } ∧ t'.errno = t.errno) := by
  constructor
  · intro hsz
    have hsz' : ¬ E.th_get_size X % (E.SIZE_MAX + 1) ≥ T_BLOCKSIZE := by
      simp only [T_BLOCKSIZE]
      omega
    have e1 : ¬ (TH_EXT_TYPE = GNU_LONGLINK_TYPE) := by decide
    have e2 : ¬ (TH_EXT_TYPE = GNU_LONGNAME_TYPE) := by decide
    simp only [th_read, th_read_internal, hin, th_read_internal_loop_accepted E t.options X hX,
      th_read_internal_loop_accepted E t.options H hH, th_read_longlink, th_read_longname,
      TH_ISLONGLINK, TH_ISLONGNAME, TH_ISEXTHEADER, TH_ISPOLHEADER, hXt, e1, e2, if_false,
      List.length_cons, th_read_ext_loop, th_read_ext_block, hsz', tar_block_read, hHt.1, hHt.2,
      true_or, or_self, if_true]
    simp
  · intro hsz
    exact ⟨_, th_read_ext_block_oversized E _ hsz, rfl, rfl⟩

set_option maxRecDepth 100000 in
/-- Witness of C5: an extended header of declared size 24, its data block with the
user.default record, and the header of next.txt. -/
theorem th_read_ext_size_limit_witness :
    accepted env64 readerExt.options (sampleHeader {} TH_EXT_TYPE 24) ∧
      typeflag (sampleHeader {} TH_EXT_TYPE 24) = TH_EXT_TYPE ∧
      accepted env64 readerExt.options nextHeader ∧
      (typeflag nextHeader ≠ TH_EXT_TYPE ∧ typeflag nextHeader ≠ TH_POL_TYPE) ∧
      env64.th_get_size (sampleHeader {} TH_EXT_TYPE 24) % (env64.SIZE_MAX + 1) ≤ 511 ∧
      th_read env64 readerExt = some (0, { readerExt with
        th_buf := { decode_ext env64 (dataBlock (lit "24 ANDROID.user.default\n"))
          { tar_header.zero with raw := sampleHeader {} TH_EXT_TYPE 24 } with raw := nextHeader },
        input := [] }) :=
  ⟨by decide, by decide, by decide, by decide, by decide,
    (th_read_ext_size_limit env64 readerExt (sampleHeader {} TH_EXT_TYPE 24)
      (dataBlock (lit "24 ANDROID.user.default\n")) nextHeader [] rfl (by decide) (by decide)
      (by decide) (by decide)).1 (by decide)⟩

set_option maxRecDepth 100000 in
/-- What happens to the data block of an oversized extended header: for a declared
size of 512 the data block is not read as data, so it is the next block checked as
a header, and `th_read` returns -1 with `EINVAL` with the header `H` still
unread. -/
theorem th_read_oversized_ext_data_as_header :
    (th_read env64 (TAR.init {} tar_header.zero
        (fullBlocks [sampleHeader {} TH_EXT_TYPE 512,
          dataBlock (lit "24 ANDROID.user.default\n"), nextHeader]))).map
        (fun r => (r.1, r.2.errno, r.2.input)) =
      some (-1, Errno.EINVAL, fullBlocks [nextHeader]) := by
  decide

/-! ## C6: single-byte corruption -/

set_option maxRecDepth 100000 in
/-- C6 (failing input). The header block `th_write` emits for file.txt, with its
first byte replaced by zero: with checksum validation enabled `th_read` does not
report a format error; it skips the block and returns success with the header of
the next entry, or end of archive (1) when the stream ends there. -/
theorem th_read_skips_corrupted_header :
    (th_write env64 entryPlain).2.output = [Written.header plainHeader] ∧
      plainHeader.set 0 0 ≠ plainHeader ∧
      th_read env64 (TAR.init {} tar_header.zero (fullBlocks [plainHeader.set 0 0, nextHeader])) =
        some (0, TAR.init {} { tar_header.zero with raw := nextHeader } []) ∧
      th_read env64 (TAR.init {} tar_header.zero (fullBlocks [plainHeader.set 0 0])) =
        some (1, TAR.init {} { tar_header.zero with raw := plainHeader.set 0 0 } []) := by
  decide

/-! ## C7: every header block written is checksum-valid -/

/-- C7. For every handle whose header buffer is a well-formed block and that has
written nothing yet, every header block in the output of `th_write` (long-link,
long-name and extended sentinel headers and the real header, also when the call
fails later) is the result of `th_finish` on a well-formed block; its checksum
field holds the checksum of the block as written, and the checksum check of
`th_read_internal` accepts it. -/
theorem th_write_headers_checksum_valid (w : Nat) (f : Bool) (ps : Nat) (t : TAR)
    (hraw : isBlock t.th_buf.raw) (hout : t.output = []) (b : Block)
    (hb : Written.header b ∈ (th_write (libtar w f ps) t).2.output) :
    (∃ h, isBlock h ∧ b = th_finish t.options h) ∧ th_get_crc b = th_crc_calc b ∧
      (libtar w f ps).th_crc_ok b = true := by
  have h0 : WInv t.options t := ⟨rfl, hraw, by rw [hout]; simp⟩
  obtain ⟨h, hh, rfl⟩ := (WInv_th_write w f ps t.options t h0).2.2 b hb
  exact ⟨⟨h, hh, rfl⟩, (th_finish_spec t.options h hh).2, th_crc_ok_th_finish t.options h hh⟩


set_option maxRecDepth 100000 in
/-- Witness of C7: the first extended header written for an entry with a 460-letter
SELinux context and a capability record. -/
theorem th_write_headers_checksum_valid_witness :
    isBlock (entrySelinuxCap 460 sampleCap).th_buf.raw ∧
      (entrySelinuxCap 460 sampleCap).output = [] ∧
      Written.header (th_finish { TAR_STORE_SELINUX := true, TAR_STORE_POSIX_CAP := true }
          (th_set_size (setTypeflag sampleRaw TH_EXT_TYPE) 486)) ∈
        (th_write env64 (entrySelinuxCap 460 sampleCap)).2.output ∧
      th_crc_ok (th_finish { TAR_STORE_SELINUX := true, TAR_STORE_POSIX_CAP := true }
          (th_set_size (setTypeflag sampleRaw TH_EXT_TYPE) 486)) = true :=
  ⟨by decide, rfl, by decide,
    (th_write_headers_checksum_valid 64 true 12 (entrySelinuxCap 460 sampleCap) (by decide) rfl
      _ (by decide)).2.2⟩


/-! ## C8: forced split into two extended pairs -/

set_option maxRecDepth 100000 in
/-- C8 (failing input). A SELinux context of 460 letters (record length 486) and a
capability record whose first byte is zero, stored with those two options only:
`th_write` emits the five blocks (extended header of size 486, data, extended
header of size 57, data, real header), and `th_read` returns success with the
context but without the capabilities (`has_cap_data` stays false).  With a
capability record whose first byte is not zero both fields come back. -/
theorem th_read_split_pairs_loses_cap :
    (th_write env64 (entrySelinuxCap 460 sampleCap)).1 = 0 ∧
      headerSummary (th_write env64 (entrySelinuxCap 460 sampleCap)).2.output =
        [some (TH_EXT_TYPE, 486), none, some (TH_EXT_TYPE, 57), none, some (48, 0)] ∧
      (readBack env64 {} (entrySelinuxCap 460 sampleCap)).map
          (fun r => (r.1, extFields r.2.th_buf)) =
        some (0, { tar_header.zero with raw := [], selinux_context := some (aString 460) }) ∧
      (readBack env64 {} (entrySelinuxCap 460 sampleCapEffective)).map
          (fun r => (r.1, extFields r.2.th_buf)) =
        some (0, { tar_header.zero with
          raw := [], selinux_context := some (aString 460), has_cap_data := true,
          cap_data := sampleCapEffective }) := by
  decide

/-! ## C9: the header returned on success -/

set_option maxRecDepth 100000 in
/-- C9 (counterexample). On a stream with a long-name header before a long-link
header `th_read` returns success after three blocks with the long-link sentinel
header in the buffer; on a stream with an extended header before a long-name
header it returns success with the long-name sentinel header in the buffer. -/
theorem th_read_leaves_sentinel_header :
    (th_read env64 (TAR.init {} tar_header.zero streamNameThenLink)).map
        (fun r => (r.1, typeflag r.2.th_buf.raw, r.2.input.length))
      = some (0, GNU_LONGLINK_TYPE, 2) ∧
    (th_read env64 (TAR.init {} tar_header.zero streamExtThenName)).map
        (fun r => (r.1, typeflag r.2.th_buf.raw, r.2.input.length))
      = some (0, GNU_LONGNAME_TYPE, 2) := by
  decide

/-- C9 (amended). For every block stream on which `th_read` returns success, the
header left in the buffer is neither an extended-metadata header nor a policy
header. -/
theorem th_read_success_header (E : Env) (t t' : TAR) (h : th_read E t = some (0, t')) :
    ¬ TH_ISEXTHEADER t'.th_buf ∧ ¬ TH_ISPOLHEADER t'.th_buf :=
  (Tr_th_read E t 0 t' h).2.2 rfl

set_option maxRecDepth 100000 in
/-- Witness of C9: an extended header, its data block and a real header. -/
theorem th_read_success_header_witness :
    th_read env64 readerExt = some (0, readerExtDone) ∧
      ¬ TH_ISEXTHEADER readerExtDone.th_buf ∧ ¬ TH_ISPOLHEADER readerExtDone.th_buf :=
  ⟨by decide, th_read_success_header env64 readerExt readerExtDone (by decide)⟩

/-! ## C10: no metadata carries over -/

set_option maxRecDepth 100000 in
/-- C10 (failing input). On a build with `USE_FSCRYPT`, a handle that holds the
fields of an earlier entry reads an extended header whose data block carries the
encryption-policy tag with the selector 1: `th_read` returns success, decodes no
policy, and still leaves a policy object in `fep`, allocated and never written,
so the field is not empty and its content is not given by the blocks read. -/
theorem th_read_bad_selector_leaves_policy :
    (th_read env64 readerBadSelector).map (fun r => (r.1, extFields r.2.th_buf, r.2.input)) =
      some (0, { tar_header.zero with raw := [], fep := Fep.fresh }, []) := by
  decide

/-- The part of C10 that holds on every input.  Whatever header `h0` the handle
holds when `th_read` is called, the result in the model is the same as for any
other prior header.  And whatever `th_read` returns (success, end of archive or
error), the input it consumed is a prefix `c` of the input, and every optional
field of the resulting header that is not empty has its origin in a block of `c`:
a long link or long name in a header with that sentinel type, the SELinux
context, capabilities, policy object and each Android flag in a block holding the
tag; capability bytes are zero when `has_cap_data` is false. -/
theorem th_read_no_carry_over (E : Env) (t : TAR) (h0 : tar_header) :
    th_read E { t with th_buf := h0 } = th_read E t ∧
      ∀ (r : Int) (t' : TAR), th_read E t = some (r, t') →
        ∃ c, t.input = c ++ t'.input ∧ decodedFrom E c t'.th_buf :=
  ⟨rfl, fun r t' h => (Tr_th_read E t r t' h).1⟩

set_option maxRecDepth 100000 in
/-- An instance of `th_read_no_carry_over`: reading an extended header, its data
block and a real header into a buffer that still holds every field of an earlier
entry. -/
theorem th_read_no_carry_over_witness :
    th_read env64 { readerExt with th_buf := staleHeader } = th_read env64 readerExt ∧
      th_read env64 readerExt = some (0, readerExtDone) ∧
      ∃ c, readerExt.input = c ++ readerExtDone.input ∧
        decodedFrom env64 c readerExtDone.th_buf :=
  ⟨(th_read_no_carry_over env64 readerExt staleHeader).1, by decide,
    (th_read_no_carry_over env64 readerExt staleHeader).2 0 readerExtDone (by decide)⟩

/-! ## Single-byte changes and the checksum -/

/-- Replacing one element of a list changes its sum by the difference. -/
theorem sum_set (l : List Nat) :
    ∀ (p v old : Nat), l[p]? = some old → (l.set p v).sum + old = l.sum + v := by
  induction l with
  | nil => intro p v old h; simp at h
  | cons a l ih =>
    intro p v old h
    cases p with
    | zero =>
      simp only [List.getElem?_cons_zero, Option.some.injEq] at h
      subst h
      simp only [List.set_cons_zero, List.sum_cons]
      omega
    | succ p =>
      simp only [List.getElem?_cons_succ] at h
      have := ih p v old h
      simp only [List.set_cons_succ, List.sum_cons]
      omega

/-- Changing one byte outside the checksum field changes the checksum by the
difference of the two byte values. -/
theorem th_crc_calc_set (b : Block) (p v old : Nat) (hp : p < 148 ∨ 156 ≤ p)
    (hold : b[p]? = some old) :
    th_crc_calc (b.set p v) + old = th_crc_calc b + v := by
  unfold th_crc_calc
  rcases hp with hp | hp
  · have h1 : (b.take 148)[p]? = some old := by
      rw [List.getElem?_take_of_lt hp]
      exact hold
    have h2 := sum_set (b.take 148) p v old h1
    rw [List.set_take, List.drop_set_of_lt v b (by omega)]
    omega
  · have h1 : (b.drop 156)[p - 156]? = some old := by
      rw [List.getElem?_drop]
      rw [show 156 + (p - 156) = p by omega]
      exact hold
    have h2 := sum_set (b.drop 156) (p - 156) v old h1
    rw [List.take_set_of_lt v b (by omega), List.drop_set, if_neg (by omega)]
    omega

/-- Changing one byte outside the checksum field leaves the stored checksum as it
is. -/
theorem th_get_crc_set (b : Block) (p v : Nat) (hp : p < 148 ∨ 156 ≤ p) :
    th_get_crc (b.set p v) = th_get_crc b := by
  unfold th_get_crc chksumField field
  rcases hp with hp | hp
  · rw [List.drop_set_of_lt v b hp]
  · rw [List.drop_set, if_neg (by omega), List.set_take]
    exact congrArg oct_to_int
      (List.set_eq_of_length_le (by simp only [List.length_take]; omega))

/-- A finished header with one byte outside the checksum field replaced by a
different value fails the checksum check. -/
theorem th_crc_ok_set (o : Options) (h : Block) (hh : isBlock h) (p v old : Nat)
    (hp : p < 148 ∨ 156 ≤ p) (hold : (th_finish o h)[p]? = some old) (hv : v ≠ old) :
    th_crc_ok ((th_finish o h).set p v) = false := by
  have h1 := th_crc_calc_set (th_finish o h) p v old hp hold
  have h2 := th_get_crc_set (th_finish o h) p v hp
  have h3 := (th_finish_spec o h hh).2
  unfold th_crc_ok
  rw [h2, h3]
  simp only [beq_eq_false_iff_ne, ne_eq]
  omega

/-- The part of C6 that holds.  Take a header block `th_finish o h` as `th_write`
emits it, replace the byte at a position `p` outside the checksum field by a
different value `v`, and let the result be the next block of the stream.  With
checksum validation enabled, and unless the change puts a zero in the first byte
of the block, `th_read` consumes that block and returns -1 with `errno` set to
`EINVAL`. -/
theorem th_read_detects_corruption (w : Nat) (f : Bool) (ps : Nat) (o : Options) (t : TAR)
    (h : Block) (p v old : Nat) (rest : List ReadEvent) (hh : isBlock h)
    (hcrc : t.options.TAR_IGNORE_CRC = false) (hp : p < 148 ∨ 156 ≤ p)
    (hold : (th_finish o h)[p]? = some old) (hv : v ≠ old)
    (h0 : name0 ((th_finish o h).set p v) ≠ 0)
    (hin : t.input = ReadEvent.full ((th_finish o h).set p v) :: rest) :
    th_read (libtar w f ps) t = some (-1, { t with
      th_buf := { tar_header.zero with raw := (th_finish o h).set p v },
      input := rest, errno := Errno.EINVAL }) := by
  have hbad := th_crc_ok_set o h hh p v old hp hold hv
  have hl : th_read_internal_loop (libtar w f ps) t.options 0 tar_header.zero
      (ReadEvent.full ((th_finish o h).set p v) :: rest) =
      (-2, { tar_header.zero with raw := (th_finish o h).set p v }, rest) := by
    simp only [th_read_internal_loop, if_neg h0, libtar, hcrc, hbad, and_self, if_true]
    split_ifs <;> rfl
  simp only [th_read, th_read_internal, hin, hl]
  simp [io_fail]

set_option maxRecDepth 100000 in
/-- An instance of `th_read_detects_corruption`: the second byte of the header of
file.txt replaced by zero. -/
theorem th_read_detects_corruption_witness :
    isBlock sampleRaw ∧ readerCorrupt.options.TAR_IGNORE_CRC = false ∧
      (th_finish {} sampleRaw)[1]? = some 105 ∧ name0 ((th_finish {} sampleRaw).set 1 0) ≠ 0 ∧
      th_read env64 readerCorrupt = some (-1, { readerCorrupt with
        th_buf := { tar_header.zero with raw := (th_finish {} sampleRaw).set 1 0 },
        input := [ReadEvent.full nextHeader], errno := Errno.EINVAL }) :=
  ⟨by decide, rfl, by decide, by decide,
    th_read_detects_corruption 64 true 12 {} readerCorrupt sampleRaw 1 0 105
      [ReadEvent.full nextHeader] (by decide) rfl (Or.inl (by decide)) (by decide) (by decide)
      (by decide) rfl⟩

/-! ## The reader's last header, the layout of the written blocks, and the SELinux round trip -/

theorem allFull_nil : allFull [] := by
  intro e he
  simp at he

theorem allFull_cons (b : Block) (c : List ReadEvent) (h : allFull c) :
    allFull (ReadEvent.full b :: c) := by
  intro e he
  rcases List.mem_cons.1 he with h1 | h1
  · exact ⟨b, h1⟩
  · exact h e h1

theorem allFull_append (c d : List ReadEvent) (hc : allFull c) (hd : allFull d) :
    allFull (c ++ d) := by
  intro e he
  rcases List.mem_append.1 he with h1 | h1
  · exact hc e h1
  · exact hd e h1

theorem th_read_internal_loop_full (E : Env) (o : Options) (inp : List ReadEvent) :
    ∀ (n : Nat) (h : tar_header), (th_read_internal_loop E o n h inp).1 = 512 →
      ∃ c, inp = c ++ ReadEvent.full (th_read_internal_loop E o n h inp).2.1.raw ::
          (th_read_internal_loop E o n h inp).2.2 ∧ allFull c ∧
        accepted E o (th_read_internal_loop E o n h inp).2.1.raw := by
  induction inp with
  | nil => intro n h h5; simp [th_read_internal_loop] at h5
  | cons e rest ih =>
    intro n h
    cases e with
    | short k =>
      simp only [th_read_internal_loop]
      intro hk
      have := k.isLt
      omega
    | error => simp [th_read_internal_loop]
    | full b =>
      simp only [th_read_internal_loop]
      split_ifs with h0 h1 h2 h3 h4
      · simp
      · intro h5
        obtain ⟨c, hc, hf, ha⟩ := ih (n + 1) { h with raw := b } h5
        exact ⟨ReadEvent.full b :: c, by rw [List.cons_append, ← hc], allFull_cons b c hf, ha⟩
      · simp
      · simp
      · simp
      · intro _
        exact ⟨[], rfl, allFull_nil, h0, h2, h3, h4⟩

theorem AfterHeader_th_read_internal (E : Env) (o : Options) (i0 : List ReadEvent) (t : TAR)
    (h : Consumed o i0 t) (h5 : (th_read_internal E t).1 = 512) :
    AfterHeader E o i0 (th_read_internal E t).2 := by
  obtain ⟨ho, c, hc, hf⟩ := h
  obtain ⟨c1, hc1, hf1, ha⟩ := th_read_internal_loop_full E t.options t.input 0 t.th_buf h5
  refine ⟨ho, c ++ c1, ?_, allFull_append c c1 hf hf1, ?_⟩
  · simp only [th_read_internal]
    rw [List.append_assoc, ← hc1]
    exact hc
  · rw [← ho]
    exact ha

theorem AfterHeader_Consumed (E : Env) (o : Options) (i0 : List ReadEvent) (t : TAR)
    (h : AfterHeader E o i0 t) : Consumed o i0 t := by
  obtain ⟨ho, c, hc, hf, _⟩ := h
  exact ⟨ho, c ++ [ReadEvent.full t.th_buf.raw], by rw [hc]; simp,
    allFull_append c _ hf (allFull_cons _ [] allFull_nil)⟩

theorem read_blocks_full :
    ∀ (j : Nat) (acc : List Nat) (inp : List ReadEvent), (read_blocks j acc inp).1 = 512 →
      ∃ c, inp = c ++ (read_blocks j acc inp).2.2 ∧ allFull c := by
  intro j
  induction j with
  | zero => intro acc inp _; exact ⟨[], rfl, allFull_nil⟩
  | succ j ih =>
    intro acc inp h
    cases inp with
    | nil => simp [read_blocks, tar_block_read] at h
    | cons e rest =>
      cases e with
      | full b =>
        simp only [read_blocks, tar_block_read] at h ⊢
        obtain ⟨c, hc, hf⟩ := ih (acc ++ b) rest h
        exact ⟨ReadEvent.full b :: c, by rw [List.cons_append, ← hc], allFull_cons b c hf⟩
      | short n =>
        simp only [read_blocks, tar_block_read] at h
        have := n.isLt
        omega
      | error => simp [read_blocks, tar_block_read] at h

theorem Consumed_read_blocks (o : Options) (i0 : List ReadEvent) (t : TAR) (h : Consumed o i0 t)
    (j : Nat) (hd : tar_header) (h5 : (read_blocks j [] t.input).1 = 512) :
    Consumed o i0 { t with th_buf := hd, input := (read_blocks j [] t.input).2.2 } := by
  obtain ⟨ho, c, hc, hf⟩ := h
  obtain ⟨c1, hc1, hf1⟩ := read_blocks_full j [] t.input h5
  exact ⟨ho, c ++ c1, by rw [List.append_assoc, ← hc1]; exact hc, allFull_append c c1 hf hf1⟩

theorem AfterHeader_th_read_longlink (E : Env) (o : Options) (i0 : List ReadEvent) (t t' : TAR)
    (h : AfterHeader E o i0 t) (hn : th_read_longlink E t = Flow.next t') :
    AfterHeader E o i0 t' := by
  simp only [th_read_longlink] at hn
  split_ifs at hn with hk hov h3 h4
  · simp only [Flow.next.injEq] at hn
    subst hn
    exact AfterHeader_th_read_internal E o i0 _
      (Consumed_read_blocks o i0 t (AfterHeader_Consumed E o i0 t h) _ _ (not_not.mp h3))
      (not_not.mp h4)
  · simp only [Flow.next.injEq] at hn
    subst hn
    exact h

theorem AfterHeader_th_read_longname (E : Env) (o : Options) (i0 : List ReadEvent) (t t' : TAR)
    (h : AfterHeader E o i0 t) (hn : th_read_longname E t = Flow.next t') :
    AfterHeader E o i0 t' := by
  simp only [th_read_longname] at hn
  split_ifs at hn with hk hov h3 h4
  · simp only [Flow.next.injEq] at hn
    subst hn
    exact AfterHeader_th_read_internal E o i0 _
      (Consumed_read_blocks o i0 t (AfterHeader_Consumed E o i0 t h) _ _ (not_not.mp h3))
      (not_not.mp h4)
  · simp only [Flow.next.injEq] at hn
    subst hn
    exact h

theorem th_read_ext_block_ret (E : Env) (t : TAR) (r : Int) (t' : TAR)
    (h : th_read_ext_block E t = Flow.ret r t') : r = -1 := by
  simp only [th_read_ext_block] at h
  split_ifs at h
  split at h
  · cases h
  · simp only [Flow.ret.injEq] at h
    rw [← h.1]
    rfl

theorem th_read_longlink_ret (E : Env) (t : TAR) (r : Int) (t' : TAR)
    (h : th_read_longlink E t = Flow.ret r t') : r = -1 := by
  simp only [th_read_longlink] at h
  split_ifs at h <;> simp only [Flow.ret.injEq] at h <;> rw [← h.1] <;> rfl

theorem th_read_longname_ret (E : Env) (t : TAR) (r : Int) (t' : TAR)
    (h : th_read_longname E t = Flow.ret r t') : r = -1 := by
  simp only [th_read_longname] at h
  split_ifs at h <;> simp only [Flow.ret.injEq] at h <;> rw [← h.1] <;> rfl

theorem Consumed_th_read_ext_block (E : Env) (o : Options) (i0 : List ReadEvent) (t t' : TAR)
    (h : Consumed o i0 t) (hn : th_read_ext_block E t = Flow.next t') : Consumed o i0 t' := by
  obtain ⟨ho, c, hc, hf⟩ := h
  simp only [th_read_ext_block] at hn
  split_ifs at hn
  · simp only [Flow.next.injEq] at hn
    subst hn
    exact ⟨ho, c, hc, hf⟩
  · cases hin : t.input with
    | nil =>
      rw [hin] at hn
      simp [tar_block_read] at hn
    | cons e rest =>
      rw [hin] at hn
      cases e with
      | full b =>
        simp only [tar_block_read, Flow.next.injEq] at hn
        subst hn
        exact ⟨ho, c ++ [ReadEvent.full b], by rw [hc, hin]; simp,
          allFull_append c _ hf (allFull_cons _ [] allFull_nil)⟩
      | short n => simp [tar_block_read] at hn
      | error => simp [tar_block_read] at hn

theorem AfterHeader_th_read_ext_loop (E : Env) (o : Options) (i0 : List ReadEvent) :
    ∀ (fuel : Nat) (t t' : TAR), AfterHeader E o i0 t →
      th_read_ext_loop E fuel t = some (0, t') → AfterHeader E o i0 t' := by
  intro fuel
  induction fuel with
  | zero => intro t t' _ h; simp [th_read_ext_loop] at h
  | succ n ih =>
    intro t t' hl h
    simp only [th_read_ext_loop] at h
    by_cases hc : TH_ISEXTHEADER t.th_buf ∨ TH_ISPOLHEADER t.th_buf
    · rw [if_pos hc] at h
      split at h
      · rename_i r1 t1 heq
        have := th_read_ext_block_ret E t r1 t1 heq
        simp only [Option.some.injEq, Prod.mk.injEq] at h
        omega
      · rename_i t1 heq
        have h1 := Consumed_th_read_ext_block E o i0 t t1 (AfterHeader_Consumed E o i0 t hl) heq
        split_ifs at h with h5
        · simp only [Option.some.injEq] at h
          have e1 : (0 : Int) = -1 := (congrArg Prod.fst h).symm
          omega
        · exact ih _ _ (AfterHeader_th_read_internal E o i0 t1 h1 (not_not.mp h5)) h
    · rw [if_neg hc] at h
      simp only [Option.some.injEq, Prod.mk.injEq, true_and] at h
      subst h
      exact hl

theorem th_read_ext_loop_ret (E : Env) :
    ∀ (fuel : Nat) (t : TAR) (r : Int) (t' : TAR),
      th_read_ext_loop E fuel t = some (r, t') → r = 0 ∨ r = -1 := by
  intro fuel
  induction fuel with
  | zero => intro t r t' h; simp [th_read_ext_loop] at h
  | succ n ih =>
    intro t r t' h
    simp only [th_read_ext_loop] at h
    split_ifs at h with hc
    · split at h
      · rename_i r1 t1 heq
        have := th_read_ext_block_ret E t r1 t1 heq
        simp only [Option.some.injEq, Prod.mk.injEq] at h
        omega
      · split_ifs at h with h5
        · simp only [Option.some.injEq] at h
          exact Or.inr (congrArg Prod.fst h).symm
        · exact ih _ _ _ h
    · simp only [Option.some.injEq, Prod.mk.injEq] at h
      exact Or.inl h.1.symm

/-- Success of `th_read` comes right after an accepted header block: every read of
the call delivered a full block, and the last block consumed is the header left in
the buffer. -/
theorem AfterHeader_th_read (E : Env) (t t' : TAR) (h : th_read E t = some (0, t')) :
    AfterHeader E t.options t.input t' := by
  have h0 : Consumed t.options t.input { t with th_buf := tar_header.zero } :=
    ⟨rfl, [], rfl, allFull_nil⟩
  simp only [th_read] at h
  split_ifs at h with h1 h2
  · simp at h
  · simp only [Option.some.injEq] at h
    have e1 : (0 : Int) = -1 := (congrArg Prod.fst h).symm
    omega
  · have hl := AfterHeader_th_read_internal E t.options t.input _ h0 (not_not.mp h2)
    split at h
    · rename_i r1 t1 heq
      have := th_read_longlink_ret E _ _ _ heq
      simp only [Option.some.injEq, Prod.mk.injEq] at h
      omega
    · rename_i t1 heq
      have hl1 := AfterHeader_th_read_longlink E t.options t.input _ t1 hl heq
      split at h
      · rename_i r2 t2 heq2
        have := th_read_longname_ret E _ _ _ heq2
        simp only [Option.some.injEq, Prod.mk.injEq] at h
        omega
      · rename_i t2 heq2
        exact AfterHeader_th_read_ext_loop E t.options t.input _ _ _
          (AfterHeader_th_read_longname E t.options t.input _ t2 hl1 heq2) h

/-- The function `th_read` returns 1 exactly when its first call of
`th_read_internal` returns 0. -/
theorem th_read_one_iff (E : Env) (t : TAR) (r : Int) (t' : TAR)
    (h : th_read E t = some (r, t')) :
    r = 1 ↔ (th_read_internal E { t with th_buf := tar_header.zero }).1 = 0 := by
  constructor
  · intro h1
    subst h1
    simp only [th_read] at h
    split_ifs at h with h1 h2
    · exact h1
    · simp only [Option.some.injEq] at h
      have e1 : (1 : Int) = -1 := (congrArg Prod.fst h).symm
      omega
    · split at h
      · rename_i r1 t1 heq
        have := th_read_longlink_ret E _ _ _ heq
        simp only [Option.some.injEq, Prod.mk.injEq] at h
        omega
      · split at h
        · rename_i r2 t2 heq2
          have := th_read_longname_ret E _ _ _ heq2
          simp only [Option.some.injEq, Prod.mk.injEq] at h
          omega
        · have := th_read_ext_loop_ret E _ _ _ _ h
          omega
  · intro h0
    simp only [th_read, h0, if_true, Option.some.injEq, Prod.mk.injEq] at h
    exact h.1.symm

theorem getElem?_poke (b : List Nat) (off : Nat) (x : List Nat) (i : Nat)
    (h : off + x.length ≤ b.length) (hi : i < off ∨ off + x.length ≤ i) :
    (poke b off x)[i]? = b[i]? := by
  rw [poke_eq b off x h]
  have hl : (b.take off).length = off := by
    simp only [List.length_take]
    omega
  rcases hi with hi | hi
  · rw [List.append_assoc, List.getElem?_append_left (by omega)]
    exact List.getElem?_take_of_lt hi
  · rw [List.getElem?_append_right (by simp only [List.length_append, hl]; omega)]
    simp only [List.length_append, hl, List.getElem?_drop]
    congr 1
    omega

theorem typeflag_poke (b : Block) (off : Nat) (x : List Nat) (h : off + x.length ≤ b.length)
    (hi : 156 < off ∨ off + x.length ≤ 156) : typeflag (poke b off x) = typeflag b := by
  unfold typeflag
  rw [List.getD_eq_getElem?_getD, List.getD_eq_getElem?_getD, getElem?_poke b off x 156 h hi]

theorem name0_poke (b : Block) (off : Nat) (x : List Nat) (h : off + x.length ≤ b.length)
    (hi : 0 < off) : name0 (poke b off x) = name0 b := by
  have e : ∀ l : List Nat, name0 l = l[0]?.getD 0 := by
    intro l
    cases l <;> simp [name0]
  rw [e, e, getElem?_poke b off x 0 h (Or.inl hi)]

theorem field_poke_disjoint (b : Block) (off : Nat) (x : List Nat) (o' len : Nat)
    (h : off + x.length ≤ b.length) (hd : o' + len ≤ off ∨ off + x.length ≤ o') :
    field (poke b off x) o' len = field b o' len := by
  unfold field
  apply List.ext_getElem?
  intro i
  by_cases hi : i < len
  · rw [List.getElem?_take_of_lt hi, List.getElem?_take_of_lt hi, List.getElem?_drop,
      List.getElem?_drop]
    exact getElem?_poke b off x (o' + i) h (by omega)
  · rw [List.getElem?_take_eq_none (by omega), List.getElem?_take_eq_none (by omega)]

theorem length_setTypeflag (b : Block) (c : Nat) : (setTypeflag b c).length = b.length :=
  length_poke b 156 [c]

theorem size_field_length (sz : Nat) : ((padLeft 11 (octal sz)).take 11 ++ [32]).length = 12 := by
  have : 11 ≤ (padLeft 11 (octal sz)).length := by
    unfold padLeft
    simp only [List.length_append, List.length_replicate]
    omega
  simp only [List.length_append, List.length_take, List.length_singleton]
  omega

theorem length_th_set_size (b : Block) (sz : Nat) : (th_set_size b sz).length = b.length :=
  length_poke b 124 _

theorem chksum_field_length (crc : Nat) :
    ((padLeft 6 (octal crc) ++ [32]).take 7 ++ [0]).length = 8 := by
  have : 6 ≤ (padLeft 6 (octal crc)).length := by
    unfold padLeft
    simp only [List.length_append, List.length_replicate]
    omega
  simp only [List.length_append, List.length_take, List.length_singleton]
  omega

theorem length_th_finish (o : Options) (b : Block) : (th_finish o b).length = b.length := by
  unfold th_finish
  simp only []
  rw [length_poke]
  split_ifs <;> exact length_poke b 257 _

theorem typeflag_setTypeflag (b : Block) (c : Nat) (hb : b.length = 512) :
    typeflag (setTypeflag b c) = c := by
  unfold typeflag setTypeflag
  rw [poke_eq b 156 [c] (by simp only [List.length_singleton, hb]; decide)]
  have hl : (b.take 156).length = 156 := by
    simp only [List.length_take, hb]
    decide
  rw [List.getD_eq_getElem?_getD, List.append_assoc,
    List.getElem?_append_right (by omega)]
  simp [hl]

theorem typeflag_th_set_size (b : Block) (sz : Nat) (hb : b.length = 512) :
    typeflag (th_set_size b sz) = typeflag b :=
  typeflag_poke b 124 _ (by rw [size_field_length, hb]; decide)
    (Or.inr (by rw [size_field_length]; decide))

theorem typeflag_th_finish (o : Options) (b : Block) (hb : b.length = 512) :
    typeflag (th_finish o b) = typeflag b := by
  unfold th_finish
  simp only []
  have h1 : (if o.TAR_GNU = true then poke b 257 (lit "ustar " ++ [32, 0])
      else poke b 257 (lit "ustar" ++ [0] ++ lit "00")).length = 512 := by
    split_ifs <;> rw [length_poke] <;> exact hb
  rw [typeflag_poke _ 148 _ (by rw [chksum_field_length, h1]; decide)
    (Or.inr (by rw [chksum_field_length]))]
  split_ifs
  · exact typeflag_poke b 257 _ (by rw [hb]; decide) (Or.inl (by decide))
  · exact typeflag_poke b 257 _ (by rw [hb]; decide) (Or.inl (by decide))

theorem name0_setTypeflag (b : Block) (c : Nat) (hb : b.length = 512) :
    name0 (setTypeflag b c) = name0 b :=
  name0_poke b 156 [c] (by simp only [List.length_singleton, hb]; decide) (by decide)

theorem name0_th_set_size (b : Block) (sz : Nat) (hb : b.length = 512) :
    name0 (th_set_size b sz) = name0 b :=
  name0_poke b 124 _ (by rw [size_field_length, hb]; decide) (by decide)

theorem name0_th_finish (o : Options) (b : Block) (hb : b.length = 512) :
    name0 (th_finish o b) = name0 b := by
  unfold th_finish
  simp only []
  have h1 : (if o.TAR_GNU = true then poke b 257 (lit "ustar " ++ [32, 0])
      else poke b 257 (lit "ustar" ++ [0] ++ lit "00")).length = 512 := by
    split_ifs <;> rw [length_poke] <;> exact hb
  rw [name0_poke _ 148 _ (by rw [chksum_field_length, h1]; decide) (by decide)]
  split_ifs
  · exact name0_poke b 257 _ (by rw [hb]; decide) (by decide)
  · exact name0_poke b 257 _ (by rw [hb]; decide) (by decide)

theorem th_get_size_th_set_size (b : Block) (sz : Nat) (hb : b.length = 512)
    (hsz : sz < 8 ^ 11) : th_get_size (th_set_size b sz) = sz := by
  have hl : (octal sz).length ≤ 11 := digitsAux_length (sz + 1) sz 10 (by omega) hsz
  have h11 := length_padLeft 11 (octal sz) hl
  have e : (padLeft 11 (octal sz)).take 11 = padLeft 11 (octal sz) :=
    List.take_of_length_le (by omega)
  unfold th_get_size sizeField th_set_size
  have hf := field_poke b 124 ((padLeft 11 (octal sz)).take 11 ++ [32])
    (by rw [size_field_length, hb]; decide)
  rw [size_field_length] at hf
  rw [hf, e]
  exact oct_to_int_padLeft 11 sz 32 [] (by omega)

theorem th_get_size_th_finish (o : Options) (b : Block) (hb : b.length = 512) :
    th_get_size (th_finish o b) = th_get_size b := by
  unfold th_get_size sizeField th_finish
  simp only []
  have h1 : (if o.TAR_GNU = true then poke b 257 (lit "ustar " ++ [32, 0])
      else poke b 257 (lit "ustar" ++ [0] ++ lit "00")).length = 512 := by
    split_ifs <;> rw [length_poke] <;> exact hb
  rw [field_poke_disjoint _ 148 _ 124 12 (by rw [chksum_field_length, h1]; decide)
    (Or.inl (by decide))]
  split_ifs
  · rw [field_poke_disjoint b 257 _ 124 12 (by rw [hb]; decide) (Or.inl (by decide))]
  · rw [field_poke_disjoint b 257 _ 124 12 (by rw [hb]; decide) (Or.inl (by decide))]

/-- A write that takes the whole block appends it and changes nothing else of the
header or the options. -/
theorem tar_block_write_ok (t : TAR) (w : Written) (h : (tar_block_write t w).1 = 512) :
    (tar_block_write t w).2.output = t.output ++ [w] ∧
      (tar_block_write t w).2.th_buf = t.th_buf ∧
      (tar_block_write t w).2.options = t.options := by
  unfold tar_block_write at h ⊢
  split
  · exact ⟨rfl, rfl, rfl⟩
  · exact ⟨rfl, rfl, rfl⟩
  · rename_i n rest heq
    rw [heq] at h
    simp only [Nat.cast_inj] at h
    have := n.isLt
    omega
  · rename_i rest heq
    rw [heq] at h
    simp at h

/-- The function `th_write_extended` returns 0 or -1. -/
theorem th_write_extended_ret (E : Env) (t : TAR) (buf : Block) (sz : Nat) :
    (th_write_extended E t buf sz).1 = 0 ∨ (th_write_extended E t buf sz).1 = -1 := by
  simp only [th_write_extended]
  split_ifs
  · exact Or.inr rfl
  · exact Or.inr rfl
  · exact Or.inr rfl
  · exact Or.inl rfl

/-- A successful `th_write_extended`: the size is below 512, the extended header
and the data block are appended, the type flag and size of the header buffer are
put back, and the buffer is zeroed. -/
theorem th_write_extended_ok (E : Env) (t : TAR) (buf : Block) (sz : Nat)
    (h : (th_write_extended E t buf sz).1 = 0) :
    sz < T_BLOCKSIZE ∧
      (th_write_extended E t buf sz).2.1.output = t.output ++
        [Written.header (E.th_finish t.options
            (E.th_set_size (setTypeflag t.th_buf.raw TH_EXT_TYPE) sz)),
          Written.data buf] ∧
      (th_write_extended E t buf sz).2.1.th_buf = { t.th_buf with
        raw := E.th_set_size (setTypeflag (E.th_finish t.options
            (E.th_set_size (setTypeflag t.th_buf.raw TH_EXT_TYPE) sz)) (typeflag t.th_buf.raw))
          (E.th_get_size t.th_buf.raw) } ∧
      (th_write_extended E t buf sz).2.1.options = t.options ∧
      (th_write_extended E t buf sz).2.2 = zeroBlock := by
  simp only [th_write_extended] at h ⊢
  split_ifs at h ⊢ with h1 h2 h3
  · simp at h
  · simp [io_fail] at h
  · simp [io_fail] at h
  · have w1 := tar_block_write_ok _ _ (not_not.mp h2)
    have w2 := tar_block_write_ok _ _ (not_not.mp h3)
    refine ⟨by omega, ?_, ?_, ?_, rfl⟩
    · simp only []
      rw [w2.1, w1.1]
      simp
    · simp only []
      rw [w2.2.1, w1.2.1]
    · simp only []
      rw [w2.2.2, w1.2.2]

theorem decimal_two_digits (n : Nat) (h1 : 10 ≤ n) (h2 : n < 100) :
    decimal n = [48 + n / 10, 48 + n % 10] := by
  obtain ⟨m, rfl⟩ : ∃ m, n = m + 1 := ⟨n - 1, by omega⟩
  have a1 : ¬ m + 1 < 10 := by omega
  have a2 : (m + 1) / 10 < 10 := by omega
  simp only [decimal, digitsAux, if_neg a1, if_pos a2]

theorem decimal_three_digits (n : Nat) (h1 : 100 ≤ n) (h2 : n < 1000) :
    decimal n = [48 + n / 10 / 10, 48 + n / 10 % 10, 48 + n % 10] := by
  obtain ⟨m, rfl⟩ : ∃ m, n = m + 2 := ⟨n - 2, by omega⟩
  have a1 : ¬ m + 2 < 10 := by omega
  have a2 : ¬ (m + 2) / 10 < 10 := by omega
  have a3 : (m + 2) / 10 / 10 < 10 := by omega
  simp only [decimal, digitsAux, if_neg a1, if_neg a2, if_pos a3]

theorem decimal_length_two (n : Nat) (h1 : 10 ≤ n) (h2 : n < 100) : (decimal n).length = 2 := by
  rw [decimal_two_digits n h1 h2]
  rfl

theorem decimal_length_three (n : Nat) (h1 : 100 ≤ n) (h2 : n < 1000) :
    (decimal n).length = 3 := by
  rw [decimal_three_digits n h1 h2]
  rfl

/-- Writing `x` at the end of the used part `a` of a buffer whose rest is zero. -/
theorem poke_zeros (a x : List Nat) (k : Nat) (h : x.length ≤ k) :
    poke (a ++ List.replicate k 0) a.length x = a ++ x ++ List.replicate (k - x.length) 0 := by
  rw [poke_eq _ _ _ (by simp only [List.length_append, List.length_replicate]; omega)]
  rw [List.take_left, List.drop_append, List.drop_replicate]

/-- The call `snprintf` at the end of the used part of the buffer. -/
theorem snprintf_at_zeros (a text : List Nat) (k : Nat) (h : text.length + 1 ≤ k)
    (ht : text.length ≤ T_BLOCKSIZE - 1) :
    snprintf_at (a ++ List.replicate k 0) a.length text =
      a ++ text ++ List.replicate (k - text.length) 0 := by
  unfold snprintf_at
  rw [List.take_of_length_le ht, poke_zeros a (text ++ [0]) k (by simpa using h)]
  have e : k - text.length = (k - (text ++ [0]).length) + 1 := by
    simp only [List.length_append, List.length_singleton]
    omega
  rw [e, List.replicate_succ]
  simp

/-- One record put into the buffer the way the sections of `th_write` do it: the
text by `snprintf`, the payload by `memcpy`, then the newline. -/
theorem buf_record (a text payload : List Nat) (k : Nat)
    (h : text.length + payload.length + 1 ≤ k) (ht : text.length ≤ T_BLOCKSIZE - 1) :
    poke (poke (snprintf_at (a ++ List.replicate k 0) a.length text)
        (a.length + text.length) payload) (a.length + text.length + payload.length) [10] =
      a ++ (text ++ payload ++ [10]) ++
        List.replicate (k - (text.length + payload.length + 1)) 0 := by
  rw [snprintf_at_zeros a text k (by omega) ht]
  have e1 : a.length + text.length = (a ++ text).length := by
    rw [List.length_append]
  rw [e1, poke_zeros (a ++ text) payload (k - text.length) (by omega)]
  have e2 : (a ++ text).length + payload.length = (a ++ text ++ payload).length := by
    rw [List.length_append (a ++ text) payload]
  rw [e2, poke_zeros (a ++ text ++ payload) [10] (k - text.length - payload.length)
    (by simp only [List.length_singleton]; omega)]
  have e3 : k - text.length - payload.length - [10].length =
      k - (text.length + payload.length + 1) := by
    simp only [List.length_singleton]
    omega
  rw [e3]
  simp only [List.append_assoc]

theorem poke_nil (b : List Nat) (off : Nat) : poke b off [] = b := by
  unfold poke
  simp

theorem HdrOK_th_write_extended (w : Nat) (f : Bool) (ps : Nat) (raw0 : Block) (t : TAR)
    (buf : Block) (sz : Nat) (h : HdrOK raw0 t.th_buf.raw)
    (hok : (th_write_extended (libtar w f ps) t buf sz).1 = 0) :
    HdrOK raw0 (th_write_extended (libtar w f ps) t buf sz).2.1.th_buf.raw := by
  obtain ⟨hl, ht, hn⟩ := h
  have hx := (th_write_extended_ok (libtar w f ps) t buf sz hok).2.2.1
  rw [hx]
  simp only [libtar]
  have l1 : (setTypeflag t.th_buf.raw TH_EXT_TYPE).length = 512 := by
    rw [length_setTypeflag, hl]
  have l2 : (th_set_size (setTypeflag t.th_buf.raw TH_EXT_TYPE) sz).length = 512 := by
    rw [length_th_set_size, l1]
  have l3 : (th_finish t.options (th_set_size (setTypeflag t.th_buf.raw TH_EXT_TYPE) sz)).length
      = 512 := by
    rw [length_th_finish, l2]
  have l4 : (setTypeflag (th_finish t.options
      (th_set_size (setTypeflag t.th_buf.raw TH_EXT_TYPE) sz)) (typeflag t.th_buf.raw)).length
      = 512 := by
    rw [length_setTypeflag, l3]
  refine ⟨by rw [length_th_set_size, l4], ?_, ?_⟩
  · rw [typeflag_th_set_size _ _ l4, typeflag_setTypeflag _ _ l3, ht]
  · rw [name0_th_set_size _ _ l4, name0_setTypeflag _ _ l3, name0_th_finish _ _ l2,
      name0_th_set_size _ _ l1, name0_setTypeflag _ _ hl, hn]

/-- The extended header written by `th_write_extended` has the extended type flag
and declares the size it was given. -/
theorem ext_header_spec (o : Options) (raw : Block) (sz : Nat) (hl : raw.length = 512)
    (hsz : sz < T_BLOCKSIZE) :
    typeflag (th_finish o (th_set_size (setTypeflag raw TH_EXT_TYPE) sz)) = TH_EXT_TYPE ∧
      th_get_size (th_finish o (th_set_size (setTypeflag raw TH_EXT_TYPE) sz)) = sz := by
  have l1 : (setTypeflag raw TH_EXT_TYPE).length = 512 := by
    rw [length_setTypeflag, hl]
  have l2 : (th_set_size (setTypeflag raw TH_EXT_TYPE) sz).length = 512 := by
    rw [length_th_set_size, l1]
  constructor
  · rw [typeflag_th_finish _ _ l2, typeflag_th_set_size _ _ l1, typeflag_setTypeflag _ _ hl]
  · rw [th_get_size_th_finish _ _ l2, th_get_size_th_set_size _ _ l1]
    simp only [T_BLOCKSIZE] at hsz
    have : (512 : Nat) < 8 ^ 11 := by decide
    omega


theorem record_step (recs : List (List Nat)) (buf : Block) (ptr : Nat) (text payload : List Nat)
    (hbuf : buf = blockOf recs) (hptr : ptr = recs.flatten.length)
    (hfit : recs.flatten.length + (text.length + payload.length + 1) < T_BLOCKSIZE) :
    poke (poke (snprintf_at buf ptr text) (ptr + text.length) payload)
        (ptr + text.length + payload.length) [10] = blockOf (recs ++ [text ++ payload ++ [10]]) := by
  subst hbuf hptr
  simp only [T_BLOCKSIZE] at hfit
  unfold blockOf
  rw [buf_record _ _ _ _ (by simp only [T_BLOCKSIZE]; omega) (by simp only [T_BLOCKSIZE]; omega)]
  simp only [List.flatten_append, List.flatten_cons, List.flatten_nil, List.append_nil,
    List.length_append, List.length_singleton, T_BLOCKSIZE]
  congr 2
  omega

theorem pairsOut_snoc (ps : List (Block × List (List Nat))) (p : Block × List (List Nat)) :
    pairsOut (ps ++ [p]) = pairsOut ps ++ [Written.header p.1, Written.data (blockOf p.2)] := by
  simp [pairsOut, List.flatMap_append]

theorem PairsAfter_snoc (out0 out : List Written) (X : Block) (recs : List (List Nat))
    (h : PairsAfter out0 out) (hp : goodPair (X, recs)) :
    PairsAfter out0 (out ++ [Written.header X, Written.data (blockOf recs)]) := by
  obtain ⟨ps, ho, hg⟩ := h
  refine ⟨ps ++ [(X, recs)], ?_, ?_⟩
  · rw [pairsOut_snoc, ho, List.append_assoc]
  · intro p hp2
    rcases List.mem_append.1 hp2 with h1 | h1
    · exact hg p h1
    · rw [List.mem_singleton.1 h1]
      exact hp

theorem make_room_XRes (w : Nat) (f : Bool) (ps : Nat) (o : Options) (out0 : List Written)
    (raw0 : Block) (t : TAR) (l : WLocals) (sz : Nat) (h : XInv o out0 raw0 t l) :
    WFlow.Ok (XRes o out0 raw0 sz) (make_room (libtar w f ps) t l sz) := by
  obtain ⟨ho, hh, hd⟩ := h
  simp only [make_room]
  split_ifs with h1 h2
  · rfl
  · have h3 : (th_write_extended (libtar w f ps) t l.buf l.total_sz).1 = 0 := by
      simpa using h2
    have hx := th_write_extended_ok (libtar w f ps) t l.buf l.total_sz h3
    obtain ⟨hlt, hout, -, hopt, -⟩ := hx
    refine ⟨by rw [hopt, ho], HdrOK_th_write_extended w f ps raw0 t _ _ hh h3, ?_⟩
    rcases hd with hd | ⟨⟨recs, hr, hlen, hbuf, hptr, htot⟩, hp⟩
    · omega
    · by_cases hnil : recs = []
      · left
        subst hnil
        simp only [List.flatten_nil, List.length_nil] at htot
        show T_BLOCKSIZE ≤ sz
        omega
      · right
        refine ⟨⟨[], by simp, ?_, rfl, by simp⟩, ?_⟩
        · show (th_write_extended (libtar w f ps) t l.buf l.total_sz).2.2 = blockOf []
          rw [(th_write_extended_ok (libtar w f ps) t l.buf l.total_sz h3).2.2.2.2]
          rfl
        · rw [hout, hbuf]
          apply PairsAfter_snoc _ _ _ _ hp
          have hs := ext_header_spec t.options t.th_buf.raw l.total_sz hh.1 hlt
          exact ⟨hs.1, hnil, hr, hlen, hs.2.trans htot⟩
  · refine ⟨ho, hh, ?_⟩
    rcases hd with hd | ⟨⟨recs, hr, hlen, hbuf, hptr, htot⟩, hp⟩
    · left
      show T_BLOCKSIZE ≤ l.total_sz + sz
      omega
    · right
      exact ⟨⟨recs, hr, hbuf, hptr, by show l.total_sz + sz = _; rw [htot]⟩, hp⟩

/-- Writing the record for which room was made. -/
theorem XInv_emit (o : Options) (out0 : List Written) (raw0 : Block) (sz : Nat) (t : TAR)
    (l : WLocals) (buf : Block) (rec : List Nat)
    (h : XRes o out0 raw0 sz t l)
    (hrec : sz < T_BLOCKSIZE → isEmitted rec ∧ rec.length = sz)
    (hbuf : ∀ recs : List (List Nat), l.buf = blockOf recs → l.ptr = recs.flatten.length →
      recs.flatten.length + sz < T_BLOCKSIZE → buf = blockOf (recs ++ [rec])) :
    XInv o out0 raw0 t { l with buf := buf, ptr := l.ptr + sz } := by
  obtain ⟨ho, hh, hd⟩ := h
  refine ⟨ho, hh, ?_⟩
  rcases hd with hd | ⟨⟨recs, hr, hb, hptr, htot⟩, hp⟩
  · exact Or.inl hd
  · by_cases hlt : l.total_sz < T_BLOCKSIZE
    · right
      have hsz : sz < T_BLOCKSIZE := by omega
      obtain ⟨hre, hl⟩ := hrec hsz
      refine ⟨⟨recs ++ [rec], ?_, ?_, ?_, ?_, ?_⟩, hp⟩
      · intro r hr2
        rcases List.mem_append.1 hr2 with h1 | h1
        · exact hr r h1
        · rw [List.mem_singleton.1 h1]
          exact hre
      · simp only [List.flatten_append, List.flatten_cons, List.flatten_nil, List.append_nil,
          List.length_append]
        omega
      · exact hbuf recs hb hptr (by omega)
      · show l.ptr + sz = _
        simp only [List.flatten_append, List.flatten_cons, List.flatten_nil, List.append_nil,
          List.length_append]
        omega
      · show l.total_sz = _
        simp only [List.flatten_append, List.flatten_cons, List.flatten_nil, List.append_nil,
          List.length_append]
        omega
    · left
      show T_BLOCKSIZE ≤ l.total_sz
      omega

/-- The length of a record whose declared length is the corrected estimate. -/
theorem record_length (tag payload : List Nat) (h10 : 10 ≤ estimate tag payload)
    (hlt : bump (estimate tag payload) < 1000) :
    (decimal (bump (estimate tag payload)) ++ [32] ++ tag ++ payload ++ [10]).length =
      bump (estimate tag payload) := by
  simp only [List.length_append, List.length_singleton]
  by_cases h : estimate tag payload ≥ 100
  · have hb : bump (estimate tag payload) = estimate tag payload + 1 := by
      simp only [bump, if_pos h]
    rw [hb] at hlt ⊢
    rw [decimal_length_three _ (by omega) hlt]
    have he : estimate tag payload = 2 + 1 + tag.length + payload.length + 1 := rfl
    omega
  · have hb : bump (estimate tag payload) = estimate tag payload := by
      simp only [bump, if_neg h]
    rw [hb]
    rw [decimal_length_two _ h10 (by omega)]
    have he : estimate tag payload = 2 + 1 + tag.length + payload.length + 1 := rfl
    omega

theorem isEmitted_mk (tag payload : List Nat) (htag : tag ∈ knownTags)
    (h10 : 10 ≤ estimate tag payload) (hlt : bump (estimate tag payload) < 1000) :
    isEmitted (decimal (bump (estimate tag payload)) ++ [32] ++ tag ++ payload ++ [10]) ∧
      (decimal (bump (estimate tag payload)) ++ [32] ++ tag ++ payload ++ [10]).length =
        bump (estimate tag payload) := by
  have hl := record_length tag payload h10 hlt
  refine ⟨⟨tag, payload, htag, ?_, hl⟩, hl⟩
  rw [hl]

/-- The buffer after a record written with one `snprintf`. -/
theorem snprintf_step (recs : List (List Nat)) (buf : Block) (ptr : Nat) (rec : List Nat)
    (hbuf : buf = blockOf recs) (hptr : ptr = recs.flatten.length)
    (hfit : recs.flatten.length + rec.length < T_BLOCKSIZE) :
    snprintf_at buf ptr rec = blockOf (recs ++ [rec]) := by
  subst hbuf hptr
  simp only [T_BLOCKSIZE] at hfit
  unfold blockOf
  rw [snprintf_at_zeros _ _ _ (by simp only [T_BLOCKSIZE]; omega)
    (by simp only [T_BLOCKSIZE]; omega)]
  simp only [List.flatten_append, List.flatten_cons, List.flatten_nil, List.append_nil,
    List.length_append, T_BLOCKSIZE]
  congr 2
  omega

theorem th_write_selinux_XInv (o : Options) (out0 : List Written) (raw0 : Block) (t : TAR)
    (ho : t.options = o) (hh : HdrOK raw0 t.th_buf.raw) (hp : PairsAfter out0 t.output) :
    WFlow.Ok (XInv o out0 raw0) (th_write_selinux t { buf := zeroBlock, ptr := 0, total_sz := 0 }) := by
  have hgood : LGood { buf := zeroBlock, ptr := 0, total_sz := 0 } :=
    ⟨[], by simp, by simp [T_BLOCKSIZE], rfl, rfl, rfl⟩
  unfold th_write_selinux
  split
  · rename_i ctx _ _
    simp only []
    have hsz : bump (SELINUX_TAG.length + strlen ctx + 3 + 1) =
        bump (estimate SELINUX_TAG (cstring ctx)) := by
      congr 1
      simp only [estimate, strlen]
      omega
    rw [hsz]
    have hx : XRes o out0 raw0 (bump (estimate SELINUX_TAG (cstring ctx))) t
        { buf := zeroBlock, ptr := 0, total_sz := 0 + bump (estimate SELINUX_TAG (cstring ctx)) } :=
      ⟨ho, hh, Or.inr ⟨⟨[], by simp, rfl, rfl, by simp⟩, hp⟩⟩
    have h10 : 10 ≤ estimate SELINUX_TAG (cstring ctx) := by
      have hl : SELINUX_TAG.length = 21 := by decide
      simp only [estimate, hl]
      omega
    exact XInv_emit o out0 raw0 _ t _ _
      (decimal (bump (estimate SELINUX_TAG (cstring ctx))) ++ [32] ++ SELINUX_TAG ++ cstring ctx
        ++ [10]) hx
      (fun hlt => isEmitted_mk _ _ (by simp [knownTags]) h10 (by simp only [T_BLOCKSIZE] at hlt; omega))
      (fun recs hb hptr hfit => by
        by_cases hlt : bump (estimate SELINUX_TAG (cstring ctx)) < 1000
        · refine snprintf_step recs _ _ _ hb hptr ?_
          rw [record_length _ _ h10 hlt]
          exact hfit
        · simp only [T_BLOCKSIZE] at hfit
          omega)
  · exact ⟨ho, hh, Or.inr ⟨hgood, hp⟩⟩

theorem length_fepBytes (E : Env) (fep : Fep) : (fepBytes E fep).length = E.sizeof_policy := by
  cases fep <;> simp [fepBytes]

theorem th_write_fscrypt_XInv (w : Nat) (f : Bool) (ps : Nat) (o : Options)
    (out0 : List Written) (raw0 : Block) (t : TAR) (l : WLocals) (h : XInv o out0 raw0 t l) :
    WFlow.Ok (XInv o out0 raw0) (th_write_fscrypt (libtar w f ps) t l) := by
  simp only [th_write_fscrypt]
  split_ifs with hc
  · have hr := make_room_XRes w f ps o out0 raw0 t l
      (bump (FSCRYPT_TAG.length + (libtar w f ps).sizeof_policy + 1 + 3 + 1)) h
    split
    · rename_i r t1 heq
      rw [heq] at hr
      exact hr
    · rename_i t1 l1 heq
      rw [heq] at hr
      have hps : (libtar w f ps).sizeof_policy = ps := rfl
      have hfl := length_fepBytes (libtar w f ps) t1.th_buf.fep
      rw [hps] at hfl
      have hl : FSCRYPT_TAG.length = 22 := by decide
      have hsz : bump (FSCRYPT_TAG.length + (libtar w f ps).sizeof_policy + 1 + 3 + 1) =
          bump (estimate FSCRYPT_TAG ([48] ++ fepBytes (libtar w f ps) t1.th_buf.fep)) := by
        congr 1
        simp only [estimate, List.length_append, List.length_singleton, hfl, hps]
        omega
      have h10 : 10 ≤ estimate FSCRYPT_TAG ([48] ++ fepBytes (libtar w f ps) t1.th_buf.fep) := by
        simp only [estimate, hl]
        omega
      rw [hsz] at hr ⊢
      refine XInv_emit o out0 raw0 _ t1 l1 _
        (decimal (bump (estimate FSCRYPT_TAG ([48] ++ fepBytes (libtar w f ps) t1.th_buf.fep)))
          ++ [32] ++ FSCRYPT_TAG ++ ([48] ++ fepBytes (libtar w f ps) t1.th_buf.fep) ++ [10]) hr
        (fun hlt => isEmitted_mk _ _ (by simp [knownTags]) h10
          (by simp only [T_BLOCKSIZE] at hlt; omega)) ?_
      intro recs hb hptr hfit
      have hlt : bump (estimate FSCRYPT_TAG ([48] ++ fepBytes (libtar w f ps) t1.th_buf.fep))
          < 1000 := by
        simp only [T_BLOCKSIZE] at hfit
        omega
      have hlen := record_length _ _ h10 hlt
      simp only [List.length_append, List.length_singleton, hfl, hl] at hlen
      have e := record_step recs l1.buf l1.ptr
        (decimal (bump (estimate FSCRYPT_TAG ([48] ++ fepBytes (libtar w f ps) t1.th_buf.fep)))
          ++ [32] ++ FSCRYPT_TAG ++ [48]) (fepBytes (libtar w f ps) t1.th_buf.fep) hb hptr
        (by
          simp only [List.length_append, List.length_singleton, hfl, hl]
          omega)
      simp only [List.append_assoc] at e ⊢
      rw [← e]
      simp only [List.length_append, List.length_singleton, hl, hps, List.length_cons,
        List.length_nil]
      congr 2
      · omega
      · omega
  · exact h

theorem th_write_cap_XInv (w : Nat) (f : Bool) (ps : Nat) (o : Options)
    (out0 : List Written) (raw0 : Block) (t : TAR) (l : WLocals) (h : XInv o out0 raw0 t l) :
    WFlow.Ok (XInv o out0 raw0) (th_write_cap (libtar w f ps) t l) := by
  simp only [th_write_cap]
  split_ifs with hc
  · have hr := make_room_XRes w f ps o out0 raw0 t l
      (bump (CAPABILITIES_TAG.length + sizeof_vfs_cap_data + 3 + 1)) h
    split
    · rename_i r t1 heq
      rw [heq] at hr
      exact hr
    · rename_i t1 l1 heq
      rw [heq] at hr
      have hl : CAPABILITIES_TAG.length = 33 := by decide
      have hpl : ((t1.th_buf.cap_data ++ List.replicate sizeof_vfs_cap_data 0).take
          sizeof_vfs_cap_data).length = 20 := by
        simp [sizeof_vfs_cap_data]
      have hsz : bump (CAPABILITIES_TAG.length + sizeof_vfs_cap_data + 3 + 1) =
          bump (estimate CAPABILITIES_TAG
            ((t1.th_buf.cap_data ++ List.replicate sizeof_vfs_cap_data 0).take
              sizeof_vfs_cap_data)) := by
        congr 1
        simp only [estimate, hpl, hl]
        rfl
      have h10 : 10 ≤ estimate CAPABILITIES_TAG
          ((t1.th_buf.cap_data ++ List.replicate sizeof_vfs_cap_data 0).take
            sizeof_vfs_cap_data) := by
        simp only [estimate, hl]
        omega
      have hv : bump (estimate CAPABILITIES_TAG
          ((t1.th_buf.cap_data ++ List.replicate sizeof_vfs_cap_data 0).take
            sizeof_vfs_cap_data)) = 57 := by
        simp only [estimate, hpl, hl, bump]
        rfl
      rw [hsz] at hr ⊢
      refine XInv_emit o out0 raw0 _ t1 l1 _ _ hr
        (fun hlt => isEmitted_mk _ _ (by simp [knownTags]) h10 (by rw [hv]; decide)) ?_
      intro recs hb hptr hfit
      have hlen := record_length _ _ h10 (by rw [hv]; decide)
      simp only [List.length_append, List.length_singleton, hpl, hl] at hlen
      rw [hv] at hlen hfit
      have e := record_step recs l1.buf l1.ptr
        (decimal (bump (estimate CAPABILITIES_TAG
          ((t1.th_buf.cap_data ++ List.replicate sizeof_vfs_cap_data 0).take
            sizeof_vfs_cap_data))) ++ [32] ++ CAPABILITIES_TAG)
        ((t1.th_buf.cap_data ++ List.replicate sizeof_vfs_cap_data 0).take
            sizeof_vfs_cap_data) hb hptr
        (by
          simp only [List.length_append, List.length_singleton, hpl, hl, hv]
          omega)
      rw [← e]
      simp only [List.length_append, List.length_singleton, hl, hpl, hv]
      congr 2
  · exact h

theorem th_write_user_XInv (w : Nat) (f : Bool) (ps : Nat) (o : Options)
    (out0 : List Written) (raw0 : Block) (flag : Bool) (tag : List Nat) (t : TAR) (l : WLocals)
    (htag : tag ∈ knownTags) (hmin : 6 ≤ tag.length) (hlen : tag.length + 4 < 100)
    (h : XInv o out0 raw0 t l) :
    WFlow.Ok (XInv o out0 raw0) (th_write_user (libtar w f ps) flag tag t l) := by
  simp only [th_write_user]
  split_ifs with hc
  · have hr := make_room_XRes w f ps o out0 raw0 t l (tag.length + 3 + 1) h
    split
    · rename_i r t1 heq
      rw [heq] at hr
      exact hr
    · rename_i t1 l1 heq
      rw [heq] at hr
      have he : estimate tag [] = tag.length + 3 + 1 := by
        simp only [estimate, List.length_nil]
        omega
      have hsz : tag.length + 3 + 1 = bump (estimate tag []) := by
        rw [he]
        simp only [bump]
        rw [if_neg (by omega)]
      have h10 : 10 ≤ estimate tag [] := by
        rw [he]
        omega
      rw [hsz] at hr ⊢
      refine XInv_emit o out0 raw0 _ t1 l1 _ _ hr
        (fun hlt => isEmitted_mk tag [] htag h10 (by rw [← hsz]; omega)) ?_
      intro recs hb hptr hfit
      have hl2 := record_length tag [] h10 (by rw [← hsz]; omega)
      simp only [List.length_append, List.length_singleton, List.length_nil] at hl2
      have e := record_step recs l1.buf l1.ptr
        (decimal (bump (estimate tag [])) ++ [32] ++ tag) [] hb hptr
        (by
          simp only [List.length_append, List.length_singleton, List.length_nil]
          omega)
      rw [poke_nil] at e
      rw [← e]
      simp only [List.length_append, List.length_singleton, List.length_nil]
      congr 2
      omega
  · exact h

theorem th_write_user_xattr_XInv (w : Nat) (f : Bool) (ps : Nat) (o : Options)
    (out0 : List Written) (raw0 : Block) (t : TAR) (l : WLocals) (h : XInv o out0 raw0 t l) :
    WFlow.Ok (XInv o out0 raw0) (th_write_user_xattr (libtar w f ps) t l) := by
  simp only [th_write_user_xattr]
  split_ifs with hc
  · have h1 := th_write_user_XInv w f ps o out0 raw0 t.th_buf.has_user_default
      ANDROID_USER_DEFAULT_TAG t l (by simp [knownTags]) (by decide) (by decide) h
    split
    · rename_i r t1 heq
      rw [heq] at h1
      exact h1
    · rename_i t1 l1 heq
      rw [heq] at h1
      have h2 := th_write_user_XInv w f ps o out0 raw0 t1.th_buf.has_user_cache
        ANDROID_USER_CACHE_TAG t1 l1 (by simp [knownTags]) (by decide) (by decide) h1
      split
      · rename_i r t2 heq2
        rw [heq2] at h2
        exact h2
      · rename_i t2 l2 heq2
        rw [heq2] at h2
        exact th_write_user_XInv w f ps o out0 raw0 t2.th_buf.has_user_code_cache
          ANDROID_USER_CODE_CACHE_TAG t2 l2 (by simp [knownTags]) (by decide) (by decide) h2
  · exact h

/-- The blocks of a successful `th_write_final`: the pending extended pair, if
any, and the real header, finished. -/
theorem th_write_final_shape (w : Nat) (f : Bool) (ps : Nat) (o : Options)
    (out0 : List Written) (raw0 : Block) (t : TAR) (l : WLocals) (h : XInv o out0 raw0 t l)
    (hok : (th_write_final (libtar w f ps) t l).1 = 0) :
    ∃ pairs F, (th_write_final (libtar w f ps) t l).2.output =
        out0 ++ pairsOut pairs ++ [Written.header F] ∧
      (∀ p ∈ pairs, goodPair p) ∧ typeflag F = typeflag raw0 ∧ name0 F = name0 raw0 ∧
      F.length = 512 := by
  obtain ⟨ho, hh, hd⟩ := h
  simp only [th_write_final] at hok ⊢
  by_cases h1 : l.total_sz > 0
  · simp only [if_pos h1] at hok ⊢
    split_ifs at hok ⊢ with h2 h5
    · simp at hok
    · simp [io_fail] at hok
    · have h3 : (th_write_extended (libtar w f ps) t l.buf l.total_sz).1 = 0 := not_not.1 h2
      obtain ⟨hlt, hout, hbuf, hopt, -⟩ :=
        th_write_extended_ok (libtar w f ps) t l.buf l.total_sz h3
      have hh2 := HdrOK_th_write_extended w f ps raw0 t l.buf l.total_sz hh h3
      rcases hd with hd | ⟨⟨recs, hr, hlen, hb, hptr, htot⟩, ⟨pairs, hpo, hpg⟩⟩
      · omega
      · have hnil : recs ≠ [] := by
          intro h0
          rw [h0] at htot
          simp only [List.flatten_nil, List.length_nil] at htot
          omega
        have hs := ext_header_spec t.options t.th_buf.raw l.total_sz hh.1 hlt
        have hw := tar_block_write_ok _ _ (not_not.1 h5)
        refine ⟨pairs ++ [(th_finish t.options (th_set_size (setTypeflag t.th_buf.raw TH_EXT_TYPE)
          l.total_sz), recs)],
          th_finish (th_write_extended (libtar w f ps) t l.buf l.total_sz).2.1.options
            (th_write_extended (libtar w f ps) t l.buf l.total_sz).2.1.th_buf.raw,
          ?_, ?_, ?_, ?_, ?_⟩
        · rw [hw.1]
          show (th_write_extended (libtar w f ps) t l.buf l.total_sz).2.1.output ++ _ = _
          rw [hout, hpo, pairsOut_snoc, hb]
          simp only [List.append_assoc]
          rfl
        · intro p hp2
          rcases List.mem_append.1 hp2 with h6 | h6
          · exact hpg p h6
          · rw [List.mem_singleton.1 h6]
            exact ⟨hs.1, hnil, hr, hlen, hs.2.trans htot⟩
        · show typeflag (th_finish _ _) = _
          rw [typeflag_th_finish _ _ hh2.1, hh2.2.1]
        · show name0 (th_finish _ _) = _
          rw [name0_th_finish _ _ hh2.1, hh2.2.2]
        · show (th_finish _ _).length = _
          rw [length_th_finish, hh2.1]
  · simp only [if_neg h1] at hok ⊢
    split_ifs at hok ⊢ with h2 h5
    · simp at h2
    · simp [io_fail] at hok
    · rcases hd with hd | ⟨⟨recs, hr, hlen, hb, hptr, htot⟩, ⟨pairs, hpo, hpg⟩⟩
      · simp only [T_BLOCKSIZE] at hd
        omega
      · have hw := tar_block_write_ok _ _ (not_not.1 h5)
        refine ⟨pairs, th_finish t.options t.th_buf.raw, ?_, hpg, ?_, ?_, ?_⟩
        · rw [hw.1]
          show t.output ++ _ = _
          rw [hpo]
          rfl
        · show typeflag (th_finish _ _) = _
          rw [typeflag_th_finish _ _ hh.1, hh.2.1]
        · show name0 (th_finish _ _) = _
          rw [name0_th_finish _ _ hh.1, hh.2.2]
        · show (th_finish _ _).length = _
          rw [length_th_finish, hh.1]

theorem HdrOK_restore (o : Options) (raw0 raw : Block) (ty sz sz2 : Nat) (h : HdrOK raw0 raw) :
    HdrOK raw0 (th_set_size (setTypeflag (th_finish o (th_set_size (setTypeflag raw ty) sz))
      (typeflag raw)) sz2) := by
  obtain ⟨hl, ht, hn⟩ := h
  have l1 : (setTypeflag raw ty).length = 512 := by
    rw [length_setTypeflag, hl]
  have l2 : (th_set_size (setTypeflag raw ty) sz).length = 512 := by
    rw [length_th_set_size, l1]
  have l3 : (th_finish o (th_set_size (setTypeflag raw ty) sz)).length = 512 := by
    rw [length_th_finish, l2]
  have l4 : (setTypeflag (th_finish o (th_set_size (setTypeflag raw ty) sz))
      (typeflag raw)).length = 512 := by
    rw [length_setTypeflag, l3]
  refine ⟨by rw [length_th_set_size, l4], ?_, ?_⟩
  · rw [typeflag_th_set_size _ _ l4, typeflag_setTypeflag _ _ l3, ht]
  · rw [name0_th_set_size _ _ l4, name0_setTypeflag _ _ l3, name0_th_finish _ _ l2,
      name0_th_set_size _ _ l1, name0_setTypeflag _ _ hl, hn]

theorem write_long_blocks_ok (j : Nat) : ∀ (ptr : List Nat) (t : TAR),
    (write_long_blocks j ptr t).1 = 512 →
    ∃ ds : List Block, ds.length = j - 1 ∧
      (write_long_blocks j ptr t).2.1.output = t.output ++ ds.map Written.data ∧
      (write_long_blocks j ptr t).2.1.th_buf = t.th_buf ∧
      (write_long_blocks j ptr t).2.1.options = t.options := by
  induction j with
  | zero =>
    intro ptr t _
    exact ⟨[], rfl, by simp [write_long_blocks], rfl, rfl⟩
  | succ j ih =>
    intro ptr t h
    simp only [write_long_blocks] at h ⊢
    split_ifs at h ⊢ with h1 h2
    · exact absurd h h2
    · have hw := tar_block_write_ok t (Written.data (ptr.take T_BLOCKSIZE)) (not_not.1 h2)
      obtain ⟨ds, hlen, hout, hb, ho⟩ := ih _ _ h
      refine ⟨ptr.take T_BLOCKSIZE :: ds, ?_, ?_, ?_, ?_⟩
      · simp only [List.length_cons, hlen]
        omega
      · rw [hout, hw.1]
        simp
      · rw [hb, hw.2.1]
      · rw [ho, hw.2.2]
    · have hj : j = 0 := by omega
      subst hj
      exact ⟨[], rfl, by simp, rfl, rfl⟩

theorem tar_block_write_data_ok (t : TAR) (b : Block)
    (h : (tar_block_write t (Written.data b)).1 = 512) :
    ∃ D : Block, (tar_block_write t (Written.data b)).2.output = t.output ++ [Written.data D] ∧
      (tar_block_write t (Written.data b)).2.th_buf = t.th_buf ∧
      (tar_block_write t (Written.data b)).2.options = t.options :=
  ⟨b, tar_block_write_ok t _ h⟩

theorem th_write_gnu_ret (E : Env) (ty : Nat) (str : List Nat) (t : TAR) (r : Int) (t1 : TAR)
    (h : th_write_gnu E ty str t = Flow.ret r t1) : r = -1 := by
  simp only [th_write_gnu] at h
  split_ifs at h
  all_goals (injection h with h1 h2; rw [← h1]; rfl)

theorem th_write_gnu_next (w : Nat) (f : Bool) (ps : Nat) (ty : Nat) (str : List Nat)
    (t t1 : TAR) (hl : t.th_buf.raw.length = 512)
    (h : th_write_gnu (libtar w f ps) ty str t = Flow.next t1) :
    (∃ (X : Block) (ds : List Block),
        t1.output = t.output ++ Written.header X :: ds.map Written.data ∧
        typeflag X = ty ∧ ds.length = max 1 (blocksOf (strlen str))) ∧
      HdrOK t.th_buf.raw t1.th_buf.raw ∧ t1.options = t.options ∧
      t1.th_buf.gnu_longname = t.th_buf.gnu_longname ∧
      t1.th_buf.gnu_longlink = t.th_buf.gnu_longlink := by
  simp only [th_write_gnu] at h
  split_ifs at h with h1 h2 h3
  injection h with h
  have w1 := tar_block_write_ok _ _ (not_not.1 h1)
  obtain ⟨ds, hlen, hout, hb, ho⟩ := write_long_blocks_ok _ _ _ (not_not.1 h2)
  obtain ⟨D, w3⟩ := tar_block_write_data_ok _ _ (not_not.1 h3)
  subst h
  refine ⟨⟨th_finish t.options (th_set_size (setTypeflag t.th_buf.raw ty) (strlen str)),
    ds ++ [D], ?_, ?_, ?_⟩, ?_, ?_, ?_, ?_⟩
  · show (tar_block_write _ _).2.output = _
    rw [w3.1, hout, w1.1]
    simp only [List.map_append, List.map_cons, List.map_nil, List.append_assoc,
      List.singleton_append, List.cons_append, List.nil_append]
    rfl
  · have l1 : (setTypeflag t.th_buf.raw ty).length = 512 := by
      rw [length_setTypeflag, hl]
    have l2 : (th_set_size (setTypeflag t.th_buf.raw ty) (strlen str)).length = 512 := by
      rw [length_th_set_size, l1]
    rw [typeflag_th_finish _ _ l2, typeflag_th_set_size _ _ l1, typeflag_setTypeflag _ _ hl]
  · simp only [List.length_append, List.length_singleton, hlen]
    omega
  · show HdrOK _ (th_set_size (setTypeflag (tar_block_write _ _).2.th_buf.raw _) _)
    rw [w3.2.1, hb, w1.2.1]
    exact HdrOK_restore t.options t.th_buf.raw t.th_buf.raw ty (strlen str) _ ⟨hl, rfl, rfl⟩
  · show (tar_block_write _ _).2.options = _
    rw [w3.2.2, ho, w1.2.2]
  · show (tar_block_write _ _).2.th_buf.gnu_longname = _
    rw [w3.2.1, hb, w1.2.1]
  · show (tar_block_write _ _).2.th_buf.gnu_longlink = _
    rw [w3.2.1, hb, w1.2.1]

theorem th_write_ext_shape (w : Nat) (f : Bool) (ps : Nat) (t : TAR) (raw0 : Block)
    (hh : HdrOK raw0 t.th_buf.raw) (hok : (th_write_ext (libtar w f ps) t).1 = 0) :
    ∃ pairs F, (th_write_ext (libtar w f ps) t).2.output =
        t.output ++ pairsOut pairs ++ [Written.header F] ∧
      (∀ p ∈ pairs, goodPair p) ∧ typeflag F = typeflag raw0 ∧ name0 F = name0 raw0 ∧
      F.length = 512 := by
  have h1 := th_write_selinux_XInv t.options t.output raw0 t rfl hh ⟨[], by simp [pairsOut], by simp⟩
  unfold th_write_ext at hok ⊢
  cases e1 : th_write_selinux t { buf := zeroBlock, ptr := 0, total_sz := 0 } with
  | ret r t1 =>
    rw [e1] at h1 hok
    exact absurd (hok.symm.trans h1) (by decide)
  | next t1 l1 =>
    rw [e1] at h1 hok
    have h2 := th_write_fscrypt_XInv w f ps _ _ _ t1 l1 h1
    simp only [] at hok ⊢
    cases e2 : th_write_fscrypt (libtar w f ps) t1 l1 with
    | ret r t2 =>
      rw [e2] at h2 hok
      exact absurd (hok.symm.trans h2) (by decide)
    | next t2 l2 =>
      rw [e2] at h2 hok
      have h3 := th_write_cap_XInv w f ps _ _ _ t2 l2 h2
      simp only [] at hok ⊢
      cases e3 : th_write_cap (libtar w f ps) t2 l2 with
      | ret r t3 =>
        rw [e3] at h3 hok
        exact absurd (hok.symm.trans h3) (by decide)
      | next t3 l3 =>
        rw [e3] at h3 hok
        have h4 := th_write_user_xattr_XInv w f ps _ _ _ t3 l3 h3
        simp only [] at hok ⊢
        cases e4 : th_write_user_xattr (libtar w f ps) t3 l3 with
        | ret r t4 =>
          rw [e4] at h4 hok
          exact absurd (hok.symm.trans h4) (by decide)
        | next t4 l4 =>
          rw [e4] at h4 hok
          exact th_write_final_shape w f ps _ _ _ t4 l4 h4 hok

theorem gnuPart_inactive (ty : Nat) (gnu : Bool) (str : Option (List Nat))
    (h : ¬ (gnu = true ∧ str ≠ none)) : gnuPart ty gnu str [] := by
  unfold gnuPart
  split
  · simp at h
  · rfl

/-- The blocks of a successful `th_write` under the modelled libtar declarations. -/
theorem th_write_shape (w : Nat) (f : Bool) (ps : Nat) (t : TAR)
    (hl : t.th_buf.raw.length = 512) (hok : (th_write (libtar w f ps) t).1 = 0) :
    ∃ K L pairs F, (th_write (libtar w f ps) t).2.output =
        t.output ++ K ++ L ++ pairsOut pairs ++ [Written.header F] ∧
      gnuPart GNU_LONGLINK_TYPE t.options.TAR_GNU t.th_buf.gnu_longlink K ∧
      gnuPart GNU_LONGNAME_TYPE t.options.TAR_GNU t.th_buf.gnu_longname L ∧
      (∀ p ∈ pairs, goodPair p) ∧ typeflag F = typeflag t.th_buf.raw ∧
      name0 F = name0 t.th_buf.raw ∧ F.length = 512 := by
  -- the long-link section
  have s1 : ∀ t1, th_write_longlink (libtar w f ps) t = Flow.next t1 →
      ∃ K, t1.output = t.output ++ K ∧
        gnuPart GNU_LONGLINK_TYPE t.options.TAR_GNU t.th_buf.gnu_longlink K ∧
        HdrOK t.th_buf.raw t1.th_buf.raw ∧ t1.options = t.options ∧
        t1.th_buf.gnu_longname = t.th_buf.gnu_longname := by
    intro t1 h
    unfold th_write_longlink at h
    split at h
    · rename_i str hg hs
      obtain ⟨⟨X, ds, ho, hx, hd⟩, hh, hopt, hn, -⟩ := th_write_gnu_next w f ps _ _ _ _ hl h
      refine ⟨_, ho, ?_, hh, hopt, hn⟩
      rw [hg, hs]
      exact ⟨X, ds, rfl, hx, hd⟩
    · rename_i hno
      injection h with h
      subst h
      refine ⟨[], by simp, gnuPart_inactive _ _ _ ?_, ⟨hl, rfl, rfl⟩, rfl, rfl⟩
      rintro ⟨hg, hs⟩
      obtain ⟨s, hs2⟩ := Option.ne_none_iff_exists'.1 hs
      exact hno s hg hs2
  have s2 : ∀ t1 t2, t1.th_buf.raw.length = 512 →
      th_write_longname (libtar w f ps) t1 = Flow.next t2 →
      ∃ L, t2.output = t1.output ++ L ∧
        gnuPart GNU_LONGNAME_TYPE t1.options.TAR_GNU t1.th_buf.gnu_longname L ∧
        HdrOK t1.th_buf.raw t2.th_buf.raw := by
    intro t1 t2 hl1 h
    unfold th_write_longname at h
    split at h
    · rename_i str hg hs
      obtain ⟨⟨X, ds, ho, hx, hd⟩, hh, -, -, -⟩ := th_write_gnu_next w f ps _ _ _ _ hl1 h
      refine ⟨_, ho, ?_, hh⟩
      rw [hg, hs]
      exact ⟨X, ds, rfl, hx, hd⟩
    · rename_i hno
      injection h with h
      subst h
      refine ⟨[], by simp, gnuPart_inactive _ _ _ ?_, ⟨hl1, rfl, rfl⟩⟩
      rintro ⟨hg, hs⟩
      obtain ⟨s, hs2⟩ := Option.ne_none_iff_exists'.1 hs
      exact hno s hg hs2
  unfold th_write at hok ⊢
  cases e1 : th_write_longlink (libtar w f ps) t with
  | ret r t1 =>
    rw [e1] at hok
    unfold th_write_longlink at e1
    split at e1
    · exact absurd (hok.symm.trans (th_write_gnu_ret _ _ _ _ _ _ e1)) (by decide)
    · exact absurd e1 (by simp)
  | next t1 =>
    rw [e1] at hok
    simp only [] at hok ⊢
    obtain ⟨K, hK, gK, hh1, ho1, hn1⟩ := s1 t1 e1
    cases e2 : th_write_longname (libtar w f ps) t1 with
    | ret r t2 =>
      rw [e2] at hok
      unfold th_write_longname at e2
      split at e2
      · exact absurd (hok.symm.trans (th_write_gnu_ret _ _ _ _ _ _ e2)) (by decide)
      · exact absurd e2 (by simp)
    | next t2 =>
      rw [e2] at hok
      simp only [] at hok ⊢
      obtain ⟨L, hL, gL, hh2⟩ := s2 t1 t2 hh1.1 e2
      have hh3 : HdrOK t.th_buf.raw t2.th_buf.raw :=
        ⟨hh2.1, hh2.2.1.trans hh1.2.1, hh2.2.2.trans hh1.2.2⟩
      obtain ⟨pairs, F, hout, hg, h5, h6, h7⟩ := th_write_ext_shape w f ps t2 _ hh3 hok
      refine ⟨K, L, pairs, F, ?_, gK, ?_, hg, h5, h6, h7⟩
      · rw [hout, hL, hK]
      · rw [← ho1, ← hn1]
        exact gL

/-- With no option bit set a successful `th_write` writes one block, the header
of the entry, finished. -/
theorem th_write_no_options (E : Env) (t : TAR) (ho : t.options = {})
    (hok : (th_write E t).1 = 0) :
    (th_write E t).2.output = t.output ++ [Written.header (E.th_finish {} t.th_buf.raw)] := by
  have e1 : th_write_longlink E t = Flow.next t := by
    simp [th_write_longlink, ho]
  have e2 : th_write_longname E t = Flow.next t := by
    simp [th_write_longname, ho]
  have e3 : th_write_selinux t { buf := zeroBlock, ptr := 0, total_sz := 0 } =
      WFlow.next t { buf := zeroBlock, ptr := 0, total_sz := 0 } := by
    simp [th_write_selinux, ho]
  have e4 : ∀ l, th_write_fscrypt E t l = WFlow.next t l := by
    intro l
    simp [th_write_fscrypt, ho]
  have e5 : ∀ l, th_write_cap E t l = WFlow.next t l := by
    intro l
    simp [th_write_cap, ho]
  have e6 : ∀ l, th_write_user_xattr E t l = WFlow.next t l := by
    intro l
    simp [th_write_user_xattr, ho]
  simp only [th_write, e1, e2, th_write_ext, e3, e4, e5, e6, th_write_final] at hok ⊢
  simp only [gt_iff_lt, lt_self_iff_false, if_false, ne_eq, not_true_eq_false] at hok ⊢
  split_ifs at hok ⊢ with h5
  · have hw := tar_block_write_ok _ _ h5
    rw [hw.1, ho]
  · simp [io_fail] at hok

theorem decimal_digits (n : Nat) (h1 : 10 ≤ n) (h2 : n < 1000) :
    ∀ c ∈ decimal n, 48 ≤ c ∧ c ≤ 57 := by
  intro c hc
  by_cases h : n < 100
  · rw [decimal_two_digits n h1 h] at hc
    simp only [List.mem_cons, List.mem_singleton, List.not_mem_nil, or_false] at hc
    omega
  · rw [decimal_three_digits n (by omega) h2] at hc
    simp only [List.mem_cons, List.mem_singleton, List.not_mem_nil, or_false] at hc
    omega

theorem field_sub (b : Block) (off len o2 l2 : Nat) (h : o2 + l2 ≤ len) :
    field b (off + o2) l2 = ((field b off len).drop o2).take l2 := by
  unfold field
  rw [List.drop_take, List.take_take, List.drop_drop]
  congr 1
  omega

theorem magic_th_finish (o : Options) (b : Block) (hb : b.length = 512) :
    field (th_finish o b) 257 8 =
      if o.TAR_GNU = true then lit "ustar " ++ [32, 0] else lit "ustar" ++ [0] ++ lit "00" := by
  unfold th_finish
  simp only []
  have h1 : (if o.TAR_GNU = true then poke b 257 (lit "ustar " ++ [32, 0])
      else poke b 257 (lit "ustar" ++ [0] ++ lit "00")).length = 512 := by
    split_ifs <;> rw [length_poke] <;> exact hb
  rw [field_poke_disjoint _ 148 _ 257 8 (by rw [chksum_field_length, h1]; decide)
    (Or.inr (by rw [chksum_field_length]; decide))]
  split_ifs
  · exact field_poke b 257 (lit "ustar " ++ [32, 0]) (by rw [hb]; decide)
  · exact field_poke b 257 (lit "ustar" ++ [0] ++ lit "00") (by rw [hb]; decide)

/-- A finished header block is accepted by a reader that does not combine the
version check with a writer under `TAR_GNU`. -/
theorem accepted_th_finish (w : Nat) (f : Bool) (ps : Nat) (ro o : Options) (b : Block)
    (hb : isBlock b) (hn : name0 b ≠ 0)
    (hv : ro.TAR_CHECK_VERSION = true → o.TAR_GNU = false) :
    accepted (libtar w f ps) ro (th_finish o b) := by
  have hm := magic_th_finish o b hb.1
  refine ⟨by rw [name0_th_finish _ _ hb.1]; exact hn, ?_, ?_, ?_⟩
  · rintro ⟨-, h⟩
    have e : magicField (th_finish o b) = ((field (th_finish o b) 257 8).drop 0).take 6 :=
      field_sub (th_finish o b) 257 8 0 6 (by decide)
    rw [e, hm] at h
    revert h
    cases o.TAR_GNU <;> decide
  · rintro ⟨hc, h⟩
    have e : versionField (th_finish o b) = ((field (th_finish o b) 257 8).drop 6).take 2 :=
      field_sub (th_finish o b) 257 8 6 2 (by decide)
    rw [e, hm, hv hc] at h
    revert h
    decide
  · rintro ⟨-, h⟩
    have := th_crc_ok_th_finish o b hb
    have e : (libtar w f ps).th_crc_ok (th_finish o b) = th_crc_ok (th_finish o b) := rfl
    rw [e, this] at h
    exact absurd h (by decide)

theorem tar_block_write_nil (t : TAR) (x : Written) (h : t.wscript = []) :
    tar_block_write t x = (512, { t with output := t.output ++ [x] }) := by
  unfold tar_block_write
  rw [h]

theorem th_write_extended_nil (E : Env) (t : TAR) (buf : Block) (sz : Nat)
    (h : t.wscript = []) (hsz : sz < T_BLOCKSIZE) :
    th_write_extended E t buf sz = (0, { t with
      th_buf := { t.th_buf with
        raw := E.th_set_size (setTypeflag (E.th_finish t.options
            (E.th_set_size (setTypeflag t.th_buf.raw TH_EXT_TYPE) sz)) (typeflag t.th_buf.raw))
          (E.th_get_size t.th_buf.raw) },
      output := t.output ++
        [Written.header (E.th_finish t.options
            (E.th_set_size (setTypeflag t.th_buf.raw TH_EXT_TYPE) sz)),
          Written.data buf] }, zeroBlock) := by
  have hn : ¬ sz ≥ T_BLOCKSIZE := by omega
  simp only [th_write_extended, tar_block_write, h, hn, if_false, ne_eq, not_true_eq_false,
    List.append_assoc, List.singleton_append]

theorem cstring_append_nul (s rest : List Nat) (h : 0 ∉ s) : cstring (s ++ 0 :: rest) = s := by
  unfold cstring
  rw [List.takeWhile_append_of_pos]
  · simp
  · intro a ha
    have : a ≠ 0 := fun e => h (e ▸ ha)
    simpa using this

theorem selinux_size (ctx : List Nat) (hlen : ctx.length ≤ 485) :
    25 ≤ bump (estimate SELINUX_TAG ctx) ∧ bump (estimate SELINUX_TAG ctx) < T_BLOCKSIZE ∧
      (recordOf SELINUX_TAG ctx).length = bump (estimate SELINUX_TAG ctx) := by
  have hl : SELINUX_TAG.length = 21 := by decide
  have he : estimate SELINUX_TAG ctx = 25 + ctx.length := by
    simp only [estimate, hl]
    omega
  have hb : bump (estimate SELINUX_TAG ctx) ≤ estimate SELINUX_TAG ctx + 1 := by
    unfold bump
    split_ifs <;> omega
  have hb2 : estimate SELINUX_TAG ctx ≤ bump (estimate SELINUX_TAG ctx) := by
    unfold bump
    split_ifs <;> omega
  refine ⟨by omega, by simp only [T_BLOCKSIZE]; omega, ?_⟩
  exact record_length SELINUX_TAG ctx (by omega) (by omega)

/-- What `th_write` writes for an entry that stores only a SELinux context of at
most 485 characters: one extended header, one data block holding the record, and
the header of the entry. -/
theorem th_write_entrySelinuxOnly (E : Env) (o : Options) (raw ctx : List Nat)
    (ho : o.TAR_STORE_SELINUX = true) (hlen : ctx.length ≤ 485) (h0 : 0 ∉ ctx) :
    (th_write E (entrySelinuxOnly o raw ctx)).1 = 0 ∧
      (th_write E (entrySelinuxOnly o raw ctx)).2.output =
        [Written.header (E.th_finish o (E.th_set_size (setTypeflag raw TH_EXT_TYPE)
            (recordOf SELINUX_TAG ctx).length)),
          Written.data (blockOf [recordOf SELINUX_TAG ctx]),
          Written.header (E.th_finish o (E.th_set_size (setTypeflag (E.th_finish o
            (E.th_set_size (setTypeflag raw TH_EXT_TYPE) (recordOf SELINUX_TAG ctx).length))
            (typeflag raw)) (E.th_get_size raw)))] := by
  obtain ⟨h25, h512, hrl⟩ := selinux_size ctx hlen
  have hc : cstring (ctx ++ [0]) = ctx := cstring_append_nul ctx [] h0
  have e1 : th_write_longlink E (entrySelinuxOnly o raw ctx) =
      Flow.next (entrySelinuxOnly o raw ctx) := by
    simp [th_write_longlink, entrySelinuxOnly, TAR.init, tar_header.zero]
  have e2 : th_write_longname E (entrySelinuxOnly o raw ctx) =
      Flow.next (entrySelinuxOnly o raw ctx) := by
    simp [th_write_longname, entrySelinuxOnly, TAR.init, tar_header.zero]
  have hsz : bump (SELINUX_TAG.length + strlen (ctx ++ [0]) + 3 + 1) =
      bump (estimate SELINUX_TAG ctx) := by
    congr 1
    simp only [estimate, strlen, hc]
    omega
  have e3 : th_write_selinux (entrySelinuxOnly o raw ctx)
      { buf := zeroBlock, ptr := 0, total_sz := 0 } =
      WFlow.next (entrySelinuxOnly o raw ctx)
        { buf := blockOf [recordOf SELINUX_TAG ctx],
          ptr := 0 + bump (estimate SELINUX_TAG ctx),
          total_sz := 0 + bump (estimate SELINUX_TAG ctx) } := by
    have hb := snprintf_step [] zeroBlock 0 (recordOf SELINUX_TAG ctx) rfl rfl
      (by simp only [List.flatten_nil, List.length_nil]; omega)
    simp only [List.nil_append] at hb
    simp only [th_write_selinux, entrySelinuxOnly, TAR.init, ho, hsz, hc]
    rw [← hb]
    rfl
  have e4 : ∀ l, th_write_fscrypt E (entrySelinuxOnly o raw ctx) l =
      WFlow.next (entrySelinuxOnly o raw ctx) l := by
    intro l
    simp [th_write_fscrypt, entrySelinuxOnly, TAR.init, tar_header.zero]
  have e5 : ∀ l, th_write_cap E (entrySelinuxOnly o raw ctx) l =
      WFlow.next (entrySelinuxOnly o raw ctx) l := by
    intro l
    simp [th_write_cap, entrySelinuxOnly, TAR.init, tar_header.zero]
  have e6 : ∀ l, th_write_user_xattr E (entrySelinuxOnly o raw ctx) l =
      WFlow.next (entrySelinuxOnly o raw ctx) l := by
    intro l
    simp [th_write_user_xattr, th_write_user, entrySelinuxOnly, TAR.init, tar_header.zero]
  have hpos : 0 + bump (estimate SELINUX_TAG ctx) > 0 := by omega
  have hx := th_write_extended_nil E (entrySelinuxOnly o raw ctx)
    (blockOf [recordOf SELINUX_TAG ctx]) (0 + bump (estimate SELINUX_TAG ctx)) rfl (by omega)
  simp only [th_write, e1, e2, th_write_ext, e3, e4, e5, e6, th_write_final, if_pos hpos, hx]
  simp only [tar_block_write, ne_eq, not_true_eq_false, if_false, Nat.zero_add, hrl]
  exact ⟨rfl, rfl⟩

theorem strstr_skip (tag : List Nat) (t0 : Nat) (tl : List Nat) (htag : tag = t0 :: tl) :
    ∀ (pre s : List Nat), (∀ c ∈ pre, c ≠ t0) → tag.isPrefixOf s = true →
      strstr (pre ++ s) tag = some pre.length := by
  intro pre
  induction pre with
  | nil =>
    intro s _ hp
    cases s with
    | nil =>
      rw [htag] at hp
      simp [List.isPrefixOf] at hp
    | cons c s =>
      simp only [List.nil_append, strstr, hp, if_true, List.length_nil]
  | cons c pre ih =>
    intro s hc hp
    have hne : tag.isPrefixOf (c :: (pre ++ s)) = false := by
      rw [htag, List.isPrefixOf_cons₂]
      have : t0 ≠ c := fun e => hc c (List.mem_cons_self _ _) e.symm
      simp [this]
    have e : strstr (c :: (pre ++ s)) tag = (if tag.isPrefixOf (c :: (pre ++ s)) then some 0
        else (strstr (pre ++ s) tag).map (fun i => i + 1)) := rfl
    rw [List.cons_append, e, hne, ih s (fun x hx => hc x (List.mem_cons_of_mem _ hx)) hp]
    rfl

theorem strchr_append (c : Nat) (s rest : List Nat) (h : c ∉ s) :
    strchr (s ++ c :: rest) c = some s.length := by
  induction s with
  | nil => simp [strchr]
  | cons d s ih =>
    have hd : d ≠ c := fun e => h (e ▸ List.mem_cons_self _ _)
    have e : strchr (d :: (s ++ c :: rest)) c = (if d = c then some 0
        else (strchr (s ++ c :: rest) c).map (fun i => i + 1)) := rfl
    rw [List.cons_append, e, if_neg hd, ih (fun hx => h (List.mem_cons_of_mem _ hx))]
    rfl

theorem decode_cap_selinux (buf : Block) (h : tar_header) :
    (decode_cap buf h).selinux_context = h.selinux_context := by
  unfold decode_cap
  split
  · split_ifs <;> rfl
  · rfl

theorem decode_user_selinux (buf : Block) (h : tar_header) :
    (decode_user buf h).selinux_context = h.selinux_context := by
  simp only [decode_user]
  split_ifs <;> rfl

theorem decode_fscrypt_selinux (E : Env) (buf : Block) (h : tar_header) :
    (decode_fscrypt E buf h).selinux_context = h.selinux_context := by
  unfold decode_fscrypt
  split_ifs
  · split
    · split_ifs <;> rfl
    · rfl
  · rfl

/-- The data block of one record, read as the decoder reads it. -/
theorem cstring_blockOf (rec : List Nat) (h0 : 0 ∉ rec) (hl : rec.length < T_BLOCKSIZE) :
    (blockOf [rec]).set (T_BLOCKSIZE - 1) 0 = blockOf [rec] ∧
      cstring (blockOf [rec]) = rec := by
  simp only [T_BLOCKSIZE] at hl
  simp only [blockOf, List.flatten_cons, List.flatten_nil, List.append_nil, T_BLOCKSIZE]
  constructor
  · rw [List.set_append_right _ _ (by omega), List.set_replicate_self]
  · obtain ⟨k, hk⟩ : ∃ k, 512 - rec.length = k + 1 := ⟨512 - rec.length - 1, by omega⟩
    rw [hk, List.replicate_succ]
    exact cstring_append_nul rec _ h0

theorem decode_ext_selinux (E : Env) (ctx : List Nat) (h : tar_header)
    (hlen : ctx.length ≤ 485) (h0 : 0 ∉ ctx) (h10 : 10 ∉ ctx) :
    (decode_ext E (blockOf [recordOf SELINUX_TAG ctx]) h).selinux_context = some (ctx ++ [0]) := by
  obtain ⟨h25, h512, hrl⟩ := selinux_size ctx hlen
  have hdig := decimal_digits (bump (estimate SELINUX_TAG ctx)) (by omega)
    (by simp only [T_BLOCKSIZE] at h512; omega)
  have hrec0 : 0 ∉ recordOf SELINUX_TAG ctx := by
    intro hm
    simp only [recordOf, List.mem_append, List.mem_singleton] at hm
    rcases hm with (((hm | hm) | hm) | hm) | hm
    · have := hdig 0 hm
      omega
    · omega
    · revert hm
      decide
    · exact h0 hm
    · omega
  obtain ⟨hset, hcs⟩ := cstring_blockOf (recordOf SELINUX_TAG ctx) hrec0 (by rw [hrl]; exact h512)
  simp only [decode_ext]
  rw [hset, decode_fscrypt_selinux, decode_user_selinux]
  have hstr : strstr (recordOf SELINUX_TAG ctx) SELINUX_TAG =
      some (decimal (bump (estimate SELINUX_TAG ctx)) ++ [32]).length := by
    have e : recordOf SELINUX_TAG ctx = (decimal (bump (estimate SELINUX_TAG ctx)) ++ [32]) ++
        (SELINUX_TAG ++ (ctx ++ [10])) := by
      simp only [recordOf, List.append_assoc]
    rw [e]
    refine strstr_skip SELINUX_TAG 82 SELINUX_TAG.tail (by decide) _ _ ?_ ?_
    · intro c hc
      simp only [List.mem_append, List.mem_singleton] at hc
      rcases hc with hc | hc
      · have := hdig c hc
        omega
      · omega
    · rw [List.isPrefixOf_iff_prefix]
      exact List.prefix_append _ _
  have hdrop : (recordOf SELINUX_TAG ctx).drop
      ((decimal (bump (estimate SELINUX_TAG ctx)) ++ [32]).length + SELINUX_TAG.length) =
      ctx ++ [10] := by
    have e : recordOf SELINUX_TAG ctx = (decimal (bump (estimate SELINUX_TAG ctx)) ++ [32] ++
        SELINUX_TAG) ++ (ctx ++ [10]) := by
      simp only [recordOf, List.append_assoc]
    rw [e, ← List.length_append, List.drop_left]
  have hlt : (decimal (bump (estimate SELINUX_TAG ctx)) ++ [32]).length + SELINUX_TAG.length <
      strlen (blockOf [recordOf SELINUX_TAG ctx]) := by
    unfold strlen
    rw [hcs]
    simp only [recordOf, List.length_append, List.length_singleton]
    omega
  simp only [decode_selinux, hcs, hstr, if_pos hlt, hdrop, strchr_append 10 ctx [] h10,
    List.take_left]

/-- Reading an accepted extended header `X` of declared size at most 511, its
data block `D` and an accepted header `H` that is neither an extended nor a policy
header. -/
theorem th_read_ext_pair (E : Env) (t : TAR) (X D H : Block) (rest : List ReadEvent)
    (hin : t.input = ReadEvent.full X :: ReadEvent.full D :: ReadEvent.full H :: rest)
    (hX : accepted E t.options X) (hXt : typeflag X = TH_EXT_TYPE)
    (hH : accepted E t.options H)
    (hHt : typeflag H ≠ TH_EXT_TYPE ∧ typeflag H ≠ TH_POL_TYPE)
    (hsz : E.th_get_size X % (E.SIZE_MAX + 1) ≤ 511) :
    th_read E t = some (0, { t with
      th_buf := { decode_ext E D { tar_header.zero with raw := X } with raw := H },
      input := rest }) := by
  have hsz' : ¬ E.th_get_size X % (E.SIZE_MAX + 1) ≥ T_BLOCKSIZE := by
    simp only [T_BLOCKSIZE]
    omega
  have e1 : ¬ (TH_EXT_TYPE = GNU_LONGLINK_TYPE) := by decide
  have e2 : ¬ (TH_EXT_TYPE = GNU_LONGNAME_TYPE) := by decide
  simp only [th_read, th_read_internal, hin, th_read_internal_loop_accepted E t.options X hX,
    th_read_internal_loop_accepted E t.options H hH, th_read_longlink, th_read_longname,
    TH_ISLONGLINK, TH_ISLONGNAME, TH_ISEXTHEADER, TH_ISPOLHEADER, hXt, e1, e2, if_false,
    List.length_cons, th_read_ext_loop, th_read_ext_block, hsz', tar_block_read, hHt.1, hHt.2,
    true_or, or_self, if_true]
  simp

/-- C19. Under the modelled libtar declarations: take an entry whose header block
is well formed, with a first byte that is not NUL and a type flag that is neither
the extended nor the policy type, and whose only optional field is a SELinux
context of at most 485 bytes that holds no NUL and no newline.  Then `th_write`
under any options with `TAR_STORE_SELINUX` succeeds, and reading the written
blocks back, under any reader options that do not combine the version check with
a writer under `TAR_GNU`, succeeds, consumes every block and yields the context as
it was stored. -/
theorem th_read_th_write_selinux (w : Nat) (f : Bool) (ps : Nat) (o ro : Options)
    (raw ctx : List Nat) (hraw : isBlock raw) (hname : name0 raw ≠ 0)
    (hty : typeflag raw ≠ TH_EXT_TYPE ∧ typeflag raw ≠ TH_POL_TYPE)
    (ho : o.TAR_STORE_SELINUX = true) (hver : ro.TAR_CHECK_VERSION = true → o.TAR_GNU = false)
    (hlen : ctx.length ≤ 485) (h0 : 0 ∉ ctx) (h10 : 10 ∉ ctx) :
    (th_write (libtar w f ps) (entrySelinuxOnly o raw ctx)).1 = 0 ∧
      ∃ t', readBack (libtar w f ps) ro (entrySelinuxOnly o raw ctx) = some (0, t') ∧
        t'.th_buf.selinux_context = some (ctx ++ [0]) ∧ t'.input = [] := by
  obtain ⟨hw1, hout⟩ := th_write_entrySelinuxOnly (libtar w f ps) o raw ctx ho hlen h0
  obtain ⟨h25, h512, hrl⟩ := selinux_size ctx hlen
  refine ⟨hw1, ?_⟩
  -- the blocks written
  have b1 : isBlock (th_set_size (setTypeflag raw TH_EXT_TYPE) (recordOf SELINUX_TAG ctx).length) :=
    isBlock_th_set_size _ _ (isBlock_setTypeflag _ _ hraw (by decide))
  have n1 : name0 (th_set_size (setTypeflag raw TH_EXT_TYPE) (recordOf SELINUX_TAG ctx).length)
      ≠ 0 := by
    rw [name0_th_set_size _ _ (by rw [length_setTypeflag]; exact hraw.1),
      name0_setTypeflag _ _ hraw.1]
    exact hname
  have bX := (th_finish_spec o _ b1).1
  have hs := ext_header_spec o raw (recordOf SELINUX_TAG ctx).length hraw.1 (by rw [hrl]; exact h512)
  have b2 : isBlock (th_set_size (setTypeflag (th_finish o (th_set_size
      (setTypeflag raw TH_EXT_TYPE) (recordOf SELINUX_TAG ctx).length)) (typeflag raw))
      (th_get_size raw)) :=
    isBlock_th_set_size _ _ (isBlock_setTypeflag _ _ bX (typeflag_lt raw hraw))
  have hk := HdrOK_restore o raw raw TH_EXT_TYPE (recordOf SELINUX_TAG ctx).length
    (th_get_size raw) ⟨hraw.1, rfl, rfl⟩
  have hX := accepted_th_finish w f ps ro o _ b1 n1 hver
  have hF := accepted_th_finish w f ps ro o _ b2 (by rw [hk.2.2]; exact hname) hver
  have hFt : typeflag (th_finish o (th_set_size (setTypeflag (th_finish o (th_set_size
      (setTypeflag raw TH_EXT_TYPE) (recordOf SELINUX_TAG ctx).length)) (typeflag raw))
      (th_get_size raw))) = typeflag raw := by
    rw [typeflag_th_finish _ _ hk.1, hk.2.1]
  have hsz : (libtar w f ps).th_get_size (th_finish o (th_set_size (setTypeflag raw TH_EXT_TYPE)
      (recordOf SELINUX_TAG ctx).length)) % ((libtar w f ps).SIZE_MAX + 1) ≤ 511 := by
    have e : (libtar w f ps).th_get_size (th_finish o (th_set_size (setTypeflag raw TH_EXT_TYPE)
      (recordOf SELINUX_TAG ctx).length)) = (recordOf SELINUX_TAG ctx).length := hs.2
    rw [e, hrl]
    simp only [T_BLOCKSIZE] at h512
    exact le_trans (Nat.mod_le _ _) (by omega)
  have hr := th_read_ext_pair (libtar w f ps)
    (TAR.init ro tar_header.zero (th_write (libtar w f ps) (entrySelinuxOnly o raw ctx)).2.written)
    _ _ _ [] (by rw [TAR.written, hout]; rfl) hX hs.1 hF (by rw [hFt]; exact hty) hsz
  refine ⟨_, hr, ?_, rfl⟩
  exact decode_ext_selinux (libtar w f ps) ctx _ hlen h0 h10

/-! ## C11: truncation inside an entry -/

set_option maxRecDepth 100000 in
/-- C11 (counterexample). A long-name header with its data block is followed by a
long-link header and the stream ends there, before any real header: `th_read`
returns success (0) with the long-link sentinel header in the buffer, not -1. -/
theorem th_read_success_before_real_header :
    (th_read env64 readerNameThenLinkEnd).map
        (fun r => (r.1, typeflag r.2.th_buf.raw, r.2.input)) =
      some (0, GNU_LONGLINK_TYPE, []) := by
  decide

/-- C11 (amended). Whatever `th_read` returns is 0, 1 or -1; it returns 1 exactly
when the first header read of the call reports end of archive; and it returns 0
only when every read of the call delivered a full block and the last block
consumed is a header that passed the enabled checks and is neither an extended nor
a policy header.  So once the first header was read, a short read, a zero-length
read, an end of archive or a failed check in the same call gives -1. -/
theorem th_read_truncation_fatal (E : Env) (t : TAR) (r : Int) (t' : TAR)
    (h : th_read E t = some (r, t')) :
    (r = 0 ∨ r = 1 ∨ r = -1) ∧
      (r = 1 ↔ (th_read_internal E { t with th_buf := tar_header.zero }).1 = 0) ∧
      (r = 0 → ∃ c, t.input = c ++ ReadEvent.full t'.th_buf.raw :: t'.input ∧ allFull c ∧
        accepted E t.options t'.th_buf.raw ∧
        ¬ TH_ISEXTHEADER t'.th_buf ∧ ¬ TH_ISPOLHEADER t'.th_buf) := by
  obtain ⟨-, h1, h2⟩ := Tr_th_read E t r t' h
  refine ⟨h1, th_read_one_iff E t r t' h, ?_⟩
  intro h0
  subst h0
  obtain ⟨-, c, hc, hf, ha⟩ := AfterHeader_th_read E t t' h
  exact ⟨c, hc, hf, ha, h2 rfl⟩

set_option maxRecDepth 100000 in
/-- Witness of C11: the stream ends after an extended header and its data block;
`th_read` returns -1. -/
theorem th_read_truncation_fatal_witness :
    th_read env64 readerExtTruncated = some (-1, readerExtTruncatedDone) ∧
      ((-1 : Int) = 0 ∨ (-1 : Int) = 1 ∨ (-1 : Int) = -1) ∧
      ((-1 : Int) = 1 ↔
        (th_read_internal env64 { readerExtTruncated with th_buf := tar_header.zero }).1 = 0) :=
  ⟨by decide,
    (th_read_truncation_fatal env64 readerExtTruncated (-1) readerExtTruncatedDone (by decide)).1,
    (th_read_truncation_fatal env64 readerExtTruncated (-1) readerExtTruncatedDone
      (by decide)).2.1⟩

/-! ## C12, C13, C14: the layout of the written blocks -/

/-- C12. Under the modelled libtar declarations, for every handle whose header
buffer is a 512-byte block and on which `th_write` succeeds, the blocks appended
are, in this order: the long-link part (a header with the long-link sentinel type
and its data blocks when `TAR_GNU` is set and a long link is set, nothing
otherwise), the long-name part (likewise), a sequence of pairs of one header with
the extended type flag and one data block, and one header block with the type flag
and first byte of the entry; with no option bit set, the one block appended is the
finished header of the entry. -/
theorem th_write_block_order (w : Nat) (f : Bool) (ps : Nat) (t : TAR)
    (hl : t.th_buf.raw.length = 512) (hok : (th_write (libtar w f ps) t).1 = 0) :
    (∃ pairs, layout t (th_write (libtar w f ps) t).2.output pairs ∧
        ∀ p ∈ pairs, typeflag p.1 = TH_EXT_TYPE) ∧
      (t.options = {} → (th_write (libtar w f ps) t).2.output =
        t.output ++ [Written.header (th_finish {} t.th_buf.raw)]) := by
  obtain ⟨K, L, pairs, F, ho, hK, hL, hg, h1, h2, -⟩ := th_write_shape w f ps t hl hok
  exact ⟨⟨pairs, ⟨K, L, F, ho, hK, hL, h1, h2⟩, fun p hp => (hg p hp).1⟩,
    fun h0 => th_write_no_options (libtar w f ps) t h0 hok⟩

set_option maxRecDepth 100000 in
/-- Witness of C12: the entry with every extension, written with every store option
and `TAR_GNU`. -/
theorem th_write_block_order_witness :
    (entryFull samplePolicy sampleCapEffective).th_buf.raw.length = 512 ∧
      (th_write env64 (entryFull samplePolicy sampleCapEffective)).1 = 0 ∧
      ∃ pairs, layout (entryFull samplePolicy sampleCapEffective)
          (th_write env64 (entryFull samplePolicy sampleCapEffective)).2.output pairs ∧
        ∀ p ∈ pairs, typeflag p.1 = TH_EXT_TYPE :=
  ⟨by decide, by decide,
    (th_write_block_order 64 true 12 (entryFull samplePolicy sampleCapEffective) (by decide)
      (by decide)).1⟩

/-- C13. Under the modelled libtar declarations, for every handle whose header
buffer is a 512-byte block and on which `th_write` succeeds, every record of every
data block of an extended pair starts with the decimal number of its own length
(digits, one blank, tag, payload and newline), that length is the two-digit
estimate increased by one exactly when the estimate is 100 or more, and it is
below 1000. -/
theorem th_write_record_length_exact (w : Nat) (f : Bool) (ps : Nat) (t : TAR)
    (hl : t.th_buf.raw.length = 512) (hok : (th_write (libtar w f ps) t).1 = 0) :
    ∃ pairs, layout t (th_write (libtar w f ps) t).2.output pairs ∧
      ∀ p ∈ pairs, ∀ r ∈ p.2, ∃ tag payload, tag ∈ knownTags ∧
        r = decimal r.length ++ [32] ++ tag ++ payload ++ [10] ∧
        r.length = (if estimate tag payload ≥ 100 then estimate tag payload + 1
          else estimate tag payload) ∧
        r.length < 1000 := by
  obtain ⟨K, L, pairs, F, ho, hK, hL, hg, h1, h2, -⟩ := th_write_shape w f ps t hl hok
  refine ⟨pairs, ⟨K, L, F, ho, hK, hL, h1, h2⟩, ?_⟩
  intro p hp r hr
  obtain ⟨-, -, hrec, hlen, -⟩ := hg p hp
  obtain ⟨tag, payload, htag, hform, hb⟩ := hrec r hr
  refine ⟨tag, payload, htag, hform, hb, ?_⟩
  have h3 : r.length ≤ p.2.flatten.length := by
    rw [List.length_flatten]
    exact List.single_le_sum (fun _ _ => Nat.zero_le _) _ (List.mem_map_of_mem _ hr)
  simp only [T_BLOCKSIZE] at hlen
  omega

set_option maxRecDepth 100000 in
/-- Witness of C13: an entry with a SELinux context of 75 letters, whose record
needs three digits. -/
theorem th_write_record_length_exact_witness :
    (entrySelinux 75).th_buf.raw.length = 512 ∧ (th_write env64 (entrySelinux 75)).1 = 0 ∧
      ∃ pairs, layout (entrySelinux 75) (th_write env64 (entrySelinux 75)).2.output pairs ∧
        ∀ p ∈ pairs, ∀ r ∈ p.2, ∃ tag payload, tag ∈ knownTags ∧
          r = decimal r.length ++ [32] ++ tag ++ payload ++ [10] ∧
          r.length = (if estimate tag payload ≥ 100 then estimate tag payload + 1
            else estimate tag payload) ∧
          r.length < 1000 :=
  ⟨by decide, by decide,
    th_write_record_length_exact 64 true 12 (entrySelinux 75) (by decide) (by decide)⟩

set_option maxRecDepth 100000 in
/-- C14 (counterexample). For an entry whose SELinux context has 485 letters
`th_write` succeeds and the extended header declares the size 511, which is not
strictly less than 511. -/
theorem th_write_ext_header_size_511 :
    (th_write env64 (entrySelinux 485)).1 = 0 ∧
      headerSummary (th_write env64 (entrySelinux 485)).2.output =
        [some (TH_EXT_TYPE, 511), none, some (48, 0)] := by
  decide

/-- C14 (amended). Under the modelled libtar declarations, for every handle whose
header buffer is a 512-byte block and on which `th_write` succeeds, every header
of an extended pair carries the extended type flag and declares the total length
of the records of the one data block that follows it, which holds at least one
record, and that size is at most 511. -/
theorem th_write_ext_header_bound (w : Nat) (f : Bool) (ps : Nat) (t : TAR)
    (hl : t.th_buf.raw.length = 512) (hok : (th_write (libtar w f ps) t).1 = 0) :
    ∃ pairs, layout t (th_write (libtar w f ps) t).2.output pairs ∧
      ∀ p ∈ pairs, typeflag p.1 = TH_EXT_TYPE ∧ p.2 ≠ [] ∧
        th_get_size p.1 = p.2.flatten.length ∧ th_get_size p.1 ≤ 511 := by
  obtain ⟨K, L, pairs, F, ho, hK, hL, hg, h1, h2, -⟩ := th_write_shape w f ps t hl hok
  refine ⟨pairs, ⟨K, L, F, ho, hK, hL, h1, h2⟩, ?_⟩
  intro p hp
  obtain ⟨ht, hne, -, hlen, hsz⟩ := hg p hp
  refine ⟨ht, hne, hsz, ?_⟩
  simp only [T_BLOCKSIZE] at hlen
  omega

set_option maxRecDepth 100000 in
/-- Witness of C14: an entry with a SELinux context of 460 letters and a capability
record, written as two extended pairs. -/
theorem th_write_ext_header_bound_witness :
    (entrySelinuxCap 460 sampleCap).th_buf.raw.length = 512 ∧
      (th_write env64 (entrySelinuxCap 460 sampleCap)).1 = 0 ∧
      ∃ pairs, layout (entrySelinuxCap 460 sampleCap)
          (th_write env64 (entrySelinuxCap 460 sampleCap)).2.output pairs ∧
        ∀ p ∈ pairs, typeflag p.1 = TH_EXT_TYPE ∧ p.2 ≠ [] ∧
          th_get_size p.1 = p.2.flatten.length ∧ th_get_size p.1 ≤ 511 :=
  ⟨by decide, by decide,
    th_write_ext_header_bound 64 true 12 (entrySelinuxCap 460 sampleCap) (by decide)
      (by decide)⟩

/-! ## C15 to C18 and C20: failing inputs and the results of the reader -/

set_option maxRecDepth 100000 in
/-- C15 (failing input). For an entry whose long name is the empty string,
`th_write` under `TAR_GNU` succeeds and writes the long-name sentinel header with
the size 0, then one data block (all zero), then the real header: one data block,
where the number of continuation blocks for the length 0 is 0. -/
theorem th_write_empty_longname_one_block :
    strlen (aString 0) = 0 ∧ blocksOf 0 = 0 ∧
      (th_write env64 (entryLongName 0)).1 = 0 ∧
      (th_write env64 (entryLongName 0)).2.output =
        [Written.header (sampleHeader { TAR_GNU := true } GNU_LONGNAME_TYPE 0),
          Written.data zeroBlock,
          Written.header (th_finish { TAR_GNU := true } (th_set_size (setTypeflag
            (sampleHeader { TAR_GNU := true } GNU_LONGNAME_TYPE 0) 48) 0))] := by
  decide

set_option maxRecDepth 100000 in
/-- C16 (counterexample). A full block that fails the checksum check and a read
that delivers 100 bytes only: `th_read_internal` tells them apart (-2 and 100),
`th_read` returns -1 with `errno` set to `EINVAL` for both. -/
theorem th_read_same_result_for_format_and_short :
    (th_read_internal env64 readerBadChecksum).1 = -2 ∧
      (th_read_internal env64 readerShort).1 = 100 ∧
      (th_read env64 readerBadChecksum).map (fun r => (r.1, r.2.errno)) =
        some (-1, Errno.EINVAL) ∧
      (th_read env64 readerShort).map (fun r => (r.1, r.2.errno)) =
        some (-1, Errno.EINVAL) := by
  decide

/-- C16 (amended). When the first block read is a full block whose first byte is
not NUL and that fails an enabled check, `th_read_internal` returns -2; when the
first read delivers `n` bytes with 0 < n < 512, `th_read_internal` returns `n`; in
both cases `th_read` returns -1 with `errno` set to `EINVAL`, so the two are told
apart by the result of `th_read_internal` only. -/
theorem th_read_internal_tells_apart (E : Env) (t : TAR) (rest : List ReadEvent) :
    (∀ b, t.input = ReadEvent.full b :: rest → name0 b ≠ 0 → ¬ accepted E t.options b →
        (th_read_internal E t).1 = -2 ∧
        (th_read E t).map (fun r => (r.1, r.2.errno)) = some (-1, Errno.EINVAL)) ∧
      (∀ n : Fin 512, t.input = ReadEvent.short n :: rest → 0 < n.val →
        (th_read_internal E t).1 = n.val ∧
        (th_read E t).map (fun r => (r.1, r.2.errno)) = some (-1, Errno.EINVAL)) := by
  constructor
  · intro b hin hn ha
    have hl : ∀ h : tar_header, (th_read_internal_loop E t.options 0 h t.input).1 = -2 := by
      intro h
      rw [hin]
      simp only [th_read_internal_loop, if_neg hn]
      unfold accepted at ha
      split_ifs with h1 h2 h3
      · rfl
      · rfl
      · rfl
      · exact absurd ⟨hn, h1, h2, h3⟩ ha
    refine ⟨by simp only [th_read_internal]; exact hl _, ?_⟩
    have h1 : (th_read_internal E { t with th_buf := tar_header.zero }).1 = -2 := by
      simp only [th_read_internal]
      exact hl _
    simp only [th_read, h1, io_fail]
    simp
  · intro n hin hpos
    have hl : ∀ h : tar_header, (th_read_internal_loop E t.options 0 h t.input).1 = n.val := by
      intro h
      rw [hin]
      simp only [th_read_internal_loop]
    refine ⟨by simp only [th_read_internal]; exact hl _, ?_⟩
    have h1 : (th_read_internal E { t with th_buf := tar_header.zero }).1 = n.val := by
      simp only [th_read_internal]
      exact hl _
    have h2 : ¬ ((n.val : Int) = 0) := by omega
    have h3 : (n.val : Int) ≠ 512 := by
      have := n.isLt
      omega
    have h4 : (n.val : Int) ≠ -1 := by omega
    simp only [th_read, h1, io_fail, if_neg h2, if_pos h3, if_pos h4]
    simp

set_option maxRecDepth 100000 in
/-- Witness of C16: the block with a wrong checksum and the read of 100 bytes. -/
theorem th_read_internal_tells_apart_witness :
    ((th_read_internal env64 readerBadChecksum).1 = -2 ∧
        (th_read env64 readerBadChecksum).map (fun r => (r.1, r.2.errno)) =
          some (-1, Errno.EINVAL)) ∧
      ((th_read_internal env64 readerShort).1 = ((100 : Fin 512).val : Int) ∧
        (th_read env64 readerShort).map (fun r => (r.1, r.2.errno)) =
          some (-1, Errno.EINVAL)) :=
  ⟨(th_read_internal_tells_apart env64 readerBadChecksum []).1 (plainHeader.set 10 65) rfl
      (by decide) (by decide),
    (th_read_internal_tells_apart env64 readerShort []).2 100 rfl (by decide)⟩

set_option maxRecDepth 100000 in
/-- C17 (failing input). A block whose first byte is zero and whose next bytes are
not: with the magic, version and checksum checks enabled `th_read_internal` skips
it without any check and accepts the header that follows; two such blocks are
taken for the end of the archive; the same bytes without the leading zero fail the
checks. -/
theorem th_read_internal_skips_leading_zero_block :
    (∃ x ∈ leadingZeroBlock, x ≠ 0) ∧
      ¬ accepted env64 allChecks (dataBlock (lit "garbage")) ∧
      (th_read_internal env64 (TAR.init allChecks tar_header.zero
          (fullBlocks [dataBlock (lit "garbage"), nextHeader]))).1 = -2 ∧
      th_read_internal env64 (TAR.init allChecks tar_header.zero
          (fullBlocks [leadingZeroBlock, nextHeader])) =
        (512, TAR.init allChecks { tar_header.zero with raw := nextHeader } []) ∧
      th_read_internal env64 (TAR.init allChecks tar_header.zero
          (fullBlocks [leadingZeroBlock, leadingZeroBlock, nextHeader])) =
        (0, TAR.init allChecks { tar_header.zero with raw := leadingZeroBlock }
          (fullBlocks [nextHeader])) := by
  refine ⟨⟨103, by decide, by decide⟩, by decide, by decide, by decide, by decide⟩

set_option maxRecDepth 100000 in
/-- C18 (failing input). An entry that stores only a capability record whose
first byte is zero: `th_write` emits the record with the 20 bytes, and reading the
blocks back succeeds with `has_cap_data` not set and `cap_data` all zero; with the
first byte 1 the record is read back. -/
theorem th_read_drops_cap_with_leading_zero :
    (th_write env64 (entryCap sampleCap)).2.output.map (fun x => (Written.block x).take 60) =
        [(sampleHeader { TAR_STORE_POSIX_CAP := true } TH_EXT_TYPE 57).take 60,
          lit "57 SCHILY.xattr.security.capability=" ++ sampleCap ++ [10, 0, 0, 0],
          (th_finish { TAR_STORE_POSIX_CAP := true } (th_set_size (setTypeflag
            (sampleHeader { TAR_STORE_POSIX_CAP := true } TH_EXT_TYPE 57) 48) 0)).take 60] ∧
      (readBack env64 {} (entryCap sampleCap)).map
          (fun r => (r.1, r.2.th_buf.has_cap_data, r.2.th_buf.cap_data)) =
        some (0, false, List.replicate 20 0) ∧
      (readBack env64 {} (entryCap sampleCapEffective)).map
          (fun r => (r.1, r.2.th_buf.has_cap_data, r.2.th_buf.cap_data)) =
        some (0, true, sampleCapEffective) := by
  refine ⟨by decide, by decide, by decide⟩

set_option maxRecDepth 100000 in
/-- C20 (failing input). One data block holding a well-formed SELinux record and a
well-formed capability record: with the SELinux record first both are decoded,
with the capability record first the SELinux context is not decoded. -/
theorem decode_ext_depends_on_order :
    extFields (decode_ext env64
        (dataBlock (recordOf SELINUX_TAG (lit "abc") ++
          recordOf CAPABILITIES_TAG sampleCapEffective)) tar_header.zero) =
      extFields { tar_header.zero with
        selinux_context := some (lit "abc" ++ [0]), has_cap_data := true,
        cap_data := sampleCapEffective } ∧
    extFields (decode_ext env64
        (dataBlock (recordOf CAPABILITIES_TAG sampleCapEffective ++
          recordOf SELINUX_TAG (lit "abc"))) tar_header.zero) =
      extFields { tar_header.zero with
        has_cap_data := true, cap_data := sampleCapEffective } := by
  refine ⟨by decide, by decide⟩

/-! ## C19: witness of the SELinux round trip -/

set_option maxRecDepth 100000 in
/-- Witness of C19: a context of 75 letters, the shortest whose record needs three
digits, written with `TAR_STORE_SELINUX` only and read back with the magic, version
and checksum checks enabled. -/
theorem th_read_th_write_selinux_witness :
    isBlock sampleRaw ∧ name0 sampleRaw ≠ 0 ∧
      (typeflag sampleRaw ≠ TH_EXT_TYPE ∧ typeflag sampleRaw ≠ TH_POL_TYPE) ∧
      (List.replicate 75 97).length ≤ 485 ∧ 0 ∉ List.replicate 75 97 ∧
      10 ∉ List.replicate 75 97 ∧
      (th_write env64 (entrySelinuxOnly { TAR_STORE_SELINUX := true } sampleRaw
          (List.replicate 75 97))).1 = 0 ∧
      ∃ t', readBack env64 allChecks (entrySelinuxOnly { TAR_STORE_SELINUX := true } sampleRaw
            (List.replicate 75 97)) = some (0, t') ∧
        t'.th_buf.selinux_context = some (List.replicate 75 97 ++ [0]) ∧ t'.input = [] :=
  ⟨by decide, by decide, by decide, by decide, by decide, by decide,
    th_read_th_write_selinux 64 true 12 { TAR_STORE_SELINUX := true } allChecks sampleRaw
      (List.replicate 75 97) (by decide) (by decide) (by decide) rfl (fun _ => rfl) (by decide)
      (by decide) (by decide)⟩

/-! ## C21, C22, C26, C27: failing inputs -/

set_option maxRecDepth 100000 in
/-- C21 (failing input). On a build with `USE_FSCRYPT`, a fresh handle reads an
extended header whose data block carries the encryption-policy tag with the
selector 1: `th_read` returns success with the next header and decodes no policy,
but `fep` is left pointing to a policy object that was allocated and never
written, so the policy is not absent; on a build without `USE_FSCRYPT` it is. -/
theorem th_read_bad_selector_policy_not_absent :
    th_read env64 readerBadSelectorFresh =
        some (0, TAR.init {} { tar_header.zero with raw := nextHeader, fep := Fep.fresh } []) ∧
      Fep.fresh ≠ Fep.null ∧
      th_read env64NoFscrypt readerBadSelectorFresh =
        some (0, TAR.init {} { tar_header.zero with raw := nextHeader } []) := by
  refine ⟨by decide, by decide, by decide⟩

set_option maxRecDepth 100000 in
/-- C22 (failing input). For an entry whose SELinux context has 486 letters, the
SELinux section leaves `total_sz` at 512 without any test, the final flush calls
`th_write_extended` with that size, and `th_write` returns -1 with `errno` set to
`EINVAL`, nothing written, and the type flag of the header in memory left at the
extended sentinel; with 485 letters the call succeeds. -/
theorem th_write_reaches_size_guard :
    th_write_selinux (entrySelinux 486) { buf := zeroBlock, ptr := 0, total_sz := 0 } =
        WFlow.next (entrySelinux 486)
          { buf := (lit "512 RHT.security.selinux=" ++ List.replicate 486 97).take 511 ++ [0],
            ptr := 512, total_sz := 512 } ∧
      (th_write_extended env64 (entrySelinux 486)
        ((lit "512 RHT.security.selinux=" ++ List.replicate 486 97).take 511 ++ [0]) 512).1 = -1 ∧
      (th_write env64 (entrySelinux 486)).1 = -1 ∧
      (th_write env64 (entrySelinux 486)).2.errno = Errno.EINVAL ∧
      (th_write env64 (entrySelinux 486)).2.output = [] ∧
      typeflag (entrySelinux 486).th_buf.raw = 48 ∧
      typeflag (th_write env64 (entrySelinux 486)).2.th_buf.raw = TH_EXT_TYPE ∧
      (th_write env64 (entrySelinux 485)).1 = 0 := by
  refine ⟨by decide, by decide, by decide, by decide, by decide, by decide, by decide, by decide⟩

set_option maxRecDepth 100000 in
/-- C26 (failing input). Two entries that store a SELinux context only, with no
Android flag and no capability record: when the context is the text of the
user.default tag, reading the written blocks back sets `has_user_default`; when it
holds the text of the capabilities tag, reading back sets `has_cap_data` and fills
`cap_data` with the bytes that follow. -/
theorem th_read_invents_metadata :
    (entrySelinuxOnly { TAR_STORE_SELINUX := true } sampleRaw
        (lit "ANDROID.user.default")).th_buf.has_user_default = false ∧
      (readBack env64 {} (entrySelinuxOnly { TAR_STORE_SELINUX := true } sampleRaw
          (lit "ANDROID.user.default"))).map
          (fun r => (r.1, r.2.th_buf.has_user_default, r.2.th_buf.selinux_context)) =
        some (0, true, some (lit "ANDROID.user.default" ++ [0])) ∧
      (entrySelinuxOnly { TAR_STORE_SELINUX := true } sampleRaw
        (lit "SCHILY.xattr.security.capability=abc")).th_buf.has_cap_data = false ∧
      (readBack env64 {} (entrySelinuxOnly { TAR_STORE_SELINUX := true } sampleRaw
          (lit "SCHILY.xattr.security.capability=abc"))).map
          (fun r => (r.1, r.2.th_buf.has_cap_data, r.2.th_buf.cap_data.take 4)) =
        some (0, true, lit "abc\n") := by
  refine ⟨by decide, by decide, by decide, by decide⟩

set_option maxRecDepth 100000 in
/-- C27 (failing input). A data block in which the capabilities tag ends at offset
509 and offset 510 is not NUL: the test of line 303 holds and `memcpy` copies the
offsets 510 to 529, of which the block holds two.  A data block in which the
encryption-policy tag ends at offset 509 and the selector `0` is at offset 510:
`memcpy` copies the offsets 511 to 522 and the byte inspected as newline is at
offset 523. -/
theorem decode_ext_reads_past_block :
    capTagAtEnd.length = 512 ∧ capTagAtEnd.set (T_BLOCKSIZE - 1) 0 = capTagAtEnd ∧
      cap_copy_offsets capTagAtEnd = List.range' 510 20 ∧
      (decode_ext env64 capTagAtEnd tar_header.zero).has_cap_data = true ∧
      (decode_ext env64 capTagAtEnd tar_header.zero).cap_data = [120, 0] ∧
      fscryptTagAtEnd.length = 512 ∧
      fscryptTagAtEnd.set (T_BLOCKSIZE - 1) 0 = fscryptTagAtEnd ∧
      fscrypt_copy_offsets env64 fscryptTagAtEnd = some (523, List.range' 511 12) ∧
      (decode_ext env64 fscryptTagAtEnd tar_header.zero).fep = Fep.policy [0] := by
  refine ⟨by decide, by decide, by decide, by decide, by decide, by decide, by decide,
    by decide, by decide⟩

/-! ## C25: padding with the end-of-archive check disabled -/

theorem th_read_internal_loop_padding (E : Env) (o : Options) (H : Block)
    (rest : List ReadEvent) (ho : o.TAR_IGNORE_EOT = true) (hH : accepted E o H) (k : Nat) :
    ∀ (n : Nat) (h : tar_header),
      th_read_internal_loop E o n h
          (fullBlocks (List.replicate k zeroBlock) ++ ReadEvent.full H :: rest) =
        (512, { h with raw := H }, rest) := by
  induction k with
  | zero =>
    intro n h
    exact th_read_internal_loop_accepted E o H hH n h rest
  | succ k ih =>
    intro n h
    have e : fullBlocks (List.replicate (k + 1) zeroBlock) ++ ReadEvent.full H :: rest =
        ReadEvent.full zeroBlock ::
          (fullBlocks (List.replicate k zeroBlock) ++ ReadEvent.full H :: rest) := by
      simp [fullBlocks, List.replicate_succ]
    have hz : name0 zeroBlock = 0 := by decide
    have hne : ¬ (o.TAR_IGNORE_EOT = false ∧ n + 1 ≥ 2) := by
      rintro ⟨h1, -⟩
      rw [ho] at h1
      exact absurd h1 (by decide)
    rw [e]
    simp only [th_read_internal_loop, hz, if_true, if_neg hne]
    rw [ih]

/-- C25. With `TAR_IGNORE_EOT` set, for every number `k` of zero blocks followed by
a header `H` that passes the enabled checks and is not a long-link, long-name,
extended or policy header, `th_read` returns success with `H` in the header buffer
and with exactly the `k` zero blocks and `H` consumed. -/
theorem th_read_skips_padding (E : Env) (t : TAR) (k : Nat) (H : Block)
    (rest : List ReadEvent) (ho : t.options.TAR_IGNORE_EOT = true)
    (hin : t.input = fullBlocks (List.replicate k zeroBlock) ++ ReadEvent.full H :: rest)
    (hH : accepted E t.options H)
    (hty : typeflag H ≠ GNU_LONGLINK_TYPE ∧ typeflag H ≠ GNU_LONGNAME_TYPE ∧
      typeflag H ≠ TH_EXT_TYPE ∧ typeflag H ≠ TH_POL_TYPE) :
    th_read E t = some (0, { t with th_buf := { tar_header.zero with raw := H },
                                    input := rest }) := by
  simp only [th_read, th_read_internal, hin,
    th_read_internal_loop_padding E t.options H rest ho hH k, th_read_longlink,
    th_read_longname, TH_ISLONGLINK, TH_ISLONGNAME, TH_ISEXTHEADER, TH_ISPOLHEADER, hty.1,
    hty.2.1, hty.2.2.1, hty.2.2.2, if_false, th_read_ext_loop, or_self]
  simp

set_option maxRecDepth 100000 in
/-- Witness of C25: three zero blocks and the header of next.txt. -/
theorem th_read_skips_padding_witness :
    readerPadded.options.TAR_IGNORE_EOT = true ∧
      accepted env64 readerPadded.options nextHeader ∧
      th_read env64 readerPadded =
        some (0, { readerPadded with th_buf := { tar_header.zero with raw := nextHeader },
                                     input := [] }) :=
  ⟨rfl, by decide,
    th_read_skips_padding env64 readerPadded 3 nextHeader [] rfl rfl (by decide) (by decide)⟩

/-! ## C24: the type flag and size of the header in memory -/

theorem HInv_restore (o : Options) (raw : Block) (ty sz : Nat) (hl : raw.length = 512)
    (hs : ∀ b : Block, b.length = 512 →
      th_get_size (th_set_size b (th_get_size raw)) = th_get_size raw) :
    (th_set_size (setTypeflag (th_finish o (th_set_size (setTypeflag raw ty) sz))
        (typeflag raw)) (th_get_size raw)).length = 512 ∧
      typeflag (th_set_size (setTypeflag (th_finish o (th_set_size (setTypeflag raw ty) sz))
        (typeflag raw)) (th_get_size raw)) = typeflag raw ∧
      th_get_size (th_set_size (setTypeflag (th_finish o (th_set_size (setTypeflag raw ty) sz))
        (typeflag raw)) (th_get_size raw)) = th_get_size raw := by
  have hk := HdrOK_restore o raw raw ty sz (th_get_size raw) ⟨hl, rfl, rfl⟩
  refine ⟨hk.1, hk.2.1, hs _ ?_⟩
  rw [length_setTypeflag, length_th_finish, length_th_set_size, length_setTypeflag, hl]

theorem HInv_th_write_extended (w : Nat) (f : Bool) (ps : Nat) (ty0 s0 : Nat) (t : TAR)
    (buf : Block) (sz : Nat) (hs : ∀ b : Block, b.length = 512 → th_get_size (th_set_size b s0) = s0)
    (h : HInv ty0 s0 t) (hok : (th_write_extended (libtar w f ps) t buf sz).1 = 0) :
    HInv ty0 s0 (th_write_extended (libtar w f ps) t buf sz).2.1 := by
  obtain ⟨hl, ht, hz⟩ := h
  have hx := (th_write_extended_ok (libtar w f ps) t buf sz hok).2.2.1
  have hr := HInv_restore t.options t.th_buf.raw TH_EXT_TYPE sz hl (by rw [hz]; exact hs)
  unfold HInv
  rw [hx]
  simp only [libtar]
  rw [ht, hz] at hr
  rw [ht, hz]
  exact hr

theorem HInv_make_room (w : Nat) (f : Bool) (ps : Nat) (ty0 s0 : Nat) (t : TAR) (l : WLocals)
    (sz : Nat) (hs : ∀ b : Block, b.length = 512 → th_get_size (th_set_size b s0) = s0)
    (h : HInv ty0 s0 t) (t' : TAR) (l' : WLocals)
    (hn : make_room (libtar w f ps) t l sz = WFlow.next t' l') : HInv ty0 s0 t' := by
  simp only [make_room] at hn
  split_ifs at hn with h1 h2
  · injection hn with e1 e2
    subst e1
    exact HInv_th_write_extended w f ps ty0 s0 t _ _ hs h (not_not.1 h2)
  · injection hn with e1 e2
    subst e1
    exact h

theorem HInv_th_write_selinux (ty0 s0 : Nat) (t : TAR) (l : WLocals) (h : HInv ty0 s0 t)
    (t' : TAR) (l' : WLocals) (hn : th_write_selinux t l = WFlow.next t' l') :
    HInv ty0 s0 t' := by
  unfold th_write_selinux at hn
  split at hn
  · injection hn with e1 e2
    subst e1
    exact h
  · injection hn with e1 e2
    subst e1
    exact h

theorem HInv_th_write_fscrypt (w : Nat) (f : Bool) (ps : Nat) (ty0 s0 : Nat) (t : TAR)
    (l : WLocals) (hs : ∀ b : Block, b.length = 512 → th_get_size (th_set_size b s0) = s0)
    (h : HInv ty0 s0 t) (t' : TAR) (l' : WLocals)
    (hn : th_write_fscrypt (libtar w f ps) t l = WFlow.next t' l') : HInv ty0 s0 t' := by
  simp only [th_write_fscrypt] at hn
  split_ifs at hn with hc
  · split at hn
    · cases hn
    · rename_i t1 l1 heq
      injection hn with e1 e2
      subst e1
      exact HInv_make_room w f ps ty0 s0 t l _ hs h _ _ heq
  · injection hn with e1 e2
    subst e1
    exact h

theorem HInv_th_write_cap (w : Nat) (f : Bool) (ps : Nat) (ty0 s0 : Nat) (t : TAR)
    (l : WLocals) (hs : ∀ b : Block, b.length = 512 → th_get_size (th_set_size b s0) = s0)
    (h : HInv ty0 s0 t) (t' : TAR) (l' : WLocals)
    (hn : th_write_cap (libtar w f ps) t l = WFlow.next t' l') : HInv ty0 s0 t' := by
  simp only [th_write_cap] at hn
  split_ifs at hn with hc
  · split at hn
    · cases hn
    · rename_i t1 l1 heq
      injection hn with e1 e2
      subst e1
      exact HInv_make_room w f ps ty0 s0 t l _ hs h _ _ heq
  · injection hn with e1 e2
    subst e1
    exact h

theorem HInv_th_write_user (w : Nat) (f : Bool) (ps : Nat) (ty0 s0 : Nat) (flag : Bool)
    (tag : List Nat) (t : TAR) (l : WLocals)
    (hs : ∀ b : Block, b.length = 512 → th_get_size (th_set_size b s0) = s0)
    (h : HInv ty0 s0 t) (t' : TAR) (l' : WLocals)
    (hn : th_write_user (libtar w f ps) flag tag t l = WFlow.next t' l') : HInv ty0 s0 t' := by
  simp only [th_write_user] at hn
  split_ifs at hn with hc
  · split at hn
    · cases hn
    · rename_i t1 l1 heq
      injection hn with e1 e2
      subst e1
      exact HInv_make_room w f ps ty0 s0 t l _ hs h _ _ heq
  · injection hn with e1 e2
    subst e1
    exact h

theorem HInv_th_write_user_xattr (w : Nat) (f : Bool) (ps : Nat) (ty0 s0 : Nat) (t : TAR)
    (l : WLocals) (hs : ∀ b : Block, b.length = 512 → th_get_size (th_set_size b s0) = s0)
    (h : HInv ty0 s0 t) (t' : TAR) (l' : WLocals)
    (hn : th_write_user_xattr (libtar w f ps) t l = WFlow.next t' l') : HInv ty0 s0 t' := by
  simp only [th_write_user_xattr] at hn
  split_ifs at hn with hc
  · split at hn
    · cases hn
    · rename_i t1 l1 heq1
      have h1 := HInv_th_write_user w f ps ty0 s0 _ _ t l hs h t1 l1 heq1
      split at hn
      · cases hn
      · rename_i t2 l2 heq2
        have h2 := HInv_th_write_user w f ps ty0 s0 _ _ t1 l1 hs h1 t2 l2 heq2
        exact HInv_th_write_user w f ps ty0 s0 _ _ t2 l2 hs h2 t' l' hn
  · injection hn with e1 e2
    subst e1
    exact h

theorem HInv_th_write_gnu (w : Nat) (f : Bool) (ps : Nat) (ty0 s0 : Nat) (ty : Nat)
    (str : List Nat) (t t1 : TAR)
    (hs : ∀ b : Block, b.length = 512 → th_get_size (th_set_size b s0) = s0)
    (h : HInv ty0 s0 t) (hn : th_write_gnu (libtar w f ps) ty str t = Flow.next t1) :
    HInv ty0 s0 t1 := by
  obtain ⟨hl, ht, hz⟩ := h
  simp only [th_write_gnu] at hn
  split_ifs at hn with h1 h2 h3
  injection hn with hn
  have w1 := tar_block_write_ok _ _ (not_not.1 h1)
  obtain ⟨ds, -, -, hb, -⟩ := write_long_blocks_ok _ _ _ (not_not.1 h2)
  obtain ⟨D, w3⟩ := tar_block_write_data_ok _ _ (not_not.1 h3)
  subst hn
  have hr := HInv_restore t.options t.th_buf.raw ty (strlen str) hl (by rw [hz]; exact hs)
  unfold HInv
  show (th_set_size (setTypeflag (tar_block_write _ _).2.th_buf.raw _) _).length = 512 ∧
    typeflag (th_set_size (setTypeflag (tar_block_write _ _).2.th_buf.raw _) _) = ty0 ∧
    th_get_size (th_set_size (setTypeflag (tar_block_write _ _).2.th_buf.raw _) _) = s0
  rw [w3.2.1, hb, w1.2.1]
  rw [ht, hz] at hr
  simp only [libtar]
  rw [ht, hz]
  exact hr

/-- A successful `th_write_final` leaves the finished header in the buffer and
writes it last. -/
theorem HInv_th_write_final (w : Nat) (f : Bool) (ps : Nat) (ty0 s0 : Nat) (t : TAR)
    (l : WLocals) (hs : ∀ b : Block, b.length = 512 → th_get_size (th_set_size b s0) = s0)
    (h : HInv ty0 s0 t) (hok : (th_write_final (libtar w f ps) t l).1 = 0) :
    HInv ty0 s0 (th_write_final (libtar w f ps) t l).2 ∧
      (th_write_final (libtar w f ps) t l).2.output.getLast? =
        some (Written.header (th_write_final (libtar w f ps) t l).2.th_buf.raw) := by
  have fin : ∀ t0 : TAR, HInv ty0 s0 t0 →
      ∀ hw : (tar_block_write { t0 with th_buf := { t0.th_buf with
          raw := th_finish t0.options t0.th_buf.raw } }
        (Written.header (th_finish t0.options t0.th_buf.raw))).1 = 512,
      HInv ty0 s0 (tar_block_write { t0 with th_buf := { t0.th_buf with
          raw := th_finish t0.options t0.th_buf.raw } }
        (Written.header (th_finish t0.options t0.th_buf.raw))).2 ∧
      (tar_block_write { t0 with th_buf := { t0.th_buf with
          raw := th_finish t0.options t0.th_buf.raw } }
        (Written.header (th_finish t0.options t0.th_buf.raw))).2.output.getLast? =
        some (Written.header (tar_block_write { t0 with th_buf := { t0.th_buf with
          raw := th_finish t0.options t0.th_buf.raw } }
        (Written.header (th_finish t0.options t0.th_buf.raw))).2.th_buf.raw) := by
    intro t0 h0 hw
    obtain ⟨hl, ht, hz⟩ := h0
    have hk := tar_block_write_ok _ _ hw
    unfold HInv
    rw [hk.2.1, hk.1]
    refine ⟨⟨by rw [length_th_finish]; exact hl, by rw [typeflag_th_finish _ _ hl]; exact ht,
      by rw [th_get_size_th_finish _ _ hl]; exact hz⟩, ?_⟩
    simp
  simp only [th_write_final] at hok ⊢
  by_cases h1 : l.total_sz > 0
  · simp only [if_pos h1] at hok ⊢
    split_ifs at hok ⊢ with h2 h5
    · simp at hok
    · simp [io_fail] at hok
    · exact fin _ (HInv_th_write_extended w f ps ty0 s0 t _ _ hs h (not_not.1 h2)) (not_not.1 h5)
  · simp only [if_neg h1] at hok ⊢
    split_ifs at hok ⊢ with h2 h5
    · simp at h2
    · simp [io_fail] at hok
    · exact fin t h (not_not.1 h5)

theorem HInv_th_write_ext (w : Nat) (f : Bool) (ps : Nat) (ty0 s0 : Nat) (t : TAR)
    (hs : ∀ b : Block, b.length = 512 → th_get_size (th_set_size b s0) = s0)
    (h : HInv ty0 s0 t) (hok : (th_write_ext (libtar w f ps) t).1 = 0) :
    HInv ty0 s0 (th_write_ext (libtar w f ps) t).2 ∧
      (th_write_ext (libtar w f ps) t).2.output.getLast? =
        some (Written.header (th_write_ext (libtar w f ps) t).2.th_buf.raw) := by
  have r1 := th_write_selinux_XInv t.options t.output t.th_buf.raw t rfl ⟨h.1, rfl, rfl⟩
    ⟨[], by simp [pairsOut], by simp⟩
  unfold th_write_ext at hok ⊢
  cases e1 : th_write_selinux t { buf := zeroBlock, ptr := 0, total_sz := 0 } with
  | ret r t1 =>
    rw [e1] at hok r1
    exact absurd (hok.symm.trans r1) (by decide)
  | next t1 l1 =>
    rw [e1] at hok r1
    have h1 := HInv_th_write_selinux ty0 s0 t _ h t1 l1 e1
    have r2 := th_write_fscrypt_XInv w f ps _ _ _ t1 l1 r1
    simp only [] at hok ⊢
    cases e2 : th_write_fscrypt (libtar w f ps) t1 l1 with
    | ret r t2 =>
      rw [e2] at hok r2
      exact absurd (hok.symm.trans r2) (by decide)
    | next t2 l2 =>
      rw [e2] at hok r2
      have h2 := HInv_th_write_fscrypt w f ps ty0 s0 t1 l1 hs h1 t2 l2 e2
      have r3 := th_write_cap_XInv w f ps _ _ _ t2 l2 r2
      simp only [] at hok ⊢
      cases e3 : th_write_cap (libtar w f ps) t2 l2 with
      | ret r t3 =>
        rw [e3] at hok r3
        exact absurd (hok.symm.trans r3) (by decide)
      | next t3 l3 =>
        rw [e3] at hok r3
        have h3 := HInv_th_write_cap w f ps ty0 s0 t2 l2 hs h2 t3 l3 e3
        have r4 := th_write_user_xattr_XInv w f ps _ _ _ t3 l3 r3
        simp only [] at hok ⊢
        cases e4 : th_write_user_xattr (libtar w f ps) t3 l3 with
        | ret r t4 =>
          rw [e4] at hok r4
          exact absurd (hok.symm.trans r4) (by decide)
        | next t4 l4 =>
          rw [e4] at hok
          have h4 := HInv_th_write_user_xattr w f ps ty0 s0 t3 l3 hs h3 t4 l4 e4
          exact HInv_th_write_final w f ps ty0 s0 t4 l4 hs h4 hok

/-- C24. Under the modelled libtar declarations, for every handle whose header
buffer is a 512-byte block and whose size, once decoded, is encoded and decoded
again to the same value: after a successful `th_write` the type flag and the
decoded size of the header in memory are what they were before the call, and the
last block written is that header. -/
theorem th_write_restores_type_and_size (w : Nat) (f : Bool) (ps : Nat) (t : TAR)
    (hl : t.th_buf.raw.length = 512)
    (hs : ∀ b : Block, b.length = 512 →
      th_get_size (th_set_size b (th_get_size t.th_buf.raw)) = th_get_size t.th_buf.raw)
    (hok : (th_write (libtar w f ps) t).1 = 0) :
    typeflag (th_write (libtar w f ps) t).2.th_buf.raw = typeflag t.th_buf.raw ∧
      th_get_size (th_write (libtar w f ps) t).2.th_buf.raw = th_get_size t.th_buf.raw ∧
      (th_write (libtar w f ps) t).2.output.getLast? =
        some (Written.header (th_write (libtar w f ps) t).2.th_buf.raw) := by
  have h0 : HInv (typeflag t.th_buf.raw) (th_get_size t.th_buf.raw) t := ⟨hl, rfl, rfl⟩
  have s1 : ∀ t1, th_write_longlink (libtar w f ps) t = Flow.next t1 →
      HInv (typeflag t.th_buf.raw) (th_get_size t.th_buf.raw) t1 := by
    intro t1 h
    unfold th_write_longlink at h
    split at h
    · exact HInv_th_write_gnu w f ps _ _ _ _ t t1 hs h0 h
    · injection h with h
      subst h
      exact h0
  have s2 : ∀ t1 t2, HInv (typeflag t.th_buf.raw) (th_get_size t.th_buf.raw) t1 →
      th_write_longname (libtar w f ps) t1 = Flow.next t2 →
      HInv (typeflag t.th_buf.raw) (th_get_size t.th_buf.raw) t2 := by
    intro t1 t2 h1 h
    unfold th_write_longname at h
    split at h
    · exact HInv_th_write_gnu w f ps _ _ _ _ t1 t2 hs h1 h
    · injection h with h
      subst h
      exact h1
  unfold th_write at hok ⊢
  cases e1 : th_write_longlink (libtar w f ps) t with
  | ret r t1 =>
    rw [e1] at hok
    unfold th_write_longlink at e1
    split at e1
    · exact absurd (hok.symm.trans (th_write_gnu_ret _ _ _ _ _ _ e1)) (by decide)
    · exact absurd e1 (by simp)
  | next t1 =>
    rw [e1] at hok
    simp only [] at hok ⊢
    cases e2 : th_write_longname (libtar w f ps) t1 with
    | ret r t2 =>
      rw [e2] at hok
      unfold th_write_longname at e2
      split at e2
      · exact absurd (hok.symm.trans (th_write_gnu_ret _ _ _ _ _ _ e2)) (by decide)
      · exact absurd e2 (by simp)
    | next t2 =>
      rw [e2] at hok
      simp only [] at hok ⊢
      obtain ⟨⟨-, h5, h6⟩, h7⟩ :=
        HInv_th_write_ext w f ps _ _ t2 hs (s2 t1 t2 (s1 t1 e1) e2) hok
      exact ⟨h5, h6, h7⟩

set_option maxRecDepth 100000 in
/-- Witness of C24: the entry with a long name of 600 letters, written with
`TAR_GNU` (a sentinel header of size 600 and two data blocks come first). -/
theorem th_write_restores_type_and_size_witness :
    (entryLongName 600).th_buf.raw.length = 512 ∧
      (th_write env64 (entryLongName 600)).1 = 0 ∧
      typeflag (th_write env64 (entryLongName 600)).2.th_buf.raw =
        typeflag (entryLongName 600).th_buf.raw ∧
      th_get_size (th_write env64 (entryLongName 600)).2.th_buf.raw =
        th_get_size (entryLongName 600).th_buf.raw ∧
      (th_write env64 (entryLongName 600)).2.output.getLast? =
        some (Written.header (th_write env64 (entryLongName 600)).2.th_buf.raw) :=
  ⟨by decide, by decide,
    th_write_restores_type_and_size 64 true 12 (entryLongName 600) (by decide)
      (fun b hb => th_get_size_th_set_size b _ hb (by decide)) (by decide)⟩

/-! ## C23: the records of the data blocks -/

theorem recordsOf_snoc (pairs : List (Block × List (List Nat))) (X : Block)
    (recs : List (List Nat)) : recordsOf (pairs ++ [(X, recs)]) = recordsOf pairs ++ recs := by
  simp [recordsOf]

theorem fields_th_write_extended (E : Env) (h0 : tar_header) (t : TAR) (buf : Block) (sz : Nat)
    (h : t.th_buf = { h0 with raw := t.th_buf.raw })
    (hok : (th_write_extended E t buf sz).1 = 0) :
    (th_write_extended E t buf sz).2.1.th_buf =
      { h0 with raw := (th_write_extended E t buf sz).2.1.th_buf.raw } := by
  have hx := (th_write_extended_ok E t buf sz hok).2.2.1
  rw [hx]
  simp only []
  rw [h]

theorem RRes_make_room (w : Nat) (f : Bool) (ps : Nat) (o : Options) (out0 : List Written)
    (h0 : tar_header) (done : List (List Nat)) (t : TAR) (l : WLocals) (sz : Nat)
    (h : RInv o out0 h0 done t l) :
    WFlow.Ok (RRes o out0 h0 done sz) (make_room (libtar w f ps) t l sz) := by
  obtain ⟨ho, hh, hf, hd⟩ := h
  simp only [make_room]
  split_ifs with h1 h2
  · rfl
  · have h3 : (th_write_extended (libtar w f ps) t l.buf l.total_sz).1 = 0 := by
      simpa using h2
    obtain ⟨hlt, hout, -, hopt, hz⟩ := th_write_extended_ok (libtar w f ps) t l.buf l.total_sz h3
    refine ⟨by rw [hopt, ho], HdrOK_th_write_extended w f ps h0.raw t _ _ hh h3,
      fields_th_write_extended (libtar w f ps) h0 t _ _ hf h3, ?_⟩
    rcases hd with hd | ⟨recs, pairs, hr, hlen, hbuf, hptr, htot, hpo, hpg, hdone⟩
    · omega
    · by_cases hnil : recs = []
      · left
        subst hnil
        simp only [List.flatten_nil, List.length_nil] at htot
        show T_BLOCKSIZE ≤ sz
        omega
      · right
        have hs := ext_header_spec t.options t.th_buf.raw l.total_sz hh.1 hlt
        refine ⟨[], pairs ++ [(th_finish t.options (th_set_size
          (setTypeflag t.th_buf.raw TH_EXT_TYPE) l.total_sz), recs)], by simp, ?_, rfl, by simp,
          ?_, ?_, ?_⟩
        · show (th_write_extended (libtar w f ps) t l.buf l.total_sz).2.2 = blockOf []
          rw [hz]
          rfl
        · rw [hout, hpo, pairsOut_snoc, hbuf, List.append_assoc]
          rfl
        · intro p hp
          rcases List.mem_append.1 hp with h6 | h6
          · exact hpg p h6
          · rw [List.mem_singleton.1 h6]
            exact ⟨hs.1, hnil, hr, hlen, hs.2.trans htot⟩
        · rw [recordsOf_snoc, List.append_nil]
          exact hdone
  · refine ⟨ho, hh, hf, ?_⟩
    rcases hd with hd | ⟨recs, pairs, hr, hlen, hbuf, hptr, htot, hpo, hpg, hdone⟩
    · left
      show T_BLOCKSIZE ≤ l.total_sz + sz
      omega
    · right
      exact ⟨recs, pairs, hr, hbuf, hptr, by show l.total_sz + sz = _; rw [htot], hpo, hpg,
        hdone⟩

/-- Writing the record for which room was made adds it to the records emitted. -/
theorem RInv_emit (o : Options) (out0 : List Written) (h0 : tar_header)
    (done : List (List Nat)) (sz : Nat) (t : TAR) (l : WLocals) (buf : Block) (rec : List Nat)
    (h : RRes o out0 h0 done sz t l)
    (hrec : sz < T_BLOCKSIZE → isEmitted rec ∧ rec.length = sz)
    (hbuf : ∀ recs : List (List Nat), l.buf = blockOf recs → l.ptr = recs.flatten.length →
      recs.flatten.length + sz < T_BLOCKSIZE → buf = blockOf (recs ++ [rec])) :
    RInv o out0 h0 (done ++ [rec]) t { l with buf := buf, ptr := l.ptr + sz } := by
  obtain ⟨ho, hh, hf, hd⟩ := h
  refine ⟨ho, hh, hf, ?_⟩
  rcases hd with hd | ⟨recs, pairs, hr, hb, hptr, htot, hpo, hpg, hdone⟩
  · exact Or.inl hd
  · by_cases hlt : l.total_sz < T_BLOCKSIZE
    · right
      have hsz : sz < T_BLOCKSIZE := by omega
      obtain ⟨hre, hl⟩ := hrec hsz
      refine ⟨recs ++ [rec], pairs, ?_, ?_, ?_, ?_, ?_, hpo, hpg, ?_⟩
      · intro r hr2
        rcases List.mem_append.1 hr2 with h1 | h1
        · exact hr r h1
        · rw [List.mem_singleton.1 h1]
          exact hre
      · simp only [List.flatten_append, List.flatten_cons, List.flatten_nil, List.append_nil,
          List.length_append]
        omega
      · exact hbuf recs hb hptr (by omega)
      · show l.ptr + sz = _
        simp only [List.flatten_append, List.flatten_cons, List.flatten_nil, List.append_nil,
          List.length_append]
        omega
      · show l.total_sz = _
        simp only [List.flatten_append, List.flatten_cons, List.flatten_nil, List.append_nil,
          List.length_append]
        omega
      · rw [← List.append_assoc, hdone]
    · left
      show T_BLOCKSIZE ≤ l.total_sz
      omega

theorem th_write_selinux_RInv (o : Options) (out0 : List Written) (h0 : tar_header) (t : TAR)
    (ho : t.options = o) (hh : HdrOK h0.raw t.th_buf.raw)
    (hf : t.th_buf = { h0 with raw := t.th_buf.raw }) (hout : t.output = out0) :
    WFlow.Ok (RInv o out0 h0 (selinuxRecs o h0))
      (th_write_selinux t { buf := zeroBlock, ptr := 0, total_sz := 0 }) := by
  have hctx : t.th_buf.selinux_context = h0.selinux_context := by rw [hf]
  have hstart : ∀ sz, RRes o out0 h0 [] sz t { buf := zeroBlock, ptr := 0, total_sz := 0 + sz } :=
    fun sz => ⟨ho, hh, hf, Or.inr ⟨[], [], by simp, rfl, rfl, by simp, by simp [pairsOut, hout],
      by simp, by simp [recordsOf]⟩⟩
  unfold th_write_selinux
  split
  · rename_i ctx hs hc
    simp only []
    have hrecs : selinuxRecs o h0 = [] ++ [recordOf SELINUX_TAG (cstring ctx)] := by
      rw [ho] at hs
      rw [hctx] at hc
      simp [selinuxRecs, hs, hc]
    have hsz : bump (SELINUX_TAG.length + strlen ctx + 3 + 1) =
        bump (estimate SELINUX_TAG (cstring ctx)) := by
      congr 1
      simp only [estimate, strlen]
      omega
    rw [hsz, hrecs]
    have h10 : 10 ≤ estimate SELINUX_TAG (cstring ctx) := by
      have hl : SELINUX_TAG.length = 21 := by decide
      simp only [estimate, hl]
      omega
    exact RInv_emit o out0 h0 [] _ t _ _ (recordOf SELINUX_TAG (cstring ctx))
      (hstart (bump (estimate SELINUX_TAG (cstring ctx))))
      (fun hlt => isEmitted_mk _ _ (by simp [knownTags]) h10
        (by simp only [T_BLOCKSIZE] at hlt; omega))
      (fun recs hb hptr hfit => by
        by_cases hlt : bump (estimate SELINUX_TAG (cstring ctx)) < 1000
        · refine snprintf_step recs _ _ _ hb hptr ?_
          rw [record_length _ _ h10 hlt]
          exact hfit
        · simp only [T_BLOCKSIZE] at hfit
          omega)
  · rename_i hno
    have hrecs : selinuxRecs o h0 = [] := by
      unfold selinuxRecs
      split
      · rename_i ctx hs hc
        rw [← ho] at hs
        rw [← hctx] at hc
        exact absurd hc (hno ctx hs)
      · rfl
    rw [hrecs]
    exact ⟨ho, hh, hf, Or.inr ⟨[], [], by simp, by simp [T_BLOCKSIZE], rfl, rfl, rfl,
      by simp [pairsOut, hout], by simp, by simp [recordsOf]⟩⟩

theorem th_write_fscrypt_RInv (w : Nat) (f : Bool) (ps : Nat) (o : Options)
    (out0 : List Written) (h0 : tar_header) (done : List (List Nat)) (t : TAR) (l : WLocals)
    (h : RInv o out0 h0 done t l) :
    WFlow.Ok (RInv o out0 h0 (done ++ fscryptRecs (libtar w f ps) o h0))
      (th_write_fscrypt (libtar w f ps) t l) := by
  have ho := h.1
  have hfep : t.th_buf.fep = h0.fep := by rw [h.2.2.1]
  simp only [th_write_fscrypt]
  split_ifs with hc
  · have hr := RRes_make_room w f ps o out0 h0 done t l
      (bump (FSCRYPT_TAG.length + (libtar w f ps).sizeof_policy + 1 + 3 + 1)) h
    have hrecs : fscryptRecs (libtar w f ps) o h0 =
        [recordOf FSCRYPT_TAG ([48] ++ fepBytes (libtar w f ps) h0.fep)] := by
      rw [ho, hfep] at hc
      simp only [fscryptRecs, if_pos hc]
    split
    · rename_i r t1 heq
      rw [heq] at hr
      exact hr
    · rename_i t1 l1 heq
      rw [heq] at hr
      have hfep1 : t1.th_buf.fep = h0.fep := by rw [hr.2.2.1]
      have hps : (libtar w f ps).sizeof_policy = ps := rfl
      have hfl := length_fepBytes (libtar w f ps) h0.fep
      rw [hps] at hfl
      have hl : FSCRYPT_TAG.length = 22 := by decide
      have hsz : bump (FSCRYPT_TAG.length + (libtar w f ps).sizeof_policy + 1 + 3 + 1) =
          bump (estimate FSCRYPT_TAG ([48] ++ fepBytes (libtar w f ps) h0.fep)) := by
        congr 1
        simp only [estimate, List.length_append, List.length_singleton, hfl, hps]
        omega
      have h10 : 10 ≤ estimate FSCRYPT_TAG ([48] ++ fepBytes (libtar w f ps) h0.fep) := by
        simp only [estimate, hl]
        omega
      rw [hsz] at hr ⊢
      rw [hrecs, hfep1]
      refine RInv_emit o out0 h0 done _ t1 l1 _
        (recordOf FSCRYPT_TAG ([48] ++ fepBytes (libtar w f ps) h0.fep)) hr
        (fun hlt => isEmitted_mk _ _ (by simp [knownTags]) h10
          (by simp only [T_BLOCKSIZE] at hlt; omega)) ?_
      intro recs hb hptr hfit
      have hlt : bump (estimate FSCRYPT_TAG ([48] ++ fepBytes (libtar w f ps) h0.fep))
          < 1000 := by
        simp only [T_BLOCKSIZE] at hfit
        omega
      have hlen := record_length _ _ h10 hlt
      simp only [List.length_append, List.length_singleton, hfl, hl] at hlen
      have e := record_step recs l1.buf l1.ptr
        (decimal (bump (estimate FSCRYPT_TAG ([48] ++ fepBytes (libtar w f ps) h0.fep)))
          ++ [32] ++ FSCRYPT_TAG ++ [48]) (fepBytes (libtar w f ps) h0.fep) hb hptr
        (by
          simp only [List.length_append, List.length_singleton, hfl, hl]
          omega)
      unfold recordOf
      simp only [List.append_assoc] at e ⊢
      rw [← e]
      simp only [List.length_append, List.length_singleton, hl, hps, List.length_cons,
        List.length_nil]
      congr 2
      · omega
      · omega
  · have hrecs : fscryptRecs (libtar w f ps) o h0 = [] := by
      rw [ho, hfep] at hc
      simp only [fscryptRecs, if_neg hc]
    rw [hrecs, List.append_nil]
    exact h

theorem th_write_cap_RInv (w : Nat) (f : Bool) (ps : Nat) (o : Options)
    (out0 : List Written) (h0 : tar_header) (done : List (List Nat)) (t : TAR) (l : WLocals)
    (h : RInv o out0 h0 done t l) :
    WFlow.Ok (RInv o out0 h0 (done ++ capRecs o h0)) (th_write_cap (libtar w f ps) t l) := by
  have ho := h.1
  have hcap : t.th_buf.has_cap_data = h0.has_cap_data := by rw [h.2.2.1]
  simp only [th_write_cap]
  split_ifs with hc
  · have hr := RRes_make_room w f ps o out0 h0 done t l
      (bump (CAPABILITIES_TAG.length + sizeof_vfs_cap_data + 3 + 1)) h
    have hrecs : capRecs o h0 = [recordOf CAPABILITIES_TAG
        ((h0.cap_data ++ List.replicate sizeof_vfs_cap_data 0).take sizeof_vfs_cap_data)] := by
      rw [ho, hcap] at hc
      simp only [capRecs, if_pos hc]
    split
    · rename_i r t1 heq
      rw [heq] at hr
      exact hr
    · rename_i t1 l1 heq
      rw [heq] at hr
      have hcd : t1.th_buf.cap_data = h0.cap_data := by rw [hr.2.2.1]
      have hl : CAPABILITIES_TAG.length = 33 := by decide
      have hpl : ((h0.cap_data ++ List.replicate sizeof_vfs_cap_data 0).take
          sizeof_vfs_cap_data).length = 20 := by
        simp [sizeof_vfs_cap_data]
      have hsz : bump (CAPABILITIES_TAG.length + sizeof_vfs_cap_data + 3 + 1) =
          bump (estimate CAPABILITIES_TAG
            ((h0.cap_data ++ List.replicate sizeof_vfs_cap_data 0).take
              sizeof_vfs_cap_data)) := by
        congr 1
        simp only [estimate, hpl, hl]
        rfl
      have h10 : 10 ≤ estimate CAPABILITIES_TAG
          ((h0.cap_data ++ List.replicate sizeof_vfs_cap_data 0).take
            sizeof_vfs_cap_data) := by
        simp only [estimate, hl]
        omega
      have hv : bump (estimate CAPABILITIES_TAG
          ((h0.cap_data ++ List.replicate sizeof_vfs_cap_data 0).take
            sizeof_vfs_cap_data)) = 57 := by
        simp only [estimate, hpl, hl, bump]
        rfl
      rw [hsz] at hr ⊢
      rw [hrecs, hcd]
      refine RInv_emit o out0 h0 done _ t1 l1 _ _ hr
        (fun hlt => isEmitted_mk _ _ (by simp [knownTags]) h10 (by rw [hv]; decide)) ?_
      intro recs hb hptr hfit
      have hlen := record_length _ _ h10 (by rw [hv]; decide)
      simp only [List.length_append, List.length_singleton, hpl, hl] at hlen
      rw [hv] at hlen hfit
      have e := record_step recs l1.buf l1.ptr
        (decimal (bump (estimate CAPABILITIES_TAG
          ((h0.cap_data ++ List.replicate sizeof_vfs_cap_data 0).take
            sizeof_vfs_cap_data))) ++ [32] ++ CAPABILITIES_TAG)
        ((h0.cap_data ++ List.replicate sizeof_vfs_cap_data 0).take
            sizeof_vfs_cap_data) hb hptr
        (by
          simp only [List.length_append, List.length_singleton, hpl, hl, hv]
          omega)
      unfold recordOf
      rw [← e]
      simp only [List.length_append, List.length_singleton, hl, hpl, hv]
      congr 2
  · have hrecs : capRecs o h0 = [] := by
      rw [ho, hcap] at hc
      simp only [capRecs, if_neg hc]
    rw [hrecs, List.append_nil]
    exact h

theorem th_write_user_RInv (w : Nat) (f : Bool) (ps : Nat) (o : Options)
    (out0 : List Written) (h0 : tar_header) (done : List (List Nat)) (flag : Bool)
    (tag : List Nat) (t : TAR) (l : WLocals)
    (htag : tag ∈ knownTags) (hmin : 6 ≤ tag.length) (hlen : tag.length + 4 < 100)
    (h : RInv o out0 h0 done t l) :
    WFlow.Ok (RInv o out0 h0 (done ++ userRecs flag tag))
      (th_write_user (libtar w f ps) flag tag t l) := by
  simp only [th_write_user]
  split_ifs with hc
  · have hr := RRes_make_room w f ps o out0 h0 done t l (tag.length + 3 + 1) h
    have hrecs : userRecs flag tag = [recordOf tag []] := by
      simp only [userRecs, if_pos hc]
    split
    · rename_i r t1 heq
      rw [heq] at hr
      exact hr
    · rename_i t1 l1 heq
      rw [heq] at hr
      have he : estimate tag [] = tag.length + 3 + 1 := by
        simp only [estimate, List.length_nil]
        omega
      have hsz : tag.length + 3 + 1 = bump (estimate tag []) := by
        rw [he]
        simp only [bump]
        rw [if_neg (by omega)]
      have h10 : 10 ≤ estimate tag [] := by
        rw [he]
        omega
      rw [hsz] at hr ⊢
      rw [hrecs]
      refine RInv_emit o out0 h0 done _ t1 l1 _ _ hr
        (fun hlt => isEmitted_mk tag [] htag h10 (by rw [← hsz]; omega)) ?_
      intro recs hb hptr hfit
      have hl2 := record_length tag [] h10 (by rw [← hsz]; omega)
      simp only [List.length_append, List.length_singleton, List.length_nil] at hl2
      have e := record_step recs l1.buf l1.ptr
        (decimal (bump (estimate tag [])) ++ [32] ++ tag) [] hb hptr
        (by
          simp only [List.length_append, List.length_singleton, List.length_nil]
          omega)
      rw [poke_nil] at e
      unfold recordOf
      rw [← e]
      simp only [List.length_append, List.length_singleton, List.length_nil]
      congr 2
      omega
  · have hrecs : userRecs flag tag = [] := by
      simp only [userRecs, if_neg hc]
    rw [hrecs, List.append_nil]
    exact h

theorem th_write_user_xattr_RInv (w : Nat) (f : Bool) (ps : Nat) (o : Options)
    (out0 : List Written) (h0 : tar_header) (done : List (List Nat)) (t : TAR) (l : WLocals)
    (h : RInv o out0 h0 done t l) :
    WFlow.Ok (RInv o out0 h0 (done ++ userXattrRecs o h0))
      (th_write_user_xattr (libtar w f ps) t l) := by
  have ho := h.1
  simp only [th_write_user_xattr]
  split_ifs with hc
  · have hrecs : userXattrRecs o h0 =
        userRecs h0.has_user_default ANDROID_USER_DEFAULT_TAG ++
          userRecs h0.has_user_cache ANDROID_USER_CACHE_TAG ++
          userRecs h0.has_user_code_cache ANDROID_USER_CODE_CACHE_TAG := by
      rw [ho] at hc
      simp only [userXattrRecs, if_pos hc]
    have e0 : t.th_buf.has_user_default = h0.has_user_default := by rw [h.2.2.1]
    have h1 := th_write_user_RInv w f ps o out0 h0 done t.th_buf.has_user_default
      ANDROID_USER_DEFAULT_TAG t l (by simp [knownTags]) (by decide) (by decide) h
    rw [hrecs, e0] at *
    split
    · rename_i r t1 heq
      rw [heq] at h1
      exact h1
    · rename_i t1 l1 heq
      rw [heq] at h1
      have e1 : t1.th_buf.has_user_cache = h0.has_user_cache := by rw [h1.2.2.1]
      have h2 := th_write_user_RInv w f ps o out0 h0 _ t1.th_buf.has_user_cache
        ANDROID_USER_CACHE_TAG t1 l1 (by simp [knownTags]) (by decide) (by decide) h1
      rw [e1] at h2 ⊢
      split
      · rename_i r t2 heq2
        rw [heq2] at h2
        exact h2
      · rename_i t2 l2 heq2
        rw [heq2] at h2
        have e2 : t2.th_buf.has_user_code_cache = h0.has_user_code_cache := by rw [h2.2.2.1]
        have h3 := th_write_user_RInv w f ps o out0 h0 _ t2.th_buf.has_user_code_cache
          ANDROID_USER_CODE_CACHE_TAG t2 l2 (by simp [knownTags]) (by decide) (by decide) h2
        rw [e2] at h3 ⊢
        simp only [List.append_assoc] at h3 ⊢
        exact h3
  · have hrecs : userXattrRecs o h0 = [] := by
      rw [ho] at hc
      simp only [userXattrRecs, if_neg hc]
    rw [hrecs, List.append_nil]
    exact h

/-- The blocks and the records of a successful `th_write_final`. -/
theorem th_write_final_records (w : Nat) (f : Bool) (ps : Nat) (o : Options)
    (out0 : List Written) (h0 : tar_header) (done : List (List Nat)) (t : TAR) (l : WLocals)
    (h : RInv o out0 h0 done t l) (hok : (th_write_final (libtar w f ps) t l).1 = 0) :
    ∃ pairs F, (th_write_final (libtar w f ps) t l).2.output =
        out0 ++ pairsOut pairs ++ [Written.header F] ∧
      (∀ p ∈ pairs, goodPair p) ∧ recordsOf pairs = done ∧
      typeflag F = typeflag h0.raw ∧ name0 F = name0 h0.raw := by
  obtain ⟨ho, hh, hf, hd⟩ := h
  simp only [th_write_final] at hok ⊢
  by_cases h1 : l.total_sz > 0
  · simp only [if_pos h1] at hok ⊢
    split_ifs at hok ⊢ with h2 h5
    · simp at hok
    · simp [io_fail] at hok
    · have h3 : (th_write_extended (libtar w f ps) t l.buf l.total_sz).1 = 0 := not_not.1 h2
      obtain ⟨hlt, hout, hbuf, hopt, -⟩ :=
        th_write_extended_ok (libtar w f ps) t l.buf l.total_sz h3
      have hh2 := HdrOK_th_write_extended w f ps h0.raw t l.buf l.total_sz hh h3
      rcases hd with hd | ⟨recs, pairs, hr, hlen, hb, hptr, htot, hpo, hpg, hdone⟩
      · omega
      · have hnil : recs ≠ [] := by
          intro h0
          rw [h0] at htot
          simp only [List.flatten_nil, List.length_nil] at htot
          omega
        have hs := ext_header_spec t.options t.th_buf.raw l.total_sz hh.1 hlt
        have hw := tar_block_write_ok _ _ (not_not.1 h5)
        refine ⟨pairs ++ [(th_finish t.options (th_set_size (setTypeflag t.th_buf.raw TH_EXT_TYPE)
          l.total_sz), recs)],
          th_finish (th_write_extended (libtar w f ps) t l.buf l.total_sz).2.1.options
            (th_write_extended (libtar w f ps) t l.buf l.total_sz).2.1.th_buf.raw,
          ?_, ?_, ?_, ?_, ?_⟩
        · rw [hw.1]
          show (th_write_extended (libtar w f ps) t l.buf l.total_sz).2.1.output ++ _ = _
          rw [hout, hpo, pairsOut_snoc, hb]
          simp only [List.append_assoc]
          rfl
        · intro p hp2
          rcases List.mem_append.1 hp2 with h6 | h6
          · exact hpg p h6
          · rw [List.mem_singleton.1 h6]
            exact ⟨hs.1, hnil, hr, hlen, hs.2.trans htot⟩
        · rw [recordsOf_snoc]
          exact hdone
        · show typeflag (th_finish _ _) = _
          rw [typeflag_th_finish _ _ hh2.1, hh2.2.1]
        · show name0 (th_finish _ _) = _
          rw [name0_th_finish _ _ hh2.1, hh2.2.2]
  · simp only [if_neg h1] at hok ⊢
    split_ifs at hok ⊢ with h2 h5
    · simp at h2
    · simp [io_fail] at hok
    · rcases hd with hd | ⟨recs, pairs, hr, hlen, hb, hptr, htot, hpo, hpg, hdone⟩
      · simp only [T_BLOCKSIZE] at hd
        omega
      · have hw := tar_block_write_ok _ _ (not_not.1 h5)
        have hnil : recs = [] := by
          have h0 : recs.flatten.length = 0 := by omega
          cases recs with
          | nil => rfl
          | cons r rs =>
            have hre := hr r (List.mem_cons_self _ _)
            obtain ⟨tag, payload, -, hform, -⟩ := hre
            have : 0 < r.length := by
              rw [hform]
              simp
            simp only [List.flatten_cons, List.length_append] at h0
            omega
        refine ⟨pairs, th_finish t.options t.th_buf.raw, ?_, hpg, ?_, ?_, ?_⟩
        · rw [hw.1]
          show t.output ++ _ = _
          rw [hpo]
          rfl
        · rw [← hdone, hnil, List.append_nil]
        · show typeflag (th_finish _ _) = _
          rw [typeflag_th_finish _ _ hh.1, hh.2.1]
        · show name0 (th_finish _ _) = _
          rw [name0_th_finish _ _ hh.1, hh.2.2]

theorem th_write_ext_records (w : Nat) (f : Bool) (ps : Nat) (t : TAR) (h0 : tar_header)
    (hh : HdrOK h0.raw t.th_buf.raw) (hf : t.th_buf = { h0 with raw := t.th_buf.raw })
    (hok : (th_write_ext (libtar w f ps) t).1 = 0) :
    ∃ pairs F, (th_write_ext (libtar w f ps) t).2.output =
        t.output ++ pairsOut pairs ++ [Written.header F] ∧
      (∀ p ∈ pairs, goodPair p) ∧
      recordsOf pairs = expectedRecords (libtar w f ps) t.options h0 ∧
      typeflag F = typeflag h0.raw ∧ name0 F = name0 h0.raw := by
  have h1 := th_write_selinux_RInv t.options t.output h0 t rfl hh hf rfl
  unfold th_write_ext at hok ⊢
  cases e1 : th_write_selinux t { buf := zeroBlock, ptr := 0, total_sz := 0 } with
  | ret r t1 =>
    rw [e1] at h1 hok
    exact absurd (hok.symm.trans h1) (by decide)
  | next t1 l1 =>
    rw [e1] at h1 hok
    have h2 := th_write_fscrypt_RInv w f ps _ _ _ _ t1 l1 h1
    simp only [] at hok ⊢
    cases e2 : th_write_fscrypt (libtar w f ps) t1 l1 with
    | ret r t2 =>
      rw [e2] at h2 hok
      exact absurd (hok.symm.trans h2) (by decide)
    | next t2 l2 =>
      rw [e2] at h2 hok
      have h3 := th_write_cap_RInv w f ps _ _ _ _ t2 l2 h2
      simp only [] at hok ⊢
      cases e3 : th_write_cap (libtar w f ps) t2 l2 with
      | ret r t3 =>
        rw [e3] at h3 hok
        exact absurd (hok.symm.trans h3) (by decide)
      | next t3 l3 =>
        rw [e3] at h3 hok
        have h4 := th_write_user_xattr_RInv w f ps _ _ _ _ t3 l3 h3
        simp only [] at hok ⊢
        cases e4 : th_write_user_xattr (libtar w f ps) t3 l3 with
        | ret r t4 =>
          rw [e4] at h4 hok
          exact absurd (hok.symm.trans h4) (by decide)
        | next t4 l4 =>
          rw [e4] at h4 hok
          exact th_write_final_records w f ps _ _ _ _ t4 l4 h4 hok

theorem th_write_gnu_fields (E : Env) (ty : Nat) (str : List Nat) (t t1 : TAR)
    (h : th_write_gnu E ty str t = Flow.next t1) :
    t1.th_buf = { t.th_buf with raw := t1.th_buf.raw } := by
  simp only [th_write_gnu] at h
  split_ifs at h with h1 h2 h3
  injection h with h
  have w1 := tar_block_write_ok _ _ (not_not.1 h1)
  obtain ⟨ds, -, -, hb, -⟩ := write_long_blocks_ok _ _ _ (not_not.1 h2)
  obtain ⟨D, w3⟩ := tar_block_write_data_ok _ _ (not_not.1 h3)
  subst h
  simp only []
  rw [w3.2.1, hb, w1.2.1]

theorem th_write_longlink_next (w : Nat) (f : Bool) (ps : Nat) (t t1 : TAR)
    (hl : t.th_buf.raw.length = 512)
    (h : th_write_longlink (libtar w f ps) t = Flow.next t1) :
    (∃ K, t1.output = t.output ++ K ∧
        gnuPart GNU_LONGLINK_TYPE t.options.TAR_GNU t.th_buf.gnu_longlink K) ∧
      HdrOK t.th_buf.raw t1.th_buf.raw ∧ t1.options = t.options ∧
      t1.th_buf = { t.th_buf with raw := t1.th_buf.raw } := by
  unfold th_write_longlink at h
  split at h
  · rename_i str hg hs
    obtain ⟨⟨X, ds, ho, hx, hd⟩, hh, hopt, -, -⟩ := th_write_gnu_next w f ps _ _ _ _ hl h
    refine ⟨⟨_, ho, ?_⟩, hh, hopt, th_write_gnu_fields _ _ _ _ _ h⟩
    rw [hg, hs]
    exact ⟨X, ds, rfl, hx, hd⟩
  · rename_i hno
    injection h with h
    subst h
    refine ⟨⟨[], by simp, gnuPart_inactive _ _ _ ?_⟩, ⟨hl, rfl, rfl⟩, rfl, rfl⟩
    rintro ⟨hg, hs⟩
    obtain ⟨s, hs2⟩ := Option.ne_none_iff_exists'.1 hs
    exact hno s hg hs2

theorem th_write_longname_next (w : Nat) (f : Bool) (ps : Nat) (t t1 : TAR)
    (hl : t.th_buf.raw.length = 512)
    (h : th_write_longname (libtar w f ps) t = Flow.next t1) :
    (∃ L, t1.output = t.output ++ L ∧
        gnuPart GNU_LONGNAME_TYPE t.options.TAR_GNU t.th_buf.gnu_longname L) ∧
      HdrOK t.th_buf.raw t1.th_buf.raw ∧ t1.options = t.options ∧
      t1.th_buf = { t.th_buf with raw := t1.th_buf.raw } := by
  unfold th_write_longname at h
  split at h
  · rename_i str hg hs
    obtain ⟨⟨X, ds, ho, hx, hd⟩, hh, hopt, -, -⟩ := th_write_gnu_next w f ps _ _ _ _ hl h
    refine ⟨⟨_, ho, ?_⟩, hh, hopt, th_write_gnu_fields _ _ _ _ _ h⟩
    rw [hg, hs]
    exact ⟨X, ds, rfl, hx, hd⟩
  · rename_i hno
    injection h with h
    subst h
    refine ⟨⟨[], by simp, gnuPart_inactive _ _ _ ?_⟩, ⟨hl, rfl, rfl⟩, rfl, rfl⟩
    rintro ⟨hg, hs⟩
    obtain ⟨s, hs2⟩ := Option.ne_none_iff_exists'.1 hs
    exact hno s hg hs2

/-- C23. Under the modelled libtar declarations, for every handle whose header
buffer is a 512-byte block and on which `th_write` succeeds: the extended pairs
written hold, taken together and in the order of the blocks, exactly the records
of the entry in the fixed order SELinux context, encryption policy, capabilities,
user.default, user.inode_cache, user.inode_code_cache (those enabled and
present); each data block is the concatenation of its records from offset 0
followed by zero bytes only; and each extended header declares the total length
of the records of its data block, which is below 512. -/
theorem th_write_data_block_layout (w : Nat) (f : Bool) (ps : Nat) (t : TAR)
    (hl : t.th_buf.raw.length = 512) (hok : (th_write (libtar w f ps) t).1 = 0) :
    ∃ pairs, layout t (th_write (libtar w f ps) t).2.output pairs ∧
      recordsOf pairs = expectedRecords (libtar w f ps) t.options t.th_buf ∧
      (∀ p ∈ pairs, p.2 ≠ [] ∧ th_get_size p.1 = p.2.flatten.length ∧
        p.2.flatten.length < T_BLOCKSIZE) ∧
      ∀ p ∈ pairs, Written.data (p.2.flatten ++
          List.replicate (T_BLOCKSIZE - p.2.flatten.length) 0) ∈
        (th_write (libtar w f ps) t).2.output := by
  unfold th_write at hok ⊢
  cases e1 : th_write_longlink (libtar w f ps) t with
  | ret r t1 =>
    rw [e1] at hok
    unfold th_write_longlink at e1
    split at e1
    · exact absurd (hok.symm.trans (th_write_gnu_ret _ _ _ _ _ _ e1)) (by decide)
    · exact absurd e1 (by simp)
  | next t1 =>
    rw [e1] at hok
    simp only [] at hok ⊢
    obtain ⟨⟨K, hK, gK⟩, hh1, ho1, hf1⟩ := th_write_longlink_next w f ps t t1 hl e1
    cases e2 : th_write_longname (libtar w f ps) t1 with
    | ret r t2 =>
      rw [e2] at hok
      unfold th_write_longname at e2
      split at e2
      · exact absurd (hok.symm.trans (th_write_gnu_ret _ _ _ _ _ _ e2)) (by decide)
      · exact absurd e2 (by simp)
    | next t2 =>
      rw [e2] at hok
      simp only [] at hok ⊢
      obtain ⟨⟨L, hL, gL⟩, hh2, ho2, hf2⟩ := th_write_longname_next w f ps t1 t2 hh1.1 e2
      have hh3 : HdrOK t.th_buf.raw t2.th_buf.raw :=
        ⟨hh2.1, hh2.2.1.trans hh1.2.1, hh2.2.2.trans hh1.2.2⟩
      have hf3 : t2.th_buf = { t.th_buf with raw := t2.th_buf.raw } := by
        rw [hf2, hf1]
      have hn1 : t1.th_buf.gnu_longname = t.th_buf.gnu_longname := by rw [hf1]
      obtain ⟨pairs, F, hout, hg, hrec, h5, h6⟩ :=
        th_write_ext_records w f ps t2 t.th_buf hh3 hf3 hok
      refine ⟨pairs, ⟨K, L, F, ?_, gK, ?_, h5, h6⟩, ?_, ?_, ?_⟩
      · rw [hout, hL, hK]
      · rw [← ho1, ← hn1]
        exact gL
      · rw [hrec, ho2, ho1]
      · intro p hp
        obtain ⟨-, hne, -, hlen, hsz⟩ := hg p hp
        exact ⟨hne, hsz, hlen⟩
      · intro p hp
        rw [hout]
        apply List.mem_append_left
        apply List.mem_append_right
        unfold pairsOut
        rw [List.mem_flatMap]
        exact ⟨p, hp, by simp [blockOf]⟩

set_option maxRecDepth 100000 in
/-- Witness of C23: an entry with a SELinux context of 460 letters and a capability
record, written as two extended pairs. -/
theorem th_write_data_block_layout_witness :
    (entrySelinuxCap 460 sampleCap).th_buf.raw.length = 512 ∧
      (th_write env64 (entrySelinuxCap 460 sampleCap)).1 = 0 ∧
      ∃ pairs, layout (entrySelinuxCap 460 sampleCap)
          (th_write env64 (entrySelinuxCap 460 sampleCap)).2.output pairs ∧
        recordsOf pairs = expectedRecords env64 (entrySelinuxCap 460 sampleCap).options
          (entrySelinuxCap 460 sampleCap).th_buf ∧
        (∀ p ∈ pairs, p.2 ≠ [] ∧ th_get_size p.1 = p.2.flatten.length ∧
          p.2.flatten.length < T_BLOCKSIZE) ∧
        ∀ p ∈ pairs, Written.data (p.2.flatten ++
            List.replicate (T_BLOCKSIZE - p.2.flatten.length) 0) ∈
          (th_write env64 (entrySelinuxCap 460 sampleCap)).2.output :=
  ⟨by decide, by decide,
    th_write_data_block_layout 64 true 12 (entrySelinuxCap 460 sampleCap) (by decide)
      (by decide)⟩

end Libtar

namespace Minui

/-! # minui: lemmas and theorems -/

/-! ## Bit masks as bytes -/

theorem land_shifted_mask (x k n : Nat) :
    x &&& ((2 ^ n - 1) <<< k) = (x / 2 ^ k % 2 ^ n) * 2 ^ k := by
  rw [← Nat.shiftLeft_eq, ← Nat.shiftRight_eq_div_pow, ← Nat.and_pow_two_sub_one_eq_mod]
  apply Nat.eq_of_testBit_eq
  intro i
  simp only [Nat.testBit_and, Nat.testBit_shiftLeft, Nat.testBit_shiftRight]
  by_cases h : i ≥ k
  · have e : k + (i - k) = i := by omega
    simp [h, e]
  · simp [h]

theorem land_ff (x : Nat) : x &&& 0xff = byteAt x 0 := by
  have := Nat.and_pow_two_sub_one_eq_mod x 8
  simpa [byteAt] using this

theorem land_ff00 (x : Nat) : x &&& 0xff00 = byteAt x 8 * 2 ^ 8 :=
  land_shifted_mask x 8 8

theorem land_ff0000 (x : Nat) : x &&& 0xff0000 = byteAt x 16 * 2 ^ 16 :=
  land_shifted_mask x 16 8

theorem land_ff000000 (x : Nat) : x &&& 0xff000000 = byteAt x 24 * 2 ^ 24 :=
  land_shifted_mask x 24 8

theorem byteAt_lt (x k : Nat) : byteAt x k < 256 := Nat.mod_lt _ (by decide)

theorem or_bytes (A B C D : Nat) (hA : A < 256) (hB : B < 256) (hC : C < 256) :
    A ||| B * 2 ^ 8 ||| C * 2 ^ 16 ||| D * 2 ^ 24 =
      A + B * 256 + C * 65536 + D * 16777216 := by
  have e1 : A ||| B * 2 ^ 8 = 2 ^ 8 * B + A := by
    rw [Nat.or_comm, Nat.mul_comm B]
    exact (Nat.mul_add_lt_is_or (by omega) B).symm
  have e2 : (2 ^ 8 * B + A) ||| C * 2 ^ 16 = 2 ^ 16 * C + (2 ^ 8 * B + A) := by
    rw [Nat.or_comm, Nat.mul_comm C]
    exact (Nat.mul_add_lt_is_or (by omega) C).symm
  have e3 : (2 ^ 16 * C + (2 ^ 8 * B + A)) ||| D * 2 ^ 24 =
      2 ^ 24 * D + (2 ^ 16 * C + (2 ^ 8 * B + A)) := by
    rw [Nat.or_comm, Nat.mul_comm D]
    exact (Nat.mul_add_lt_is_or (by omega) D).symm
  rw [e1, e2, e3]
  omega

theorem blend_bound (p c a : Nat) (hp : p < 256) (hc : c < 256) (ha : a ≤ 255) :
    p * (255 - a) + c * a ≤ 65025 := by
  have h1 : p * (255 - a) ≤ 255 * (255 - a) := Nat.mul_le_mul_right _ (by omega)
  have h2 : c * a ≤ 255 * a := Nat.mul_le_mul_right _ (by omega)
  have h3 : 255 * (255 - a) + 255 * a = 65025 := by
    rw [← Nat.mul_add]
    have : 255 - a + a = 255 := by omega
    rw [this]
  omega

theorem blendByte_lt (p c a : Nat) (hp : p < 256) (hc : c < 256) (ha : a ≤ 255) :
    blendByte p c a < 256 := by
  unfold blendByte
  have := blend_bound p c a hp hc ha
  omega

/-- One channel of the blend whose intermediate values stay below 2^32: the byte at
bit `k` of the quotient is the exact blend of the two bytes. -/
theorem channel_exact (p c a k : Nat) (hp : p < 256) (hc : c < 256) (ha : a ≤ 255)
    (hk : 65025 * 2 ^ k < 2 ^ 32) :
    (p * 2 ^ k) * (255 - a) + (c * 2 ^ k) * a < 2 ^ 32 ∧
      byteAt (((p * 2 ^ k) * (255 - a) % 2 ^ 32 + (c * 2 ^ k) * a % 2 ^ 32) % 2 ^ 32 / 255) k =
        blendByte p c a := by
  have hN := blend_bound p c a hp hc ha
  have e : (p * 2 ^ k) * (255 - a) + (c * 2 ^ k) * a = (p * (255 - a) + c * a) * 2 ^ k := by
    ring
  have hpos : 0 < 2 ^ k := Nat.pow_pos (by decide)
  have hlt : (p * 2 ^ k) * (255 - a) + (c * 2 ^ k) * a < 2 ^ 32 := by
    rw [e]
    exact lt_of_le_of_lt (Nat.mul_le_mul_right _ hN) hk
  refine ⟨hlt, ?_⟩
  rw [← Nat.add_mod, Nat.mod_eq_of_lt hlt, e]
  unfold byteAt blendByte
  rw [Nat.div_div_eq_div_mul, Nat.mul_div_mul_right _ _ hpos]
  apply Nat.mod_eq_of_lt
  omega

theorem byteAt_sum (A B C D : Nat) (hA : A < 256) (hB : B < 256) (hC : C < 256)
    (hD : D < 256) :
    byteAt (A + B * 256 + C * 65536 + D * 16777216) 0 = A ∧
      byteAt (A + B * 256 + C * 65536 + D * 16777216) 8 = B ∧
      byteAt (A + B * 256 + C * 65536 + D * 16777216) 16 = C ∧
      byteAt (A + B * 256 + C * 65536 + D * 16777216) 24 = D := by
  unfold byteAt
  refine ⟨?_, ?_, ?_, ?_⟩ <;> norm_num <;> omega

theorem pixel_blend_argb_bytes (g alpha pix : Nat) (h0 : alpha ≠ 0) (h255 : alpha < 255) :
    pixel_blend_argb g alpha pix =
      blendByte (byteAt pix 0) (byteAt g 0) alpha +
        blendByte (byteAt pix 8) (byteAt g 8) alpha * 256 +
        blendByte (byteAt pix 16) (byteAt g 16) alpha * 65536 +
        byteAt g 24 * 16777216 := by
  have ha : alpha ≤ 255 := by omega
  have c0 := channel_exact (byteAt pix 0) (byteAt g 0) alpha 0 (byteAt_lt _ _) (byteAt_lt _ _) ha
    (by decide)
  have c8 := channel_exact (byteAt pix 8) (byteAt g 8) alpha 8 (byteAt_lt _ _) (byteAt_lt _ _) ha
    (by decide)
  have c16 := channel_exact (byteAt pix 16) (byteAt g 16) alpha 16 (byteAt_lt _ _)
    (byteAt_lt _ _) ha (by decide)
  simp only [pixel_blend_argb, if_neg (show ¬ alpha = 255 by omega), if_neg h0]
  rw [land_ff pix, land_ff g, land_ff00 pix, land_ff00 g, land_ff0000 pix, land_ff0000 g,
    land_ff _, land_ff00 _, land_ff0000 _, land_ff000000 g]
  simp only [pow_zero, Nat.mul_one] at c0
  rw [c0.2, c8.2, c16.2]
  exact or_bytes _ _ _ _ (blendByte_lt _ _ _ (byteAt_lt _ _) (byteAt_lt _ _) ha)
    (blendByte_lt _ _ _ (byteAt_lt _ _) (byteAt_lt _ _) ha)
    (blendByte_lt _ _ _ (byteAt_lt _ _) (byteAt_lt _ _) ha)


/-- The first two channels of `pixel_blend_rgba` and its low byte; the channel in
bits 24-31 is the quotient of a sum taken modulo 2^32. -/
theorem pixel_blend_rgba_bytes (g alpha pix : Nat) (h0 : alpha ≠ 0) (h255 : alpha < 255) :
    pixel_blend_rgba g alpha pix =
      byteAt g 0 +
        blendByte (byteAt pix 8) (byteAt g 8) alpha * 256 +
        blendByte (byteAt pix 16) (byteAt g 16) alpha * 65536 +
        byteAt (((byteAt pix 24 * 2 ^ 24) * (255 - alpha) % 2 ^ 32 +
          (byteAt g 24 * 2 ^ 24) * alpha % 2 ^ 32) % 2 ^ 32 / 255) 24 * 16777216 := by
  have ha : alpha ≤ 255 := by omega
  have c8 := channel_exact (byteAt pix 8) (byteAt g 8) alpha 8 (byteAt_lt _ _) (byteAt_lt _ _) ha
    (by decide)
  have c16 := channel_exact (byteAt pix 16) (byteAt g 16) alpha 16 (byteAt_lt _ _)
    (byteAt_lt _ _) ha (by decide)
  simp only [pixel_blend_rgba, if_neg (show ¬ alpha = 255 by omega), if_neg h0]
  rw [land_ff g, land_ff00 pix, land_ff00 g, land_ff0000 pix, land_ff0000 g,
    land_ff000000 pix, land_ff000000 g, land_ff00 _, land_ff0000 _, land_ff000000 _]
  rw [c8.2, c16.2]
  exact or_bytes _ _ _ _ (byteAt_lt _ _)
    (blendByte_lt _ _ _ (byteAt_lt _ _) (byteAt_lt _ _) ha)
    (blendByte_lt _ _ _ (byteAt_lt _ _) (byteAt_lt _ _) ha)

/-! ## C28, C29: the blend functions -/

/-- C28 (failing input). Blending the current colour `0xff0000ff` onto the pixel
`0xff000000` with alpha 128 in the RGBA format: both bytes of the channel in bits
24-31 are 255, so the exact blend is 255, but the sum of the two products is
2^32 or more and is taken modulo 2^32, and the byte of the result is 0. -/
theorem pixel_blend_rgba_top_channel_wraps :
    blendByte (byteAt 0xff000000 24) (byteAt 0xff0000ff 24) 128 = 255 ∧
      2 ^ 32 ≤ (0xff000000 &&& 0xff000000) * (255 - 128) + (0xff0000ff &&& 0xff000000) * 128 ∧
      pixel_blend_rgba 0xff0000ff 128 0xff000000 = 0x000000ff ∧
      byteAt (pixel_blend_rgba 0xff0000ff 128 0xff000000) 24 = 0 := by
  decide

/-- The part of C28 that holds: for 0 < alpha < 255 the bytes of the result in
bits 8-15 and 16-23 are the exact blends of the bytes of the pixel and of the
current colour, and the low byte is the low byte of the current colour. -/
theorem pixel_blend_rgba_low_channels (g alpha pix : Nat) (h0 : 0 < alpha) (h255 : alpha < 255) :
    byteAt (pixel_blend_rgba g alpha pix) 0 = byteAt g 0 ∧
      byteAt (pixel_blend_rgba g alpha pix) 8 = blendByte (byteAt pix 8) (byteAt g 8) alpha ∧
      byteAt (pixel_blend_rgba g alpha pix) 16 =
        blendByte (byteAt pix 16) (byteAt g 16) alpha := by
  have ha : alpha ≤ 255 := by omega
  rw [pixel_blend_rgba_bytes g alpha pix (by omega) h255]
  have h := byteAt_sum (byteAt g 0) (blendByte (byteAt pix 8) (byteAt g 8) alpha)
    (blendByte (byteAt pix 16) (byteAt g 16) alpha)
    (byteAt (((byteAt pix 24 * 2 ^ 24) * (255 - alpha) % 2 ^ 32 +
          (byteAt g 24 * 2 ^ 24) * alpha % 2 ^ 32) % 2 ^ 32 / 255) 24)
    (byteAt_lt _ _) (blendByte_lt _ _ _ (byteAt_lt _ _) (byteAt_lt _ _) ha)
    (blendByte_lt _ _ _ (byteAt_lt _ _) (byteAt_lt _ _) ha) (byteAt_lt _ _)
  exact ⟨h.1, h.2.1, h.2.2.1⟩

/-- Witness of the part of C28 that holds. -/
theorem pixel_blend_rgba_low_channels_witness :
    byteAt (pixel_blend_rgba 0x336699ff 128 0x11223344) 8 =
      blendByte (byteAt 0x11223344 8) (byteAt 0x336699ff 8) 128 :=
  (pixel_blend_rgba_low_channels 0x336699ff 128 0x11223344 (by decide) (by decide)).2.1

/-- C29. `pixel_blend_argb` returns the current colour for alpha 255 and the pixel
for alpha 0; for 0 < alpha < 255 the bytes of the result in bits 0-7, 8-15 and
16-23 are the exact blends `(p * (255 - alpha) + c * alpha) / 255` of the bytes of
the pixel and of the current colour, the top byte is the top byte of the current
colour, and in each channel the sum of the two products is below 2^32. -/
theorem pixel_blend_argb_exact (g alpha pix : Nat) :
    pixel_blend_argb g 255 pix = g ∧ pixel_blend_argb g 0 pix = pix ∧
      (0 < alpha → alpha < 255 →
        byteAt (pixel_blend_argb g alpha pix) 0 = blendByte (byteAt pix 0) (byteAt g 0) alpha ∧
        byteAt (pixel_blend_argb g alpha pix) 8 = blendByte (byteAt pix 8) (byteAt g 8) alpha ∧
        byteAt (pixel_blend_argb g alpha pix) 16 =
          blendByte (byteAt pix 16) (byteAt g 16) alpha ∧
        byteAt (pixel_blend_argb g alpha pix) 24 = byteAt g 24 ∧
        (pix &&& 0xff) * (255 - alpha) + (g &&& 0xff) * alpha < 2 ^ 32 ∧
        (pix &&& 0xff00) * (255 - alpha) + (g &&& 0xff00) * alpha < 2 ^ 32 ∧
        (pix &&& 0xff0000) * (255 - alpha) + (g &&& 0xff0000) * alpha < 2 ^ 32) := by
  refine ⟨by simp [pixel_blend_argb], by simp [pixel_blend_argb], ?_⟩
  intro h0 h255
  have ha : alpha ≤ 255 := by omega
  have c0 := channel_exact (byteAt pix 0) (byteAt g 0) alpha 0 (byteAt_lt _ _) (byteAt_lt _ _) ha
    (by decide)
  have c8 := channel_exact (byteAt pix 8) (byteAt g 8) alpha 8 (byteAt_lt _ _) (byteAt_lt _ _) ha
    (by decide)
  have c16 := channel_exact (byteAt pix 16) (byteAt g 16) alpha 16 (byteAt_lt _ _)
    (byteAt_lt _ _) ha (by decide)
  simp only [pow_zero, Nat.mul_one] at c0
  rw [pixel_blend_argb_bytes g alpha pix (by omega) h255, land_ff pix, land_ff g, land_ff00 pix,
    land_ff00 g, land_ff0000 pix, land_ff0000 g]
  have h := byteAt_sum (blendByte (byteAt pix 0) (byteAt g 0) alpha)
    (blendByte (byteAt pix 8) (byteAt g 8) alpha)
    (blendByte (byteAt pix 16) (byteAt g 16) alpha) (byteAt g 24)
    (blendByte_lt _ _ _ (byteAt_lt _ _) (byteAt_lt _ _) ha)
    (blendByte_lt _ _ _ (byteAt_lt _ _) (byteAt_lt _ _) ha)
    (blendByte_lt _ _ _ (byteAt_lt _ _) (byteAt_lt _ _) ha) (byteAt_lt _ _)
  exact ⟨h.1, h.2.1, h.2.2.1, h.2.2.2, c0.1, c8.1, c16.1⟩

/-- Witness of C29: the colour `0xff336699` blended onto `0x00112233` with alpha
128. -/
theorem pixel_blend_argb_exact_witness :
    byteAt (pixel_blend_argb 0xff336699 128 0x112233) 0 =
        blendByte (byteAt 0x112233 0) (byteAt 0xff336699 0) 128 ∧
      byteAt (pixel_blend_argb 0xff336699 128 0x112233) 24 = byteAt 0xff336699 24 :=
  ⟨((pixel_blend_argb_exact 0xff336699 128 0x112233).2.2 (by decide) (by decide)).1,
    ((pixel_blend_argb_exact 0xff336699 128 0x112233).2.2 (by decide) (by decide)).2.2.2.1⟩

/-- C30 (failing input). Rotation RIGHT on a surface of width 4 and height 3 with
rows of 4 pixels: the coordinate (2, 0) is not outside, and `PixelAt` computes the
offset 12, which is the number of pixels of the surface and so the offset of no
pixel of it (for every in-range coordinate with y = 0 the column is the width). -/
theorem PixelAt_right_leaves_surface :
    outside GRRotation.RIGHT ⟨4, 3⟩ 2 0 = false ∧
      PixelAt GRRotation.RIGHT ⟨4, 3⟩ 2 0 4 = some 12 ∧
      ¬ inSurface ⟨4, 3⟩ 4 12 ∧
      ∀ x : Int, PixelAt GRRotation.RIGHT ⟨4, 3⟩ x 0 4 = some (x * 4 + 4) := by
  refine ⟨by decide, by decide, ?_, fun x => rfl⟩
  rintro ⟨row, col, h, h1, h2, h3, h4⟩
  simp only [Nat.cast_ofNat] at h2 h4
  omega

/-- The part of C30 that holds: for the rotations NONE, DOWN and LEFT, and for
RIGHT when y is not 0, a coordinate that is not outside is mapped to the offset of
a pixel of the surface. -/
theorem PixelAt_in_surface (rotation : GRRotation) (s : GRSurface) (x y row_pixels : Int)
    (hr : rotation ≠ GRRotation.other) (hy : rotation = GRRotation.RIGHT → y ≠ 0)
    (ho : outside rotation s x y = false) :
    ∃ off, PixelAt rotation s x y row_pixels = some off ∧ inSurface s row_pixels off := by
  simp only [outside, Bool.or_eq_false_iff, decide_eq_false_iff_not, not_lt, ge_iff_le,
    not_le] at ho
  obtain ⟨⟨⟨hx0, hx1⟩, hy0⟩, hy1⟩ := ho
  cases rotation with
  | NONE =>
    simp at hx1 hy1
    exact ⟨_, rfl, y, x, rfl, hy0, hy1, hx0, hx1⟩
  | RIGHT =>
    simp at hx1 hy1
    have := hy rfl
    exact ⟨_, rfl, x, s.width - y, rfl, hx0, hx1, by omega, by omega⟩
  | DOWN =>
    simp at hx1 hy1
    exact ⟨_, rfl, s.height - 1 - y, s.width - 1 - x, rfl, by omega, by omega, by omega,
      by omega⟩
  | LEFT =>
    simp at hx1 hy1
    exact ⟨_, rfl, s.height - 1 - x, y, rfl, by omega, by omega, hy0, hy1⟩
  | other => exact absurd rfl hr

/-- Witness of the part of C30 that holds. -/
theorem PixelAt_in_surface_witness :
    ∃ off, PixelAt GRRotation.LEFT ⟨4, 3⟩ 2 3 4 = some off ∧ inSurface ⟨4, 3⟩ 4 off :=
  PixelAt_in_surface GRRotation.LEFT ⟨4, 3⟩ 2 3 4 (by decide) (by decide) (by decide)

/-! ## C30: PixelAt -/

theorem rowcol_inj (rp w r1 r2 c1 c2 : Int) (hrp : w ≤ rp)
    (h : r1 * rp + c1 = r2 * rp + c2) (h1 : 0 ≤ c1) (h2 : c1 < w) (h3 : 0 ≤ c2) (h4 : c2 < w) :
    r1 = r2 ∧ c1 = c2 := by
  have hpos : 0 ≤ rp := by omega
  rcases lt_trichotomy r1 r2 with hlt | heq | hgt
  · have : (r1 + 1) * rp ≤ r2 * rp := mul_le_mul_of_nonneg_right (by omega) hpos
    have e : (r1 + 1) * rp = r1 * rp + rp := by ring
    omega
  · subst heq
    exact ⟨rfl, by omega⟩
  · have : (r2 + 1) * rp ≤ r1 * rp := mul_le_mul_of_nonneg_right (by omega) hpos
    have e : (r2 + 1) * rp = r2 * rp + rp := by ring
    omega

/-- Two coordinates that are not outside and are mapped to the same offset are
equal, for each of the four rotations, when a row has at least `width` pixels. -/
theorem PixelAt_injective (rotation : GRRotation) (s : GRSurface) (x y x' y' row_pixels : Int)
    (hr : rotation ≠ GRRotation.other) (hrp : (s.width : Int) ≤ row_pixels)
    (ho : outside rotation s x y = false) (ho' : outside rotation s x' y' = false)
    (h : PixelAt rotation s x y row_pixels = PixelAt rotation s x' y' row_pixels) :
    x = x' ∧ y = y' := by
  simp only [outside, Bool.or_eq_false_iff, decide_eq_false_iff_not, not_lt, ge_iff_le,
    not_le] at ho ho'
  obtain ⟨⟨⟨hx0, hx1⟩, hy0⟩, hy1⟩ := ho
  obtain ⟨⟨⟨hx0', hx1'⟩, hy0'⟩, hy1'⟩ := ho'
  cases rotation with
  | NONE =>
    simp at hx1 hy1 hx1' hy1'
    simp only [PixelAt, Option.some.injEq] at h
    have := rowcol_inj row_pixels s.width y y' x x' hrp h hx0 hx1 hx0' hx1'
    exact ⟨this.2, this.1⟩
  | RIGHT =>
    simp at hx1 hy1 hx1' hy1'
    simp only [PixelAt, Option.some.injEq] at h
    have := rowcol_inj row_pixels s.width x x' (s.width - y - 1) (s.width - y' - 1) hrp
      (by omega) (by omega) (by omega) (by omega) (by omega)
    exact ⟨this.1, by omega⟩
  | DOWN =>
    simp at hx1 hy1 hx1' hy1'
    simp only [PixelAt, Option.some.injEq] at h
    have := rowcol_inj row_pixels s.width (s.height - 1 - y) (s.height - 1 - y')
      (s.width - 1 - x) (s.width - 1 - x') hrp h (by omega) (by omega) (by omega) (by omega)
    exact ⟨by omega, by omega⟩
  | LEFT =>
    simp at hx1 hy1 hx1' hy1'
    simp only [PixelAt, Option.some.injEq] at h
    have := rowcol_inj row_pixels s.width (s.height - 1 - x) (s.height - 1 - x') y y' hrp h
      hy0 hy1 hy0' hy1'
    exact ⟨by omega, this.2⟩
  | other => exact absurd rfl hr

/-! ## C31: blend_16bpp -/

/-- C31 (failing input). The pixel with the bytes (224, 0) is the packing of red
0, green 7, blue 0.  `blend_16bpp` reads red 0 and blue 0 from it, but green 56;
with alpha 0 it stores (0, 7), the packing of green 56, so the pixel is changed;
blending green 7 onto it with alpha 128 stores the packing of green 31. -/
theorem blend_16bpp_swaps_green_halves :
    pack_rgb_555 0 7 0 = (224, 0) ∧ oldred (224, 0) = 0 ∧ oldblue (224, 0) = 0 ∧
    oldgreen (224, 0) = 56 ∧ blend_16bpp (224, 0) 0 0 0 0 = (0, 7) ∧
    pack_rgb_555 0 56 0 = (0, 7) ∧
    blend_16bpp (224, 0) 0 7 0 128 = (224, 3) ∧ pack_rgb_555 0 31 0 = (224, 3) := by decide

/-- The part of C31 that holds for the fields: from the packing of a 5/6/5-bit
colour `blend_16bpp` reads the red and the blue field as stored; the green field it
reads has the two three-bit halves of the stored green exchanged. -/
theorem blend_16bpp_fields_read (r5 g5 b5 : Nat) (hr : r5 < 32) (hg : g5 < 64) (hb : b5 < 32) :
    oldred (pack_rgb_555 r5 g5 b5) = r5 ∧ oldblue (pack_rgb_555 r5 g5 b5) = b5 ∧
    oldgreen (pack_rgb_555 r5 g5 b5) = g5 % 8 * 8 + g5 / 8 := by
  have h7 : ∀ x : Nat, x &&& 0x7 = x % 8 := fun x => Nat.and_pow_two_sub_one_eq_mod x 3
  have h1f : ∀ x : Nat, x &&& 0x1F = x % 32 := fun x => Nat.and_pow_two_sub_one_eq_mod x 5
  simp only [oldred, oldblue, oldgreen, pack_rgb_555, Nat.shiftLeft_eq, Nat.shiftRight_eq_div_pow,
    h7, h1f]
  norm_num
  omega

/-- Witness of the fields read from the packing of red 3, green 9, blue 5. -/
theorem blend_16bpp_fields_read_witness :
    oldred (pack_rgb_555 3 9 5) = 3 ∧ oldblue (pack_rgb_555 3 9 5) = 5 ∧
    oldgreen (pack_rgb_555 3 9 5) = 9 % 8 * 8 + 9 / 8 :=
  blend_16bpp_fields_read 3 9 5 (by decide) (by decide) (by decide)

/-- A channel below 64 multiplied by 255 in 32 bits and divided by 255 is the
channel. -/
theorem mul_255_div (x : Nat) (h : x < 64) : x * 255 % 4294967296 / 255 = x := by
  rw [Nat.mod_eq_of_lt (by omega), Nat.mul_div_cancel _ (by norm_num)]

/-- The part of C31 that holds for alpha 255: for every pixel and every
5/6/5-bit colour `blend_16bpp` stores the packing of the colour. -/
theorem blend_16bpp_alpha_255 (px : Nat × Nat) (r5 g5 b5 : Nat)
    (hr : r5 < 32) (hg : g5 < 64) (hb : b5 < 32) :
    blend_16bpp px r5 g5 b5 255 = pack_rgb_555 r5 g5 b5 := by
  simp only [blend_16bpp, pack_rgb_555, Nat.shiftLeft_eq, Nat.shiftRight_eq_div_pow]
  norm_num
  rw [mul_255_div r5 (by omega), mul_255_div g5 hg, mul_255_div b5 (by omega)]
  constructor <;> omega

/-- Witness of the part of C31 that holds for alpha 255. -/
theorem blend_16bpp_alpha_255_witness :
    blend_16bpp (224, 0) 31 63 31 255 = pack_rgb_555 31 63 31 :=
  blend_16bpp_alpha_255 (224, 0) 31 63 31 (by decide) (by decide) (by decide)

/-- What alpha 0 does: the pixel holding the packing of (`r`, `g`, `b`) becomes
the packing of the colour whose green has its two three-bit halves exchanged. -/
theorem blend_16bpp_alpha_0 (r g b r5 g5 b5 : Nat) (hr : r < 32) (hg : g < 64) (hb : b < 32) :
    blend_16bpp (pack_rgb_555 r g b) r5 g5 b5 0 = pack_rgb_555 r (g % 8 * 8 + g / 8) b := by
  obtain ⟨e1, e2, e3⟩ := blend_16bpp_fields_read r g b hr hg hb
  simp only [blend_16bpp, e1, e2, e3]
  simp only [pack_rgb_555, Nat.shiftLeft_eq, Nat.shiftRight_eq_div_pow]
  norm_num
  rw [mul_255_div r (by omega), mul_255_div b (by omega),
    mul_255_div (g % 8 * 8 + g / 8) (by omega)]
  constructor <;> omega

/-- Witness of what alpha 0 does. -/
theorem blend_16bpp_alpha_0_witness :
    blend_16bpp (pack_rgb_555 3 9 5) 0 0 0 0 = pack_rgb_555 3 (9 % 8 * 8 + 9 / 8) 5 :=
  blend_16bpp_alpha_0 3 9 5 0 0 0 (by decide) (by decide) (by decide)

/-! ## C32: gr_blit_32to16 -/

/-- C32 (failing input). A blit of width 2 and height 1 from a source row of three
pixels onto a black row of two pixels; source pixel 0 is white with alpha 128 and
source pixel 2, outside the rectangle, is opaque blue.  Whatever source pixel 1 is,
the row ends as the bytes 31, 0, 0, 0: destination pixel 0 is the conversion of
source pixel 2 and destination pixel 1 is unchanged, where the description gives
the blend (239, 123) for pixel 0 and, for an opaque green source pixel 1, the
conversion (224, 7) for pixel 1. -/
theorem gr_blit_32to16_blend_skips_pixel :
    (∀ r g b a : Nat,
      gr_blit_32to16 GRRotation.NONE ⟨2, 1⟩ ⟨[0, 0, 0, 0], 4, 2⟩ 0 0
        ⟨[255, 255, 255, 128, r, g, b, a, 0, 0, 255, 255], 12, 4⟩ 0 0 2 1 0 0
        = [31, 0, 0, 0]) ∧
    spec_blit_pixel [255, 255, 255, 128] (0, 0) = (239, 123) ∧
    spec_blit_pixel [0, 255, 0, 255] (0, 0) = (224, 7) := by
  refine ⟨fun r g b a => ?_, by decide, by decide⟩
  simp [gr_blit_32to16, outside, gr_blit_32to16_rows, gr_blit_32to16_row, gr_blit_32to16_pixel, store16, pixel16,
    scale_channel, pack_rgb_555, blend_16bpp, oldred, oldgreen, oldblue]

/-- The advance of the two positions in one iteration of the inner loop of
`gr_blit_32to16`: one source pixel and one destination pixel for alpha 0, four
bytes and two bytes for alpha 255, and for every other alpha four bytes plus one
source pixel for `spx` and nothing for `dpx`. -/
theorem gr_blit_32to16_pixel_advance (source_pixel_bytes draw_pixel_bytes : Nat) (src : List Nat)
    (s : BlitState) :
    (src.getD (s.spx + 3) 0 = 0 →
      (gr_blit_32to16_pixel source_pixel_bytes draw_pixel_bytes src s).spx = s.spx + source_pixel_bytes ∧
      (gr_blit_32to16_pixel source_pixel_bytes draw_pixel_bytes src s).dpx = s.dpx + draw_pixel_bytes) ∧
    (src.getD (s.spx + 3) 0 = 255 →
      (gr_blit_32to16_pixel source_pixel_bytes draw_pixel_bytes src s).spx = s.spx + 4 ∧
      (gr_blit_32to16_pixel source_pixel_bytes draw_pixel_bytes src s).dpx = s.dpx + 2) ∧
    (src.getD (s.spx + 3) 0 ≠ 0 → src.getD (s.spx + 3) 0 ≠ 255 →
      (gr_blit_32to16_pixel source_pixel_bytes draw_pixel_bytes src s).spx
        = s.spx + 4 + source_pixel_bytes ∧
      (gr_blit_32to16_pixel source_pixel_bytes draw_pixel_bytes src s).dpx = s.dpx) := by
  refine ⟨fun h => ?_, fun h => ?_, fun h h2 => ?_⟩
  · simp only [gr_blit_32to16_pixel, h, if_true, and_self]
  · simp only [gr_blit_32to16_pixel, h, if_neg (by decide : ¬ (255 : Nat) = 0), if_true, and_self]
  · simp only [gr_blit_32to16_pixel, if_neg h, if_neg h2, and_self]

/-- Reading a list after one store. -/
theorem getD_set_nat (l : List Nat) (i j v : Nat) :
    (l.set i v).getD j 0 = if i = j ∧ i < l.length then v else l.getD j 0 := by
  simp only [List.getD_eq_getElem?_getD, List.getElem?_set]
  by_cases h : i = j
  · subst h
    by_cases h2 : i < l.length
    · simp [h2]
    · simp [h2]
      simp at h2
      rw [List.getElem?_eq_none h2]
      rfl
  · simp [h]

/-- Storing a pixel keeps the length of the data. -/
theorem store16_length (l : List Nat) (off : Nat) (p : Nat × Nat) :
    (store16 l off p).length = l.length := by
  simp [store16]

/-- Reading the data after storing a pixel inside it. -/
theorem store16_getD (l : List Nat) (off k : Nat) (p : Nat × Nat) (h : off + 2 ≤ l.length) :
    (store16 l off p).getD k 0
      = if k = off then p.1 else if k = off + 1 then p.2 else l.getD k 0 := by
  simp only [store16, getD_set_nat, List.length_set]
  by_cases h1 : k = off
  · subst h1
    simp
    omega
  · by_cases h2 : k = off + 1
    · subst h2
      simp
      omega
    · have e1 : ¬ (off + 1 = k ∧ off + 1 < l.length) := fun h => h2 h.1.symm
      have e2 : ¬ (off = k ∧ off < l.length) := fun h => h1 h.1.symm
      simp [e1, e2, h1, h2]

/-- One iteration of the inner loop on a source pixel whose alpha is 0 or 255,
for a four-byte source and a two-byte destination: both positions advance by one
pixel, the destination pixel becomes what the description gives and the other
bytes are unchanged. -/
theorem gr_blit_32to16_pixel_no_blend (src dst : List Nat) (sp dp : Nat)
    (ha : src.getD (sp + 3) 0 = 0 ∨ src.getD (sp + 3) 0 = 255)
    (hd : dp + 2 ≤ dst.length) :
    (gr_blit_32to16_pixel 4 2 src ⟨sp, dp, dst⟩).spx = sp + 4 ∧
    (gr_blit_32to16_pixel 4 2 src ⟨sp, dp, dst⟩).dpx = dp + 2 ∧
    (gr_blit_32to16_pixel 4 2 src ⟨sp, dp, dst⟩).dst.length = dst.length ∧
    pixel16 (gr_blit_32to16_pixel 4 2 src ⟨sp, dp, dst⟩).dst dp
      = spec_blit_pixel [src.getD sp 0, src.getD (sp + 1) 0, src.getD (sp + 2) 0,
          src.getD (sp + 3) 0] (pixel16 dst dp) ∧
    ∀ k, k < dp ∨ dp + 2 ≤ k →
      (gr_blit_32to16_pixel 4 2 src ⟨sp, dp, dst⟩).dst.getD k 0 = dst.getD k 0 := by
  rcases ha with ha | ha
  · simp only [gr_blit_32to16_pixel, ha, if_true, spec_blit_pixel, List.getD_cons_succ, List.getD_cons_zero]
    simp
  · simp only [gr_blit_32to16_pixel, ha, if_neg (by decide : ¬ (255 : Nat) = 0), if_true, spec_blit_pixel,
      List.getD_cons_succ, List.getD_cons_zero, store16_length]
    refine ⟨trivial, trivial, trivial, ?_, fun k hk => ?_⟩
    · simp only [pixel16, store16_getD _ _ _ _ hd]
      simp
    · rw [store16_getD _ _ _ _ hd, if_neg (by omega), if_neg (by omega)]

/-- The part of C32 that holds: in a row whose source pixels all have alpha 0 or
255, for a four-byte source and a two-byte destination, destination pixel `j` after
the row is what the description gives for source pixel `j` and the previous
destination pixel `j`, and the bytes outside the row are unchanged. -/
theorem gr_blit_32to16_row_no_blend (src : List Nat) (w : Nat) :
    ∀ (dst : List Nat) (sp dp : Nat),
    (∀ j, j < w → src.getD (sp + 4 * j + 3) 0 = 0 ∨ src.getD (sp + 4 * j + 3) 0 = 255) →
    dp + 2 * w ≤ dst.length →
    (gr_blit_32to16_row 4 2 src w ⟨sp, dp, dst⟩).spx = sp + 4 * w ∧
    (gr_blit_32to16_row 4 2 src w ⟨sp, dp, dst⟩).dpx = dp + 2 * w ∧
    (gr_blit_32to16_row 4 2 src w ⟨sp, dp, dst⟩).dst.length = dst.length ∧
    (∀ j, j < w → pixel16 (gr_blit_32to16_row 4 2 src w ⟨sp, dp, dst⟩).dst (dp + 2 * j)
      = spec_blit_pixel [src.getD (sp + 4 * j) 0, src.getD (sp + 4 * j + 1) 0,
          src.getD (sp + 4 * j + 2) 0, src.getD (sp + 4 * j + 3) 0]
          (pixel16 dst (dp + 2 * j))) ∧
    ∀ k, k < dp ∨ dp + 2 * w ≤ k →
      (gr_blit_32to16_row 4 2 src w ⟨sp, dp, dst⟩).dst.getD k 0 = dst.getD k 0 := by
  induction w with
  | zero =>
    intro dst sp dp _ _
    exact ⟨rfl, rfl, rfl, fun j hj => absurd hj (Nat.not_lt_zero j), fun k _ => rfl⟩
  | succ w ih =>
    intro dst sp dp ha hd
    obtain ⟨p1, p2, p3, p4, p5⟩ :=
      gr_blit_32to16_pixel_no_blend src dst sp dp (by simpa using ha 0 (Nat.succ_pos w)) (by omega)
    have hst : gr_blit_32to16_pixel 4 2 src ⟨sp, dp, dst⟩
        = ⟨sp + 4, dp + 2, (gr_blit_32to16_pixel 4 2 src ⟨sp, dp, dst⟩).dst⟩ := by
      rw [← p1, ← p2]
    obtain ⟨q1, q2, q3, q4, q5⟩ := ih (gr_blit_32to16_pixel 4 2 src ⟨sp, dp, dst⟩).dst (sp + 4) (dp + 2)
      (fun j hj => by
        have := ha (j + 1) (by omega)
        rwa [show sp + 4 * (j + 1) + 3 = sp + 4 + 4 * j + 3 by omega] at this)
      (by rw [p3]; omega)
    have hrow : gr_blit_32to16_row 4 2 src (w + 1) ⟨sp, dp, dst⟩
        = gr_blit_32to16_row 4 2 src w ⟨sp + 4, dp + 2, (gr_blit_32to16_pixel 4 2 src ⟨sp, dp, dst⟩).dst⟩ := by
      rw [← hst]
      rfl
    rw [hrow]
    refine ⟨by rw [q1]; omega, by rw [q2]; omega, by rw [q3, p3], fun j hj => ?_, fun k hk => ?_⟩
    · cases j with
      | zero =>
        simp only [Nat.mul_zero, Nat.add_zero]
        rw [← p4]
        simp only [pixel16]
        rw [q5 dp (by omega), q5 (dp + 1) (by omega)]
      | succ j =>
        have := q4 j (by omega)
        rw [show dp + 2 * (j + 1) = dp + 2 + 2 * j by omega,
          show sp + 4 * (j + 1) = sp + 4 + 4 * j by omega, this]
        simp only [pixel16]
        rw [p5 (dp + 2 + 2 * j) (by omega), p5 (dp + 2 + 2 * j + 1) (by omega)]
    · rw [q5 k (by omega), p5 k (by omega)]

/-- Witness of the part of C32 that holds. -/
theorem gr_blit_32to16_row_no_blend_witness :
    pixel16 (gr_blit_32to16_row 4 2 [9, 9, 9, 0, 0, 255, 0, 255] 2 ⟨0, 0, [1, 2, 3, 4]⟩).dst 2
      = spec_blit_pixel [0, 255, 0, 255] (3, 4) :=
  (gr_blit_32to16_row_no_blend [9, 9, 9, 0, 0, 255, 0, 255] 2 [1, 2, 3, 4] 0 0
    (by decide) (by decide)).2.2.2.1 1 (by decide)

end Minui
